import Mathlib

/-!
Verification of the open-dan agent core against its specification.

The definitions below are shallow embeddings of the Go source:

  - `OpenDan.LLM`        : message/tool-call data model, error classification
                           (src/internal/llm/types.go, part_006) and the
                           fallback provider chain (part_007).
  - `OpenDan.Agent`      : the agent loop `processMessage` (part_003) with the
                           context manager (src/internal/agent/context.go).

Machine strings are Lean `String`; Go byte lengths are `String.utf8ByteSize`.
-/

namespace OpenDan
namespace LLM

/-- Mirror of `llm.ToolCall` (src/internal/llm/types.go): `Arguments` is raw
JSON kept as a string. -/
structure ToolCall where
  id : String
  name : String
  arguments : String
deriving Repr, DecidableEq

/-- Mirror of `llm.Message` (src/internal/llm/types.go). -/
structure Message where
  role : String
  content : String
  toolCalls : List ToolCall := []
  toolCallID : String := ""
deriving Repr, DecidableEq

/-- Mirror of `llm.LLMResponse` (usage and stop reason omitted: no claim
mentions them and no modelled control flow reads them). -/
structure LLMResponse where
  content : String
  toolCalls : List ToolCall := []
deriving Repr, DecidableEq

/-- Mirror of `llm.ErrorType` (src/internal/llm/types.go). -/
inductive ErrorType where
  | unknown | rateLimit | auth | invalidInput | serverError | timeout | network
deriving Repr, DecidableEq

/-- Mirror of `llm.LLMError` (part_006): the wrapped cause is irrelevant to
the fallback logic, only the classification and message are kept. -/
structure LLMError where
  type : ErrorType
  message : String := ""
deriving Repr, DecidableEq

/-- A Go `error` returned by a provider: either a classified `*LLMError` or
any other error value (`errors.As` fails on it). -/
inductive ChatError where
  | llm (e : LLMError)
  | plain (msg : String)
deriving Repr, DecidableEq

deriving instance DecidableEq for Except

/-- One provider's outcome for a request: `p.Chat(ctx, req)` returns either a
response or an error. -/
abbrev ProvOutcome := Except ChatError LLMResponse

/-- Mirror of `isRetryable` (part_007 lines 66-79): a non-`LLMError` is
retryable; `Auth` and `InvalidInput` are not; everything else is. -/
def isRetryable : ChatError → Bool
  | .plain _ => true
  | .llm e =>
    match e.type with
    | .auth => false
    | .invalidInput => false
    | .rateLimit => true
    | .serverError => true
    | .timeout => true
    | .network => true
    | .unknown => true

/-- Mirror of `FallbackProvider.Chat` (part_007 lines 33-47). A provider list
is modelled by the outcome each provider would return for the request; the
result pairs the Go `(*LLMResponse, error)` return. The third component
counts how many providers were actually invoked. -/
def fallbackChat : List ProvOutcome → Option ChatError →
    Option LLMResponse × Option ChatError × Nat
  | [], lastErr => (none, lastErr, 0)
  | o :: rest, lastErr =>
    match o with
    | .ok resp => (some resp, none, 1)
    | .error e =>
      if isRetryable e then
        let (r, le, n) := fallbackChat rest (some e)
        (r, le, n + 1)
      else
        (none, some e, 1)

/-- An outcome that is an error the chain retries past. -/
def isRetryErr (o : ProvOutcome) : Bool :=
  match o with
  | .error e => isRetryable e
  | .ok _ => false

lemma fb_nonretry (pre : List ProvOutcome) (rest : List ProvOutcome) (e : ChatError)
    (hpre : ∀ o ∈ pre, isRetryErr o = true) (he : isRetryable e = false) :
    ∀ le, fallbackChat (pre ++ .error e :: rest) le = (none, some e, pre.length + 1) := by
  induction pre with
  | nil => intro le; simp [fallbackChat, he]
  | cons o os ih =>
    intro le
    obtain ⟨e', rfl⟩ : ∃ e', o = .error e' := by
      cases o with
      | ok r => exact absurd (hpre _ (List.mem_cons_self ..)) (by simp [isRetryErr])
      | error e' => exact ⟨e', rfl⟩
    have hr : isRetryable e' = true := by
      simpa [isRetryErr] using hpre _ (List.mem_cons_self ..)
    have ihs := ih (fun o ho => hpre o (List.mem_cons_of_mem _ ho)) (some e')
    simp [fallbackChat, hr, ihs]

lemma fb_ok (pre : List ProvOutcome) (rest : List ProvOutcome) (r : LLMResponse)
    (hpre : ∀ o ∈ pre, isRetryErr o = true) :
    ∀ le, fallbackChat (pre ++ .ok r :: rest) le = (some r, none, pre.length + 1) := by
  induction pre with
  | nil => intro le; simp [fallbackChat]
  | cons o os ih =>
    intro le
    obtain ⟨e', rfl⟩ : ∃ e', o = .error e' := by
      cases o with
      | ok r' => exact absurd (hpre _ (List.mem_cons_self ..)) (by simp [isRetryErr])
      | error e' => exact ⟨e', rfl⟩
    have hr : isRetryable e' = true := by
      simpa [isRetryErr] using hpre _ (List.mem_cons_self ..)
    have ihs := ih (fun o ho => hpre o (List.mem_cons_of_mem _ ho)) (some e')
    simp [fallbackChat, hr, ihs]

lemma fb_allretry (pre : List ProvOutcome) (e : ChatError)
    (hpre : ∀ o ∈ pre, isRetryErr o = true) (he : isRetryable e = true) :
    ∀ le, fallbackChat (pre ++ [.error e]) le = (none, some e, pre.length + 1) := by
  induction pre with
  | nil => intro le; simp [fallbackChat, he]
  | cons o os ih =>
    intro le
    obtain ⟨e', rfl⟩ : ∃ e', o = .error e' := by
      cases o with
      | ok r' => exact absurd (hpre _ (List.mem_cons_self ..)) (by simp [isRetryErr])
      | error e' => exact ⟨e', rfl⟩
    have hr : isRetryable e' = true := by
      simpa [isRetryErr] using hpre _ (List.mem_cons_self ..)
    have ihs := ih (fun o ho => hpre o (List.mem_cons_of_mem _ ho)) (some e')
    simp [fallbackChat, hr, ihs]

/-- C2: the fallback chain tries providers in order. A non-retryable error
(exactly the `Auth`/`InvalidInput` classifications) is returned immediately,
invoking only the providers up to and including the failing one; a success
after retryable failures is returned having invoked exactly the providers up
to it; when every provider fails retryably the last error is returned after
invoking all of them. -/
theorem fallback_chain_order_spec :
    (∀ e, isRetryable e = false ↔
      ∃ le, e = ChatError.llm le ∧ (le.type = .auth ∨ le.type = .invalidInput)) ∧
    (∀ pre rest e, (∀ o ∈ pre, isRetryErr o = true) → isRetryable e = false →
      fallbackChat (pre ++ .error e :: rest) none = (none, some e, pre.length + 1)) ∧
    (∀ pre rest r, (∀ o ∈ pre, isRetryErr o = true) →
      fallbackChat (pre ++ .ok r :: rest) none = (some r, none, pre.length + 1)) ∧
    (∀ pre e, (∀ o ∈ pre, isRetryErr o = true) → isRetryable e = true →
      fallbackChat (pre ++ [.error e]) none = (none, some e, pre.length + 1)) := by
  refine ⟨?_, ?_, ?_, ?_⟩
  · intro e
    constructor
    · intro h
      cases e with
      | plain m => simp [isRetryable] at h
      | llm le =>
        refine ⟨le, rfl, ?_⟩
        cases hty : le.type <;> simp [isRetryable, hty] at h ⊢
    · rintro ⟨le, rfl, h | h⟩ <;> simp [isRetryable, h]
  · intro pre rest e hpre he
    exact fb_nonretry pre rest e hpre he none
  · intro pre rest r hpre
    exact fb_ok pre rest r hpre none
  · intro pre e hpre he
    exact fb_allretry pre e hpre he none

/-- Concrete instantiation of `fallback_chain_order_spec`: a rate-limited
primary falls through to an auth failure that halts the chain; to a success;
and to a timeout that, being last, is returned. -/
theorem fallback_chain_order_spec_witness :
    fallbackChat [.error (.llm ⟨.rateLimit, "429"⟩), .error (.llm ⟨.auth, "401"⟩),
        .ok ⟨"unreached", []⟩] none
      = (none, some (.llm ⟨.auth, "401"⟩), 2) ∧
    fallbackChat [.error (.llm ⟨.rateLimit, "429"⟩), .ok ⟨"ok", []⟩] none
      = (some ⟨"ok", []⟩, none, 2) ∧
    fallbackChat [.error (.plain "boom"), .error (.llm ⟨.timeout, "deadline"⟩)] none
      = (none, some (.llm ⟨.timeout, "deadline"⟩), 2) := by
  refine ⟨?_, ?_, ?_⟩
  · exact fallback_chain_order_spec.2.1 [.error (.llm ⟨.rateLimit, "429"⟩)]
      [.ok ⟨"unreached", []⟩] (.llm ⟨.auth, "401"⟩) (by decide) (by decide)
  · exact fallback_chain_order_spec.2.2.1 [.error (.llm ⟨.rateLimit, "429"⟩)] []
      ⟨"ok", []⟩ (by decide)
  · exact fallback_chain_order_spec.2.2.2 [.error (.plain "boom")]
      (.llm ⟨.timeout, "deadline"⟩) (by decide) (by decide)

end LLM

namespace Agent

open LLM

/-- Mirror of `tool.Result` (`{output, error, is_error}`). -/
structure ToolResult where
  output : String := ""
  error : String := ""
  isError : Bool := false
deriving Repr, DecidableEq

/-- A registered tool's `Execute`: arguments (raw JSON string) to either a
transport error (Go `error` return) or a `Result`. -/
abbrev ToolFn := String → Except String ToolResult

/-- The tool registry, keyed by name (`Registry.Get`). -/
abbrev Registry := List (String × ToolFn)

/-- Registry lookup by name (`tools.Get(tc.Name)`); `none` is the Go error
return. -/
def regGet (reg : Registry) (name : String) : Option ToolFn :=
  (reg.find? (fun p => p.1 = name)).map (fun p => p.2)

/-- The tool-result synthesis of `processMessage` (part_003 lines 104-117):
lookup failure, transport error, domain error and success each map to the
exact result text. -/
def toolResultText (reg : Registry) (tc : ToolCall) : String :=
  match regGet reg tc.name with
  | none => "Error: tool '" ++ tc.name ++ "' not found"
  | some t =>
    match t tc.arguments with
    | .error e => "Error executing tool: " ++ e
    | .ok res => if res.isError then "Error: " ++ res.error else res.output

/-- The agent configuration fields the loop reads (`config.AgentConfig`):
`MaxToolCalls` and the context manager's `SummarizeAt`. -/
structure AgentCfg where
  maxToolCalls : Nat
  summarizeAt : Nat
deriving Repr, DecidableEq

/-- The conversation store for one chat: the append-ordered persisted
messages and the (possibly empty) summary. `GetHistory` returns the most
recent `limit` in ascending order (sqlite.go lines 70-103); `GetSummary`
returns `""` when absent. -/
structure MemState where
  store : List Message := []
  summary : String := ""
deriving Repr, DecidableEq

/-- The most recent `n` elements in ascending order. -/
def lastN (l : List Message) (n : Nat) : List Message :=
  l.drop (l.length - n)

/-- Observable effects of a turn, in execution order. -/
inductive Event where
  | getHist (msgs : List Message)
  | getSumm (s : String)
  | saveMsg (m : Message)
  | saveSumm (s : String)
  | chatCall (messages : List Message)
  | summCall
  | toolExec (tc : ToolCall)
deriving Repr, DecidableEq

/-- The persisted messages a trace records, in order. -/
def savedMessages (tr : List Event) : List Message :=
  tr.filterMap (fun e => match e with | .saveMsg m => some m | _ => none)

/-- Number of main-loop provider invocations a trace records. -/
def chatCallCount (tr : List Event) : Nat :=
  (tr.filter (fun e => match e with | .chatCall _ => true | _ => false)).length

/-- Number of tool executions a trace records. -/
def toolExecCount (tr : List Event) : Nat :=
  (tr.filter (fun e => match e with | .toolExec _ => true | _ => false)).length

/-- Mirror of `estimateTokens` (context.go lines 26-35): per message,
`len(content)/4` plus `len(arguments)/4` per tool call, in bytes. -/
def estimateTokens (msgs : List Message) : Nat :=
  msgs.foldl
    (fun acc m =>
      acc + m.content.utf8ByteSize / 4 +
        m.toolCalls.foldl (fun a tc => a + tc.arguments.utf8ByteSize / 4) 0)
    0

/-- In-turn state of `processMessage`: the store, the working message list,
the provider script (the outcome of each successive `provider.Chat` call; an
exhausted script behaves as a failing provider), the cumulative tool-call
count and the effect trace. -/
structure RunState where
  mem : MemState
  messages : List Message
  script : List ProvOutcome
  toolCallCount : Nat
  trace : List Event
deriving Repr, DecidableEq

/-- Result of a turn: the returned text, a provider error (`LLM error: ...`),
or out of loop fuel. -/
inductive RunRes where
  | done (text : String) (st : RunState)
  | fail (e : ChatError) (st : RunState)
  | outOfFuel (st : RunState)
deriving Repr, DecidableEq

/-- The final state of a run. -/
def RunRes.state : RunRes → RunState
  | .done _ st => st
  | .fail _ st => st
  | .outOfFuel st => st

/-- Output of `contextManager.summarize` plus the script it leaves behind and
whether the provider was invoked. -/
structure SummOut where
  summary : String
  recent : List Message
  script : List ProvOutcome
  called : Bool

/-- Mirror of `contextManager.summarize` (context.go lines 43-75): ≤4
messages is a no-op; otherwise the last 4 are kept and the prefix is
summarized by a provider call; on provider failure the summary is empty and
the error is swallowed (`return "", recent, nil`). -/
def summarizeFn (messages : List Message) (script : List ProvOutcome) : SummOut :=
  if messages.length ≤ 4 then
    { summary := "", recent := messages, script := script, called := false }
  else
    let recent := messages.drop (messages.length - 4)
    match script with
    | [] => { summary := "", recent := recent, script := [], called := true }
    | .error _ :: rest => { summary := "", recent := recent, script := rest, called := true }
    | .ok resp :: rest => { summary := resp.content, recent := recent, script := rest, called := true }

/-- The working-list replacement of part_003 lines 53-56. -/
def summReplacement (summary : String) (recent : List Message) : List Message :=
  ({ role := "user", content := "[Conversation summary]: " ++ summary } : Message) ::
  ({ role := "assistant", content := "I understand the context. Continuing..." } : Message) ::
  recent

/-- Fold a `summarizeFn` outcome into the state (part_003 lines 50-57): only
a non-empty summary replaces the working list and persists the summary. -/
def applySummOut (st : RunState) (out : SummOut) : RunState :=
  if out.summary = "" then
    { st with script := out.script,
              trace := st.trace ++ (if out.called then [Event.summCall] else []) }
  else
    { st with script := out.script,
              mem := { st.mem with summary := out.summary },
              trace := (st.trace ++ (if out.called then [Event.summCall] else []))
                ++ [Event.saveSumm out.summary],
              messages := summReplacement out.summary out.recent }

/-- Mirror of part_003 lines 49-58: when the estimate exceeds the threshold,
summarize and fold the outcome in. -/
def applySummarize (cfg : AgentCfg) (st : RunState) : RunState :=
  if cfg.summarizeAt < estimateTokens st.messages then
    applySummOut st (summarizeFn st.messages st.script)
  else st

/-- The exact truncation message head of part_003 line 87. -/
def truncationText (partial_ : String) : String :=
  "I've reached the maximum number of tool calls for this request. Here's what I have so far: "
    ++ partial_

/-- The claim's quoted sentence, which the truncation message must begin
with. -/
def truncationNotice : String :=
  "I've reached the maximum number of tool calls for this request."

/-- Outcome of one loop iteration: either the loop halts with a result, or
continues with a new state. -/
inductive StepRes where
  | halt (r : RunRes)
  | next (st : RunState)
deriving Repr, DecidableEq

/-- The persisted form of an assistant text (part_003 lines 80, 88). -/
def assistMsg (c : String) : Message :=
  { role := "assistant", content := c }

/-- The synthesized tool-result message (part_003 lines 122-127). -/
def toolMsg (reg : Registry) (tc : ToolCall) : Message :=
  { role := "tool", content := toolResultText reg tc, toolCallID := tc.id }

/-- Record the provider invocation (part_003 lines 61-71): the request
carries the current working list. -/
def addChatEvent (st : RunState) : RunState :=
  { st with trace := st.trace ++ [Event.chatCall st.messages] }

/-- The branches of the loop body after the provider call (part_003 lines
72-128): provider error aborts the turn; no tool calls persists and returns
the content; an exceeded budget persists and returns the truncation message
without executing this leg's tool calls; otherwise the assistant message and
every synthesized tool result are appended to the working list and the loop
continues. -/
def stepChat (cfg : AgentCfg) (reg : Registry) (st2 : RunState) : StepRes :=
  match st2.script with
  | [] => StepRes.halt (RunRes.fail (.plain "provider unavailable") st2)
  | .error e :: rest => StepRes.halt (RunRes.fail e { st2 with script := rest })
  | .ok resp :: rest =>
    if resp.toolCalls.isEmpty then
      StepRes.halt (RunRes.done resp.content
        { st2 with script := rest,
                   mem := { st2.mem with store := st2.mem.store ++ [assistMsg resp.content] },
                   trace := st2.trace ++ [Event.saveMsg (assistMsg resp.content)] })
    else if cfg.maxToolCalls < st2.toolCallCount + resp.toolCalls.length then
      StepRes.halt (RunRes.done (truncationText resp.content)
        { st2 with script := rest,
                   toolCallCount := st2.toolCallCount + resp.toolCalls.length,
                   mem := { st2.mem with
                            store := st2.mem.store ++ [assistMsg (truncationText resp.content)] },
                   trace := st2.trace ++ [Event.saveMsg (assistMsg (truncationText resp.content))] })
    else
      StepRes.next
        { st2 with script := rest,
                   toolCallCount := st2.toolCallCount + resp.toolCalls.length,
                   messages := st2.messages ++
                     [{ role := "assistant", content := resp.content, toolCalls := resp.toolCalls }] ++
                     resp.toolCalls.map (toolMsg reg),
                   trace := st2.trace ++ resp.toolCalls.map Event.toolExec }

/-- One iteration of the loop of `processMessage` (part_003 lines 46-129):
summarize check, provider call, then the post-response branches. -/
def loopStep (cfg : AgentCfg) (reg : Registry) (st0 : RunState) : StepRes :=
  stepChat cfg reg (addChatEvent (applySummarize cfg st0))

/-- The loop of `processMessage`, one iteration per fuel unit. -/
def agentLoop (cfg : AgentCfg) (reg : Registry) : Nat → RunState → RunRes
  | 0, st => RunRes.outOfFuel st
  | Nat.succ fuel, st =>
    match loopStep cfg reg st with
    | .halt r => r
    | .next st' => agentLoop cfg reg fuel st'

/-- Mirror of `processMessage` entry (part_003 lines 14-43): load history
(most recent 50, ascending), load summary, build the working list (summary
preamble, history, the new user message), persist the user message, then run
the loop. -/
def processMessage (cfg : AgentCfg) (reg : Registry) (mem : MemState)
    (userText : String) (script : List ProvOutcome) (fuel : Nat) : RunRes :=
  let history := lastN mem.store 50
  let summary := mem.summary
  let userMsg : Message := { role := "user", content := userText }
  let base : List Message :=
    (if summary = "" then [] else
      [{ role := "user", content := "[Previous conversation summary]: " ++ summary },
       { role := "assistant", content := "I understand the previous context. How can I help?" }])
    ++ history ++ [userMsg]
  agentLoop cfg reg fuel
    { mem := { mem with store := mem.store ++ [userMsg] },
      messages := base,
      script := script,
      toolCallCount := 0,
      trace := [Event.getHist history, Event.getSumm summary, Event.saveMsg userMsg] }

/-- The classified errors in a provider script. -/
def scriptErrors (script : List ProvOutcome) : List ChatError :=
  script.filterMap (fun o => match o with | .error e => some e | .ok _ => none)

lemma savedMessages_append (a b : List Event) :
    savedMessages (a ++ b) = savedMessages a ++ savedMessages b := by
  simp [savedMessages]

lemma savedMessages_toolExecs (tcs : List ToolCall) :
    savedMessages (tcs.map Event.toolExec) = [] := by
  induction tcs with
  | nil => rfl
  | cons tc tl ih => simpa [savedMessages] using ih

lemma chatCallCount_append (a b : List Event) :
    chatCallCount (a ++ b) = chatCallCount a + chatCallCount b := by
  simp [chatCallCount]

lemma toolExecCount_append (a b : List Event) :
    toolExecCount (a ++ b) = toolExecCount a + toolExecCount b := by
  simp [toolExecCount]

lemma summarizeFn_script (msgs : List Message) (script : List ProvOutcome) :
    (summarizeFn msgs script).script = script ∨
      ∃ o r, script = o :: r ∧ (summarizeFn msgs script).script = r := by
  by_cases h : msgs.length ≤ 4
  · left; simp [summarizeFn, h]
  · rcases script with _ | ⟨o, r⟩
    · left; simp [summarizeFn, h]
    · right
      refine ⟨o, r, rfl, ?_⟩
      rcases o with e | resp <;> simp [summarizeFn, h]

lemma applySummOut_store (st : RunState) (out : SummOut) :
    (applySummOut st out).mem.store = st.mem.store := by
  unfold applySummOut
  split_ifs <;> rfl

lemma applySummOut_saved (st : RunState) (out : SummOut) :
    savedMessages (applySummOut st out).trace = savedMessages st.trace := by
  unfold applySummOut
  split_ifs <;> simp [savedMessages_append, savedMessages]

lemma applySummOut_trace_ext (st : RunState) (out : SummOut) :
    ∃ tl, (applySummOut st out).trace = st.trace ++ tl := by
  unfold applySummOut
  split_ifs
  · exact ⟨[Event.summCall], by simp⟩
  · exact ⟨[], by simp⟩
  · exact ⟨[Event.summCall, Event.saveSumm out.summary], by simp⟩
  · exact ⟨[Event.saveSumm out.summary], by simp⟩

lemma applySummOut_script (st : RunState) (out : SummOut) :
    (applySummOut st out).script = out.script := by
  unfold applySummOut
  split_ifs <;> rfl

lemma applySummarize_id (cfg : AgentCfg) (st : RunState)
    (h : ¬ cfg.summarizeAt < estimateTokens st.messages) :
    applySummarize cfg st = st := by
  simp [applySummarize, h]

lemma applySummarize_store (cfg : AgentCfg) (st : RunState) :
    (applySummarize cfg st).mem.store = st.mem.store := by
  unfold applySummarize
  split_ifs
  · exact applySummOut_store ..
  · rfl

lemma applySummarize_saved (cfg : AgentCfg) (st : RunState) :
    savedMessages (applySummarize cfg st).trace = savedMessages st.trace := by
  unfold applySummarize
  split_ifs
  · exact applySummOut_saved ..
  · rfl

lemma applySummarize_trace_ext (cfg : AgentCfg) (st : RunState) :
    ∃ tl, (applySummarize cfg st).trace = st.trace ++ tl := by
  unfold applySummarize
  split_ifs
  · exact applySummOut_trace_ext ..
  · exact ⟨[], by simp⟩

lemma applySummarize_script (cfg : AgentCfg) (st : RunState) :
    (applySummarize cfg st).script = st.script ∨
      ∃ o r, st.script = o :: r ∧ (applySummarize cfg st).script = r := by
  unfold applySummarize
  split_ifs
  · rw [applySummOut_script]
    exact summarizeFn_script st.messages st.script
  · left; rfl

/-- The state a step result carries. -/
def stepResState : StepRes → RunState
  | .halt r => r.state
  | .next st => st

lemma scriptErrors_tail (o : ProvOutcome) (r : List ProvOutcome) (x : ChatError)
    (h : x ∈ scriptErrors r) : x ∈ scriptErrors (o :: r) := by
  cases o with
  | error e' =>
    simp [scriptErrors] at h ⊢
    exact Or.inr h
  | ok r' =>
    simpa [scriptErrors] using h

lemma stepChat_done_inv (cfg : AgentCfg) (reg : Registry) (st2 : RunState)
    (t : String) (st' : RunState)
    (h : stepChat cfg reg st2 = .halt (.done t st')) :
    st'.trace = st2.trace ++ [Event.saveMsg (assistMsg t)] ∧
    st'.mem.store = st2.mem.store ++ [assistMsg t] := by
  unfold stepChat at h
  rcases hs : st2.script with _ | ⟨o, rest⟩ <;> rw [hs] at h
  · simp at h
  · rcases o with e | resp
    · simp at h
    · by_cases hempty : resp.toolCalls.isEmpty <;> simp [hempty] at h
      · obtain ⟨rfl, rfl⟩ := h
        exact ⟨rfl, rfl⟩
      · by_cases hbud : cfg.maxToolCalls < st2.toolCallCount + resp.toolCalls.length <;>
          simp [hbud] at h
        obtain ⟨rfl, rfl⟩ := h
        exact ⟨rfl, rfl⟩

lemma stepChat_fail_inv (cfg : AgentCfg) (reg : Registry) (st2 : RunState)
    (e : ChatError) (st' : RunState)
    (h : stepChat cfg reg st2 = .halt (.fail e st')) :
    (e = .plain "provider unavailable" ∨ e ∈ scriptErrors st2.script) ∧
    st'.trace = st2.trace ∧ st'.mem.store = st2.mem.store := by
  unfold stepChat at h
  rcases hs : st2.script with _ | ⟨o, rest⟩ <;> rw [hs] at h
  · simp at h
    obtain ⟨rfl, rfl⟩ := h
    exact ⟨Or.inl rfl, rfl, rfl⟩
  · rcases o with e' | resp
    · simp at h
      obtain ⟨rfl, rfl⟩ := h
      exact ⟨Or.inr (by simp [scriptErrors]), rfl, rfl⟩
    · by_cases hempty : resp.toolCalls.isEmpty <;> simp [hempty] at h
      by_cases hbud : cfg.maxToolCalls < st2.toolCallCount + resp.toolCalls.length <;>
        simp [hbud] at h

lemma stepChat_next_inv (cfg : AgentCfg) (reg : Registry) (st2 : RunState) (st' : RunState)
    (h : stepChat cfg reg st2 = .next st') :
    savedMessages st'.trace = savedMessages st2.trace ∧
    st'.mem.store = st2.mem.store ∧
    (∀ x ∈ scriptErrors st'.script, x ∈ scriptErrors st2.script) ∧
    ∃ tl, st'.trace = st2.trace ++ tl := by
  unfold stepChat at h
  rcases hs : st2.script with _ | ⟨o, rest⟩ <;> rw [hs] at h
  · simp at h
  · rcases o with e' | resp
    · simp at h
    · by_cases hempty : resp.toolCalls.isEmpty <;> simp [hempty] at h
      by_cases hbud : cfg.maxToolCalls < st2.toolCallCount + resp.toolCalls.length <;>
        simp [hbud] at h
      subst h
      refine ⟨?_, rfl, ?_, ⟨_, rfl⟩⟩
      · simp [savedMessages_append, savedMessages_toolExecs]
      · intro x hx
        exact scriptErrors_tail _ _ _ hx

lemma stepChat_state_ext (cfg : AgentCfg) (reg : Registry) (st2 : RunState) :
    ∃ tl, (stepResState (stepChat cfg reg st2)).trace = st2.trace ++ tl := by
  cases hstep : stepChat cfg reg st2 with
  | halt r =>
    cases r with
    | done t st' =>
      obtain ⟨h1, -⟩ := stepChat_done_inv cfg reg st2 t st' hstep
      exact ⟨_, h1⟩
    | fail e st' =>
      obtain ⟨-, h1, -⟩ := stepChat_fail_inv cfg reg st2 e st' hstep
      exact ⟨[], by simp [stepResState, RunRes.state, h1]⟩
    | outOfFuel st' =>
      exfalso
      unfold stepChat at hstep
      rcases hs : st2.script with _ | ⟨o, rest⟩ <;> rw [hs] at hstep
      · simp at hstep
      · rcases o with e' | resp
        · simp at hstep
        · by_cases hempty : resp.toolCalls.isEmpty <;> simp [hempty] at hstep
          by_cases hbud : cfg.maxToolCalls < st2.toolCallCount + resp.toolCalls.length <;>
            simp [hbud] at hstep
  | next st' =>
    obtain ⟨-, -, -, tl, h1⟩ := stepChat_next_inv cfg reg st2 st' hstep
    exact ⟨tl, by simp [stepResState, h1]⟩

lemma addChatEvent_saved (st : RunState) :
    savedMessages (addChatEvent st).trace = savedMessages st.trace := by
  simp [addChatEvent, savedMessages_append, savedMessages]

lemma loopStep_done_inv (cfg : AgentCfg) (reg : Registry) (st : RunState)
    (t : String) (st' : RunState)
    (h : loopStep cfg reg st = .halt (.done t st')) :
    savedMessages st'.trace = savedMessages st.trace ++ [assistMsg t] ∧
    st'.mem.store = st.mem.store ++ [assistMsg t] := by
  unfold loopStep at h
  obtain ⟨h1, h2⟩ := stepChat_done_inv _ _ _ _ _ h
  constructor
  · rw [h1, savedMessages_append, addChatEvent_saved, applySummarize_saved]
    simp [savedMessages]
  · rw [h2]
    have : (addChatEvent (applySummarize cfg st)).mem.store = st.mem.store := by
      simp [addChatEvent, applySummarize_store]
    rw [this]

lemma loopStep_fail_inv (cfg : AgentCfg) (reg : Registry) (st : RunState)
    (e : ChatError) (st' : RunState)
    (h : loopStep cfg reg st = .halt (.fail e st')) :
    (e = .plain "provider unavailable" ∨ e ∈ scriptErrors st.script) ∧
    savedMessages st'.trace = savedMessages st.trace ∧
    st'.mem.store = st.mem.store := by
  unfold loopStep at h
  obtain ⟨h1, h2, h3⟩ := stepChat_fail_inv _ _ _ _ _ h
  refine ⟨?_, ?_, ?_⟩
  · rcases h1 with h1 | h1
    · exact Or.inl h1
    · right
      have hsc : (addChatEvent (applySummarize cfg st)).script = (applySummarize cfg st).script := rfl
      rw [hsc] at h1
      rcases applySummarize_script cfg st with hcase | ⟨o, r, hor, hr⟩
      · rwa [hcase] at h1
      · rw [hr] at h1
        rw [hor]
        exact scriptErrors_tail _ _ _ h1
  · rw [h2, addChatEvent_saved, applySummarize_saved]
  · rw [h3]
    simp [addChatEvent, applySummarize_store]

lemma loopStep_next_inv (cfg : AgentCfg) (reg : Registry) (st : RunState) (st' : RunState)
    (h : loopStep cfg reg st = .next st') :
    savedMessages st'.trace = savedMessages st.trace ∧
    st'.mem.store = st.mem.store ∧
    (∀ x ∈ scriptErrors st'.script, x ∈ scriptErrors st.script) := by
  unfold loopStep at h
  obtain ⟨h1, h2, h3, -⟩ := stepChat_next_inv _ _ _ _ h
  refine ⟨?_, ?_, ?_⟩
  · rw [h1, addChatEvent_saved, applySummarize_saved]
  · rw [h2]
    simp [addChatEvent, applySummarize_store]
  · intro x hx
    have hx2 := h3 x hx
    have hsc : (addChatEvent (applySummarize cfg st)).script = (applySummarize cfg st).script := rfl
    rw [hsc] at hx2
    rcases applySummarize_script cfg st with hcase | ⟨o, r, hor, hr⟩
    · rwa [hcase] at hx2
    · rw [hr] at hx2
      rw [hor]
      exact scriptErrors_tail _ _ _ hx2

lemma loopStep_state_ext (cfg : AgentCfg) (reg : Registry) (st : RunState) :
    ∃ tl, (stepResState (loopStep cfg reg st)).trace = st.trace ++ tl := by
  unfold loopStep
  obtain ⟨tl1, h1⟩ := stepChat_state_ext cfg reg (addChatEvent (applySummarize cfg st))
  obtain ⟨tl0, h0⟩ := applySummarize_trace_ext cfg st
  refine ⟨tl0 ++ [Event.chatCall (applySummarize cfg st).messages] ++ tl1, ?_⟩
  rw [h1]
  simp [addChatEvent, h0]

lemma agentLoop_done_inv (cfg : AgentCfg) (reg : Registry) :
    ∀ (fuel : Nat) (st : RunState) (t : String) (st' : RunState),
      agentLoop cfg reg fuel st = .done t st' →
      savedMessages st'.trace = savedMessages st.trace ++ [assistMsg t] ∧
      st'.mem.store = st.mem.store ++ [assistMsg t] := by
  intro fuel
  induction fuel with
  | zero =>
    intro st t st' h
    simp [agentLoop] at h
  | succ n ih =>
    intro st t st' h
    rw [agentLoop] at h
    cases hstep : loopStep cfg reg st with
    | halt r =>
      rw [hstep] at h
      simp at h
      subst h
      exact loopStep_done_inv cfg reg st t st' hstep
    | next st1 =>
      rw [hstep] at h
      simp at h
      obtain ⟨hsv, hst, -⟩ := loopStep_next_inv cfg reg st st1 hstep
      obtain ⟨ih1, ih2⟩ := ih st1 t st' h
      exact ⟨by rw [ih1, hsv], by rw [ih2, hst]⟩

lemma agentLoop_fail_source (cfg : AgentCfg) (reg : Registry) :
    ∀ (fuel : Nat) (st : RunState) (e : ChatError) (st' : RunState),
      agentLoop cfg reg fuel st = .fail e st' →
      e = .plain "provider unavailable" ∨ e ∈ scriptErrors st.script := by
  intro fuel
  induction fuel with
  | zero =>
    intro st e st' h
    simp [agentLoop] at h
  | succ n ih =>
    intro st e st' h
    rw [agentLoop] at h
    cases hstep : loopStep cfg reg st with
    | halt r =>
      rw [hstep] at h
      simp at h
      subst h
      exact (loopStep_fail_inv cfg reg st e st' hstep).1
    | next st1 =>
      rw [hstep] at h
      simp at h
      obtain ⟨-, -, hsc⟩ := loopStep_next_inv cfg reg st st1 hstep
      rcases ih st1 e st' h with hcase | hcase
      · exact Or.inl hcase
      · exact Or.inr (hsc e hcase)

lemma agentLoop_trace_ext (cfg : AgentCfg) (reg : Registry) :
    ∀ (fuel : Nat) (st : RunState),
      ∃ tl, (agentLoop cfg reg fuel st).state.trace = st.trace ++ tl := by
  intro fuel
  induction fuel with
  | zero =>
    intro st
    exact ⟨[], by simp [agentLoop, RunRes.state]⟩
  | succ n ih =>
    intro st
    rw [agentLoop]
    cases hstep : loopStep cfg reg st with
    | halt r =>
      obtain ⟨tl, h⟩ := loopStep_state_ext cfg reg st
      rw [hstep] at h
      exact ⟨tl, h⟩
    | next st1 =>
      obtain ⟨tl1, h1⟩ := loopStep_state_ext cfg reg st
      rw [hstep] at h1
      obtain ⟨tl2, h2⟩ := ih st1
      exact ⟨tl1 ++ tl2, by rw [h2]; simp [stepResState] at h1; rw [h1]; simp⟩

/-- A sample registry holding one echo tool, used by concrete instantiations. -/
def regW : Registry := [("echo", fun a => .ok { output := a })]

/-- C1: a turn that completes without a provider error persists exactly two
messages: the incoming user text and one assistant message carrying the
returned text (the final response or the truncation message); no message
with tool calls and no `role=tool` message is ever persisted. -/
theorem turn_persists_single_assistant (cfg : AgentCfg) (reg : Registry)
    (mem : MemState) (userText : String) (script : List ProvOutcome) (fuel : Nat)
    (t : String) (st' : RunState)
    (h : processMessage cfg reg mem userText script fuel = .done t st') :
    savedMessages st'.trace = [{ role := "user", content := userText }, assistMsg t] ∧
    st'.mem.store = mem.store ++ [{ role := "user", content := userText }, assistMsg t] ∧
    ∀ m ∈ savedMessages st'.trace, m.toolCalls = [] ∧ m.role ≠ "tool" := by
  unfold processMessage at h
  obtain ⟨h1, h2⟩ := agentLoop_done_inv cfg reg fuel _ t st' h
  have hsv : savedMessages st'.trace =
      [{ role := "user", content := userText }, assistMsg t] := by
    rw [h1]
    simp [savedMessages, assistMsg]
  refine ⟨hsv, ?_, ?_⟩
  · rw [h2]
    simp [assistMsg]
  · intro m hm
    rw [hsv] at hm
    simp at hm
    rcases hm with rfl | rfl
    · exact ⟨rfl, by simp⟩
    · exact ⟨rfl, by simp [assistMsg]⟩

/-- Instantiation of `turn_persists_single_assistant` on a one-leg turn. -/
theorem turn_persists_single_assistant_witness :
    savedMessages (processMessage ⟨10, 100⟩ regW {} "Hello"
        [.ok ⟨"Hi there!", []⟩] 2).state.trace =
      [{ role := "user", content := "Hello" }, assistMsg "Hi there!"] := by
  exact (turn_persists_single_assistant ⟨10, 100⟩ regW {} "Hello"
    [.ok ⟨"Hi there!", []⟩] 2 "Hi there!" _ rfl).1

/-- C6: a leg whose response carries tool calls (within budget) appends the
assistant message and then one `role=tool` message per call, in provider
order, each bound to the call's id and carrying the synthesized result text;
the synthesis is exactly: lookup failure, transport error, domain error,
success; and a tool failure is never raised to the caller of the turn — the
loop only fails on provider errors. -/
theorem tool_dispatch_in_order (cfg : AgentCfg) (reg : Registry) (st : RunState)
    (resp : LLMResponse) (rest : List ProvOutcome)
    (hs : ¬ cfg.summarizeAt < estimateTokens st.messages)
    (hscript : st.script = .ok resp :: rest)
    (hcalls : resp.toolCalls.isEmpty = false)
    (hbudget : ¬ cfg.maxToolCalls < st.toolCallCount + resp.toolCalls.length) :
    loopStep cfg reg st = .next
      { st with script := rest,
                toolCallCount := st.toolCallCount + resp.toolCalls.length,
                messages := st.messages ++
                  [{ role := "assistant", content := resp.content, toolCalls := resp.toolCalls }] ++
                  resp.toolCalls.map (toolMsg reg),
                trace := st.trace ++ [Event.chatCall st.messages] ++
                  resp.toolCalls.map Event.toolExec } ∧
    (∀ tc, toolMsg reg tc =
      { role := "tool", content := toolResultText reg tc, toolCallID := tc.id }) ∧
    (∀ tc : ToolCall, regGet reg tc.name = none →
      toolResultText reg tc = "Error: tool '" ++ tc.name ++ "' not found") ∧
    (∀ (tc : ToolCall) (f : ToolFn) (e : String), regGet reg tc.name = some f →
      f tc.arguments = .error e →
      toolResultText reg tc = "Error executing tool: " ++ e) ∧
    (∀ (tc : ToolCall) (f : ToolFn) (res : ToolResult), regGet reg tc.name = some f →
      f tc.arguments = .ok res → res.isError = true →
      toolResultText reg tc = "Error: " ++ res.error) ∧
    (∀ (tc : ToolCall) (f : ToolFn) (res : ToolResult), regGet reg tc.name = some f →
      f tc.arguments = .ok res → res.isError = false →
      toolResultText reg tc = res.output) ∧
    (∀ (fuel : Nat) (e : ChatError) (st' : RunState),
      agentLoop cfg reg fuel st = .fail e st' →
      e = .plain "provider unavailable" ∨ e ∈ scriptErrors st.script) := by
  refine ⟨?_, fun tc => rfl, ?_, ?_, ?_, ?_,
    fun fuel e st' h => agentLoop_fail_source cfg reg fuel st e st' h⟩
  · unfold loopStep
    rw [applySummarize_id cfg st hs]
    unfold stepChat addChatEvent
    simp only [hscript, hcalls, hbudget, if_false, Bool.false_eq_true, ite_false]
  · intro tc hnone
    simp [toolResultText, hnone]
  · intro tc f e hsome herr
    simp [toolResultText, hsome, herr]
  · intro tc f res hsome hok hiserr
    simp [toolResultText, hsome, hok, hiserr]
  · intro tc f res hsome hok hiserr
    simp [toolResultText, hsome, hok, hiserr]

/-- Instantiation of `tool_dispatch_in_order`: one found tool (result
echoed) and one unregistered tool (not-found text), executed in order. -/
theorem tool_dispatch_in_order_witness :
    loopStep ⟨10, 100⟩ regW
      { mem := {}, messages := [],
        script := [.ok ⟨"", [⟨"t1", "echo", "ping"⟩, ⟨"t2", "missing", "x"⟩]⟩],
        toolCallCount := 0, trace := [] } = .next
      { mem := {},
        messages := [{ role := "assistant", content := "",
                       toolCalls := [⟨"t1", "echo", "ping"⟩, ⟨"t2", "missing", "x"⟩] },
                     { role := "tool", content := "ping", toolCallID := "t1" },
                     { role := "tool", content := "Error: tool 'missing' not found",
                       toolCallID := "t2" }],
        script := [], toolCallCount := 2,
        trace := [Event.chatCall [], Event.toolExec ⟨"t1", "echo", "ping"⟩,
                  Event.toolExec ⟨"t2", "missing", "x"⟩] } := by
  have h := (tool_dispatch_in_order ⟨10, 100⟩ regW
    { mem := {}, messages := [],
      script := [.ok ⟨"", [⟨"t1", "echo", "ping"⟩, ⟨"t2", "missing", "x"⟩]⟩],
      toolCallCount := 0, trace := [] }
    ⟨"", [⟨"t1", "echo", "ping"⟩, ⟨"t2", "missing", "x"⟩]⟩ []
    (by decide) rfl rfl (by decide)).1
  exact h

/-- C7: when a leg's tool calls push the cumulative count over
`max_tool_calls`, the loop persists and returns the truncation message — the
exact notice followed by the assistant's partial text — making no further
provider call and executing none of that leg's tool calls. -/
theorem tool_budget_truncation (cfg : AgentCfg) (reg : Registry) (st : RunState)
    (resp : LLMResponse) (rest : List ProvOutcome) (fuel : Nat)
    (hs : ¬ cfg.summarizeAt < estimateTokens st.messages)
    (hscript : st.script = .ok resp :: rest)
    (hcalls : resp.toolCalls.isEmpty = false)
    (hbudget : cfg.maxToolCalls < st.toolCallCount + resp.toolCalls.length) :
    agentLoop cfg reg (fuel + 1) st = .done (truncationText resp.content)
      { st with script := rest,
                toolCallCount := st.toolCallCount + resp.toolCalls.length,
                mem := { st.mem with
                         store := st.mem.store ++ [assistMsg (truncationText resp.content)] },
                trace := st.trace ++ [Event.chatCall st.messages,
                  Event.saveMsg (assistMsg (truncationText resp.content))] } ∧
    truncationText resp.content =
      truncationNotice ++ (" Here's what I have so far: " ++ resp.content) ∧
    chatCallCount (st.trace ++ [Event.chatCall st.messages,
        Event.saveMsg (assistMsg (truncationText resp.content))]) =
      chatCallCount st.trace + 1 ∧
    toolExecCount (st.trace ++ [Event.chatCall st.messages,
        Event.saveMsg (assistMsg (truncationText resp.content))]) =
      toolExecCount st.trace := by
  refine ⟨?_, ?_, ?_, ?_⟩
  · rw [agentLoop]
    have hstep : loopStep cfg reg st = .halt (.done (truncationText resp.content)
        { st with script := rest,
                  toolCallCount := st.toolCallCount + resp.toolCalls.length,
                  mem := { st.mem with
                           store := st.mem.store ++ [assistMsg (truncationText resp.content)] },
                  trace := st.trace ++ [Event.chatCall st.messages,
                    Event.saveMsg (assistMsg (truncationText resp.content))] }) := by
      unfold loopStep
      rw [applySummarize_id cfg st hs]
      unfold stepChat addChatEvent
      simp only [hscript, hcalls, hbudget, Bool.false_eq_true, ite_false, ite_true, if_true]
      rw [List.append_assoc]
      rfl
    rw [hstep]
  · have hsplit : ("I've reached the maximum number of tool calls for this request. " ++
        "Here's what I have so far: " : String) =
        truncationNotice ++ " Here's what I have so far: " := by decide
    unfold truncationText
    rw [show ("I've reached the maximum number of tool calls for this request. Here's what I have so far: " : String) = truncationNotice ++ " Here's what I have so far: " from by decide]
    rw [String.append_assoc]
  · rw [chatCallCount_append]
    rfl
  · rw [toolExecCount_append]
    simp [toolExecCount]

/-- Instantiation of `tool_budget_truncation`: with `max_tool_calls = 2` and
two calls already used, a third call triggers the truncation return. -/
theorem tool_budget_truncation_witness :
    agentLoop ⟨2, 100⟩ regW 1
      { mem := {}, messages := [], script := [.ok ⟨"partial", [⟨"t1", "echo", "ping"⟩]⟩],
        toolCallCount := 2, trace := [] } =
      .done ("I've reached the maximum number of tool calls for this request. Here's what I have so far: partial")
      { mem := { store := [assistMsg (truncationText "partial")] }, messages := [],
        script := [], toolCallCount := 3,
        trace := [Event.chatCall [], Event.saveMsg (assistMsg (truncationText "partial"))] } := by
  have h := (tool_budget_truncation ⟨2, 100⟩ regW
    { mem := {}, messages := [], script := [.ok ⟨"partial", [⟨"t1", "echo", "ping"⟩]⟩],
      toolCallCount := 2, trace := [] }
    ⟨"partial", [⟨"t1", "echo", "ping"⟩]⟩ [] 0
    (by decide) rfl rfl (by decide)).1
  exact h

/-- C9 counterexample: `processMessage` loads history before it appends the
incoming user message, so on a concrete turn the first recorded store
operation is the history read, not the user-message append; the claim's
append-then-load order is false on this input. -/
theorem history_load_order_counterexample :
    (processMessage ⟨10, 100⟩ regW {} "Hello" [.ok ⟨"Hi there!", []⟩] 2).state.trace =
      [Event.getHist [], Event.getSumm "",
       Event.saveMsg { role := "user", content := "Hello" },
       Event.chatCall [{ role := "user", content := "Hello" }],
       Event.saveMsg { role := "assistant", content := "Hi there!" }] ∧
    (processMessage ⟨10, 100⟩ regW {} "Hello" [.ok ⟨"Hi there!", []⟩] 2).state.trace.head? ≠
      some (Event.saveMsg { role := "user", content := "Hello" }) := by
  constructor
  · rfl
  · decide

/-- C9 (amended): `processMessage` first loads the most recent 50 stored
messages in ascending order and the stored summary, and only then appends
the incoming user message to the store; the loaded history therefore never
contains the new user message, which enters the working list at its end. -/
theorem history_loaded_before_user_append (cfg : AgentCfg) (reg : Registry)
    (mem : MemState) (userText : String) (script : List ProvOutcome) (fuel : Nat) :
    ∃ tl, (processMessage cfg reg mem userText script fuel).state.trace =
      [Event.getHist (lastN mem.store 50), Event.getSumm mem.summary,
       Event.saveMsg { role := "user", content := userText }] ++ tl := by
  unfold processMessage
  obtain ⟨tl, h⟩ := agentLoop_trace_ext cfg reg fuel _
  exact ⟨tl, h⟩

/-- C10: an attempted in-turn summarization that yields no usable summary —
the summarizer's provider call fails or returns empty content — leaves the
working list and the stored summary exactly unchanged; only a successful
non-empty summary replaces the working list and persists the summary. -/
theorem summarize_failure_is_noop (cfg : AgentCfg) (st : RunState)
    (htrig : cfg.summarizeAt < estimateTokens st.messages)
    (hlen : ¬ st.messages.length ≤ 4) :
    (∀ e rest, st.script = .error e :: rest →
      applySummarize cfg st = { st with script := rest,
                                        trace := st.trace ++ [Event.summCall] }) ∧
    (∀ resp rest, st.script = .ok resp :: rest → resp.content = "" →
      applySummarize cfg st = { st with script := rest,
                                        trace := st.trace ++ [Event.summCall] }) ∧
    (∀ resp rest, st.script = .ok resp :: rest → resp.content ≠ "" →
      applySummarize cfg st =
        { st with script := rest,
                  mem := { st.mem with summary := resp.content },
                  trace := st.trace ++ [Event.summCall, Event.saveSumm resp.content],
                  messages := summReplacement resp.content
                    (st.messages.drop (st.messages.length - 4)) }) := by
  refine ⟨?_, ?_, ?_⟩
  · intro e rest hscript
    unfold applySummarize summarizeFn applySummOut
    rw [if_pos htrig]
    simp only [hscript, hlen, ite_false, if_false]
    simp
  · intro resp rest hscript hempty
    unfold applySummarize summarizeFn applySummOut
    rw [if_pos htrig]
    simp only [hscript, hlen, ite_false, if_false]
    simp [hempty]
  · intro resp rest hscript hnonempty
    unfold applySummarize summarizeFn applySummOut
    rw [if_pos htrig]
    simp only [hscript, hlen, ite_false, if_false]
    simp [hnonempty]

/-- Instantiation of `summarize_failure_is_noop`: a failing summarizer call
leaves the five-message working list and the stored summary untouched. -/
theorem summarize_failure_is_noop_witness :
    applySummarize ⟨10, 0⟩
      { mem := {},
        messages := [{ role := "user", content := "aaaa" }, { role := "assistant", content := "bbbb" },
                     { role := "user", content := "cccc" }, { role := "assistant", content := "dddd" },
                     { role := "user", content := "eeee" }],
        script := [.error (.plain "summarizer down")], toolCallCount := 0, trace := [] } =
      { mem := {},
        messages := [{ role := "user", content := "aaaa" }, { role := "assistant", content := "bbbb" },
                     { role := "user", content := "cccc" }, { role := "assistant", content := "dddd" },
                     { role := "user", content := "eeee" }],
        script := [], toolCallCount := 0, trace := [Event.summCall] } := by
  exact (summarize_failure_is_noop ⟨10, 0⟩
    { mem := {},
      messages := [{ role := "user", content := "aaaa" }, { role := "assistant", content := "bbbb" },
                   { role := "user", content := "cccc" }, { role := "assistant", content := "dddd" },
                   { role := "user", content := "eeee" }],
      script := [.error (.plain "summarizer down")], toolCallCount := 0, trace := [] }
    (by decide) (by decide)).1 (.plain "summarizer down") [] rfl

end Agent

namespace Re

/-!
A small regular-expression engine over `List Char`, used to embed the Go
`regexp` patterns of the shell deny-list (shell.go) and the PII sanitizer
(sanitizer.go). Go's `regexp.Compile` has leftmost-first (Perl backtracking
order) semantics; `ends` returns candidate match ends in that backtracking
order, so the head of the list at the leftmost matching start position is
the match Go selects. Case-insensitive `(?i)` patterns are embedded by
expanding each letter (and class) to both cases at construction.
-/

/-- Regular expressions: character classes (lists of closed ranges), `.`,
`\b`, concatenation, alternation and greedy Kleene star. -/
inductive Re where
  | eps
  | cls (ranges : List (Char × Char))
  | dot
  | wordB
  | cat (a b : Re)
  | alt (a b : Re)
  | star (r : Re)
deriving Repr

/-- Membership in a class: some range contains the character. -/
def inCls (ranges : List (Char × Char)) (c : Char) : Bool :=
  ranges.any (fun p => p.1 ≤ c && c ≤ p.2)

/-- Go `\w` for the purpose of `\b`: `[0-9A-Za-z_]`. -/
def isWordChar (c : Char) : Bool :=
  inCls [('a', 'z'), ('A', 'Z'), ('0', '9'), ('_', '_')] c

/-- Go `\s`: `[\t\n\f\r ]`. -/
def isWsGo (c : Char) : Bool :=
  inCls [('\t', '\n'), ('\x0c', '\x0d'), (' ', ' ')] c

/-- Deduplicate keeping the first (highest-priority) occurrence. -/
def dedupN (l : List Nat) : List Nat :=
  l.foldl (fun acc n => if n ∈ acc then acc else acc ++ [n]) []

/-- Structural size of a regex, used to compute a sufficient fuel. -/
def reSize : Re → Nat
  | .eps => 1
  | .cls _ => 1
  | .dot => 1
  | .wordB => 1
  | .cat a b => reSize a + reSize b + 1
  | .alt a b => reSize a + reSize b + 1
  | .star r => reSize r + 1

/-- Candidate end positions, in Perl backtracking priority order, of a match
of `r` starting at position `i` of `s`. The fuel bounds the recursion depth;
since every star iteration advances the position,
`(reSize r + 1) * (s.length + 2)` always suffices (`endsFuel`). -/
def ends (s : List Char) : Nat → Re → Nat → List Nat
  | 0, _, _ => []
  | fuel + 1, r, i =>
    match r with
    | .eps => [i]
    | .cls rs =>
      match s.get? i with
      | some c => if inCls rs c then [i + 1] else []
      | none => []
    | .dot =>
      match s.get? i with
      | some c => if c = '\n' then [] else [i + 1]
      | none => []
    | .wordB =>
      let before :=
        match i with
        | 0 => false
        | j + 1 => match s.get? j with | some c => isWordChar c | none => false
      let after := match s.get? i with | some c => isWordChar c | none => false
      if before ≠ after then [i] else []
    | .cat a b => dedupN ((ends s fuel a i).flatMap (fun j => ends s fuel b j))
    | .alt a b => dedupN (ends s fuel a i ++ ends s fuel b i)
    | .star r1 =>
      dedupN ((((ends s fuel r1 i).filter (fun j => i < j)).flatMap
        (fun j => ends s fuel (.star r1) j)) ++ [i])

/-- A recursion-depth bound for `ends` on `r` over `s`. -/
def endsFuel (r : Re) (s : List Char) : Nat :=
  (reSize r + 1) * (s.length + 2)

/-- Go `Regexp.MatchString`: some position starts a match. -/
def matchString (r : Re) (s : String) : Bool :=
  let cs := s.data
  (List.range (cs.length + 1)).any (fun i => !(ends cs (endsFuel r cs) r i).isEmpty)

/-- The leftmost-first match at or after `start`: the first start position
with a candidate end, paired with the backtracking-first end. -/
def findFrom (r : Re) (cs : List Char) : Nat → Nat → Option (Nat × Nat)
  | 0, _ => none
  | rem + 1, i =>
    match (ends cs (endsFuel r cs) r i).head? with
    | some j => some (i, j)
    | none => findFrom r cs rem (i + 1)

/-- All leftmost-first matches of `Regexp.FindAll`-style scanning, as
`(start, end)` pairs: after a non-empty match scanning resumes at its end,
after an empty match one character later. -/
def findAll (r : Re) (cs : List Char) : Nat → Nat → List (Nat × Nat)
  | 0, _ => []
  | rem + 1, i =>
    match findFrom r cs (cs.length + 1 - i) i with
    | none => []
    | some (a, b) =>
      if a < b then (a, b) :: findAll r cs rem b
      else (a, b) :: findAll r cs rem (b + 1)

/-- One character, both cases when it is a letter (for `(?i)` patterns). -/
def chrCI (c : Char) : Re :=
  if c.isAlpha then .cls [(c.toLower, c.toLower), (c.toUpper, c.toUpper)]
  else .cls [(c, c)]

/-- One literal character. -/
def chr (c : Char) : Re := .cls [(c, c)]

/-- A case-insensitive literal string. -/
def strCI (s : String) : Re := s.data.foldr (fun c acc => .cat (chrCI c) acc) .eps

/-- A case-sensitive literal string. -/
def strLit (s : String) : Re := s.data.foldr (fun c acc => .cat (chr c) acc) .eps

/-- Concatenation of a list. -/
def seqR (l : List Re) : Re := l.foldr .cat .eps

/-- Alternation of a list (left to right; empty list never matches). -/
def altR : List Re → Re
  | [] => .cls []
  | [r] => r
  | r :: rest => .alt r (altR rest)

/-- Greedy `?`. -/
def optR (r : Re) : Re := .alt r .eps

/-- Greedy `+`. -/
def plusR (r : Re) : Re := .cat r (.star r)

/-- `r` exactly `n` times. -/
def repExact : Nat → Re → Re
  | 0, _ => .eps
  | n + 1, r => .cat r (repExact n r)

/-- `r` at most `n` times, greedily. -/
def repUpTo : Nat → Re → Re
  | 0, _ => .eps
  | n + 1, r => optR (.cat r (repUpTo n r))

/-- Greedy bounded repetition `r{lo,hi}`. -/
def repR (r : Re) (lo hi : Nat) : Re := .cat (repExact lo r) (repUpTo (hi - lo) r)

/-- `\s` as a class. -/
def wsR : Re := .cls [('\t', '\n'), ('\x0c', '\x0d'), (' ', ' ')]

/-- `\d` as a class. -/
def digR : Re := .cls [('0', '9')]

end Re

namespace Shell

open Re

/-- `(?i)[rRf]` as a class. -/
def clsRF : Re := .cls [('r', 'r'), ('R', 'R'), ('f', 'f'), ('F', 'F')]

/-- Mirror of `denyPatterns` (shell.go lines 15-95), in source order; `(?i)`
patterns are embedded with both letter cases. -/
def denyPatterns : List Re := [
  -- (?i)\brm\s+-[rRf]{1,3}\s+[/~*]
  seqR [.wordB, strCI "rm", plusR wsR, chr '-', repR clsRF 1 3, plusR wsR,
    .cls [('/', '/'), ('~', '~'), ('*', '*')]],
  -- (?i)\brm\s+-[rRf]{1,3}\b
  seqR [.wordB, strCI "rm", plusR wsR, chr '-', repR clsRF 1 3, .wordB],
  -- (?i)\bmkfs\b
  seqR [.wordB, strCI "mkfs", .wordB],
  -- (?i)\bdd\s+if=
  seqR [.wordB, strCI "dd", plusR wsR, strCI "if="],
  -- :\(\)\s*\{.*\|.*&\s*\}\s*;  (fork bomb)
  seqR [chr ':', chr '(', chr ')', .star wsR, chr '\x7b', .star .dot, chr '|', .star .dot,
    chr '&', .star wsR, chr '\x7d', .star wsR, chr ';'],
  -- (?i)\b(shutdown|reboot|poweroff|halt)\b
  seqR [.wordB, altR [strCI "shutdown", strCI "reboot", strCI "poweroff", strCI "halt"], .wordB],
  -- (?i)\bchmod\s+-R\s+777\s+/
  seqR [.wordB, strCI "chmod", plusR wsR, chr '-', chrCI 'R', plusR wsR, strLit "777",
    plusR wsR, chr '/'],
  -- (?i)\bchown\s+-R\b
  seqR [.wordB, strCI "chown", plusR wsR, chr '-', chrCI 'R', .wordB],
  -- >\s*/dev/sd[a-z]
  seqR [chr '>', .star wsR, strLit "/dev/sd", .cls [('a', 'z')]],
  -- (?i)\b(curl|wget)\b.*\|\s*(sh|bash)\b
  seqR [.wordB, altR [strCI "curl", strCI "wget"], .wordB, .star .dot, chr '|', .star wsR,
    altR [strCI "sh", strCI "bash"], .wordB],
  -- (?i)\beval\b
  seqR [.wordB, strCI "eval", .wordB],
  -- (?i)\bexec\b
  seqR [.wordB, strCI "exec", .wordB],
  -- (?i)\bsudo\s+(rm|dd|mkfs)\b
  seqR [.wordB, strCI "sudo", plusR wsR, altR [strCI "rm", strCI "dd", strCI "mkfs"], .wordB],
  -- (?i)\b(killall|kill\s+-9)\b
  seqR [.wordB, altR [strCI "killall", seqR [strCI "kill", plusR wsR, strLit "-9"]], .wordB],
  -- (?i)\b(passwd|useradd|userdel|usermod)\b
  seqR [.wordB, altR [strCI "passwd", strCI "useradd", strCI "userdel", strCI "usermod"], .wordB],
  -- (?i)\biptables\s+-F\b
  seqR [.wordB, strCI "iptables", plusR wsR, chr '-', chrCI 'F', .wordB],
  -- (?i)\bufw\s+disable\b
  seqR [.wordB, strCI "ufw", plusR wsR, strCI "disable", .wordB],
  -- (?i)\b(nc|ncat)\s+-l\b
  seqR [.wordB, altR [strCI "nc", strCI "ncat"], plusR wsR, chr '-', chrCI 'l', .wordB],
  -- (?i)\b(python3?|perl|ruby)\s+-[ce]\b
  seqR [.wordB, altR [seqR [strCI "python", optR (chr '3')], strCI "perl", strCI "ruby"],
    plusR wsR, chr '-', .cls [('c', 'c'), ('C', 'C'), ('e', 'e'), ('E', 'E')], .wordB],
  -- (?i)\bbase64\s+-d\b
  seqR [.wordB, strCI "base64", plusR wsR, chr '-', chrCI 'd', .wordB],
  -- (?i)\bhistory\s+-c\b
  seqR [.wordB, strCI "history", plusR wsR, chr '-', chrCI 'c', .wordB],
  -- (?i)\bshred\b
  seqR [.wordB, strCI "shred", .wordB],
  -- /etc/(shadow|passwd)\b  (case-sensitive)
  seqR [strLit "/etc/", altR [strLit "shadow", strLit "passwd"], .wordB],
  -- (?i)\bcrontab\s+-r\b
  seqR [.wordB, strCI "crontab", plusR wsR, chr '-', chrCI 'r', .wordB],
  -- (?i)\bsystemctl\s+(stop|disable)\b
  seqR [.wordB, strCI "systemctl", plusR wsR, altR [strCI "stop", strCI "disable"], .wordB],
  -- (?i)\blaunchctl\s+unload\b
  seqR [.wordB, strCI "launchctl", plusR wsR, strCI "unload", .wordB],
  -- (?i)\bdefaults\s+delete\b
  seqR [.wordB, strCI "defaults", plusR wsR, strCI "delete", .wordB],
  -- (?i)\bxargs\s+rm\b
  seqR [.wordB, strCI "xargs", plusR wsR, strCI "rm", .wordB],
  -- (?i)\bfind\s+/\s+.*-delete\b
  seqR [.wordB, strCI "find", plusR wsR, chr '/', plusR wsR, .star .dot, strCI "-delete", .wordB],
  -- (?i)\btruncate\s+-s\s+0\b
  seqR [.wordB, strCI "truncate", plusR wsR, chr '-', chrCI 's', plusR wsR, chr '0', .wordB],
  -- (?i)\bcat\s+/dev/urandom\b
  seqR [.wordB, strCI "cat", plusR wsR, strCI "/dev/urandom", .wordB],
  -- (?i)\bfork\(\)
  seqR [.wordB, strCI "fork", chr '(', chr ')'],
  -- (?i)\bwhile\s+true\b
  seqR [.wordB, strCI "while", plusR wsR, strCI "true", .wordB],
  -- (?i)\bnohup\b
  seqR [.wordB, strCI "nohup", .wordB],
  -- (?i)\bscp\b
  seqR [.wordB, strCI "scp", .wordB],
  -- (?i)\brsync\s+--delete\b
  seqR [.wordB, strCI "rsync", plusR wsR, strCI "--delete", .wordB],
  -- (?i)\bgit\s+push\s+--force\b
  seqR [.wordB, strCI "git", plusR wsR, strCI "push", plusR wsR, strCI "--force", .wordB],
  -- (?i)\bnpm\s+publish\b
  seqR [.wordB, strCI "npm", plusR wsR, strCI "publish", .wordB],
  -- (?i)\bpip\s+install\s+--
  seqR [.wordB, strCI "pip", plusR wsR, strCI "install", plusR wsR, strLit "--"],
  -- (?i)\bdocker\s+(rm|rmi)\s+-f\b
  seqR [.wordB, strCI "docker", plusR wsR, altR [strCI "rm", strCI "rmi"], plusR wsR,
    chr '-', chrCI 'f', .wordB]]

/-- Mirror of `collapseWhitespace` (shell.go lines 217-233): every run of
space, tab, newline or carriage return becomes one space. -/
def collapseWhitespace (s : String) : String :=
  String.mk (s.data.foldl
    (fun (acc : List Char × Bool) ch =>
      if ch = ' ' ∨ ch = '\t' ∨ ch = '\n' ∨ ch = '\r' then
        if acc.2 then acc else (acc.1 ++ [' '], true)
      else (acc.1 ++ [ch], false))
    ([], false)).1

/-- Mirror of `checkDenyList` (shell.go lines 205-214): `true` when some deny
pattern matches the whitespace-normalized command (a non-empty reason). -/
def checkDenyList (command : String) : Bool :=
  denyPatterns.any (fun p => matchString p (collapseWhitespace command))

/-- `[a-zA-Z0-9_/.-]` of the absolute-path token pattern. -/
def isPathChar (c : Char) : Bool :=
  inCls [('a', 'z'), ('A', 'Z'), ('0', '9'), ('_', '_'), ('/', '/'), ('.', '.'), ('-', '-')] c

/-- A position where the pattern `(?:^|\s)(/[a-zA-Z][a-zA-Z0-9_/.-]*)` starts
its captured group: a `/` followed by a letter, at the start of the command
or right after Go `\s` whitespace. -/
def tokenStartAt (cs : List Char) (i : Nat) : Bool :=
  (cs.get? i = some '/') &&
  (match cs.get? (i + 1) with | some c => c.isAlpha | none => false) &&
  (i = 0 || (match i with
             | 0 => false
             | j + 1 => match cs.get? j with | some p => isWsGo p | none => false))

/-- The captured absolute-path tokens of
`absPathPattern.FindAllStringSubmatch(command, -1)` (shell.go lines 242-243):
each token is the maximal run of path characters after a starting `/`.
Inside a token every character is a non-whitespace path character, so no
token start can fall inside an earlier match and position scanning agrees
with Go's leftmost non-overlapping scan. -/
def absPathTokens (command : String) : List String :=
  let cs := command.data
  (List.range cs.length).filterMap (fun i =>
    if tokenStartAt cs i then
      some (String.mk ('/' :: (cs.drop (i + 1)).takeWhile isPathChar))
    else none)

/-- Go `strings.Contains(command, needle)`. -/
def containsSub (hay needle : String) : Bool :=
  (List.range (hay.data.length + 1)).any (fun i => needle.data.isPrefixOf (hay.data.drop i))

/-- Go `strings.HasPrefix(s, pre)`. -/
def strHasPfx (pre s : String) : Bool := pre.data.isPrefixOf s.data

/-- Mirror of `containsAbsolutePathOutsideWorkspace` (shell.go lines
236-253), with `absWorkspace` standing for `filepath.Abs(workspaceDir)`: some
token neither has the workspace as prefix nor `/dev/null` as prefix. -/
def containsAbsolutePathOutsideWorkspace (command absWorkspace : String) : Bool :=
  (absPathTokens command).any (fun p =>
    !(strHasPfx absWorkspace p) && !(strHasPfx "/dev/null" p))

/-- The pre-execution decision of `ShellTool.Execute` (shell.go lines
147-181): `true` exactly when the command reaches the subshell. Argument
decoding is elided (the command is the decoded parameter); `absWorkspace` is
the `filepath.Abs` of the configured workspace directory. -/
def shellExecuteProceeds (absWorkspace : String) (sandboxEnabled : Bool)
    (command : String) : Bool :=
  if command = "" then false
  else if sandboxEnabled then
    if checkDenyList command then false
    else if containsSub command "../" then false
    else if absWorkspace ≠ "" && containsAbsolutePathOutsideWorkspace command absWorkspace then
      false
    else true
  else true

/-- C3 counterexample: with workspace `/workspace`, the command
`cat /dev/nullx` is accepted by the sandbox, yet its only absolute-path
token `/dev/nullx` neither begins with the workspace nor equals `/dev/null`:
the code whitelists by `strings.HasPrefix(path, "/dev/null")`, not by
equality, so the claim as stated is false on this input. -/
theorem shell_devnull_prefix_counterexample :
    shellExecuteProceeds "/workspace" true "cat /dev/nullx" = true ∧
    absPathTokens "cat /dev/nullx" = ["/dev/nullx"] ∧
    strHasPfx "/workspace" "/dev/nullx" = false ∧
    "/dev/nullx" ≠ "/dev/null" := by
  refine ⟨by decide, by decide, by decide, by decide⟩

/-- C3 (amended): every command the sandbox lets through matches no deny
regex after whitespace normalization and contains no `../`; and when the
workspace directory is non-empty, every absolute-path token begins with the
absolute workspace path or begins with `/dev/null`. -/
theorem shell_sandbox_policy (absWorkspace command : String)
    (hws : absWorkspace ≠ "")
    (hacc : shellExecuteProceeds absWorkspace true command = true) :
    (∀ p ∈ denyPatterns, matchString p (collapseWhitespace command) = false) ∧
    containsSub command "../" = false ∧
    ∀ tok ∈ absPathTokens command,
      strHasPfx absWorkspace tok = true ∨ strHasPfx "/dev/null" tok = true := by
  unfold shellExecuteProceeds at hacc
  by_cases hcmd : command = ""
  · simp [hcmd] at hacc
  · rw [if_neg hcmd, if_pos rfl] at hacc
    by_cases hdeny : checkDenyList command
    · simp [hdeny] at hacc
    · rw [if_neg hdeny] at hacc
      by_cases htrav : containsSub command "../"
      · simp [htrav] at hacc
      · rw [if_neg htrav] at hacc
        by_cases habs : containsAbsolutePathOutsideWorkspace command absWorkspace
        · rw [if_pos (by simp [hws, habs])] at hacc
          cases hacc
        · refine ⟨?_, ?_, ?_⟩
          · have hall : ∀ p ∈ denyPatterns,
                ¬ matchString p (collapseWhitespace command) = true := by
              simpa [checkDenyList, List.any_eq_true] using hdeny
            intro p hp
            simpa using hall p hp
          · simpa using htrav
          · intro tok htok
            unfold containsAbsolutePathOutsideWorkspace at habs
            rw [List.any_eq_true] at habs
            push_neg at habs
            have h2 := habs tok htok
            by_cases hw : strHasPfx absWorkspace tok = true
            · exact Or.inl hw
            · by_cases hd : strHasPfx "/dev/null" tok = true
              · exact Or.inr hd
              · exfalso
                apply h2
                simp [Bool.not_eq_true] at hw hd
                simp [hw, hd]

/-- Instantiation of `shell_sandbox_policy` on the accepted command
`ls /workspace/logs`. -/
theorem shell_sandbox_policy_witness :
    containsSub "ls /workspace/logs" "../" = false ∧
    ∀ tok ∈ absPathTokens "ls /workspace/logs",
      strHasPfx "/workspace" tok = true ∨ strHasPfx "/dev/null" tok = true := by
  have h := shell_sandbox_policy "/workspace" "ls /workspace/logs" (by decide) (by decide)
  exact ⟨h.2.1, h.2.2⟩

end Shell

namespace Browser

/-!
Embedding of the browser tool's URL validation (browser.go lines 148-211).
`net.IP` values are byte lists (length 4 or 16) as in Go; `net.ParseIP` is
modelled for dotted-quad IPv4 (leading zeros rejected, as since Go 1.17) and
RFC 4291 IPv6 text (`::` compression, optional embedded IPv4 tail). Go
`strings.ToLower` is modelled for ASCII, which covers hostnames.
-/

/-- ASCII `strings.ToLower`. -/
def strToLower (s : String) : String := String.mk (s.data.map Char.toLower)

/-- Go `strings.HasSuffix(s, suf)`. -/
def strHasSfx (suf s : String) : Bool := suf.data.isSuffixOf s.data

/-- A dotted-quad field: 1-3 decimal digits, value ≤ 255, no leading zero. -/
def parseV4Field (f : List Char) : Option Nat :=
  if f = [] then none
  else if !(f.all Char.isDigit) then none
  else if f.length > 1 && f.head? = some '0' then none
  else if f.length > 3 then none
  else
    let n := f.foldl (fun a c => a * 10 + (c.toNat - 48)) 0
    if n ≤ 255 then some n else none

/-- `net.ParseIP`'s IPv4 path: four dot-separated fields. -/
def parseIPv4 (cs : List Char) : Option (List Nat) :=
  let fields := cs.splitOn '.'
  if fields.length = 4 then fields.mapM parseV4Field else none

/-- One hex digit. -/
def hexVal (c : Char) : Option Nat :=
  if '0' ≤ c && c ≤ '9' then some (c.toNat - 48)
  else if 'a' ≤ c && c ≤ 'f' then some (c.toNat - 87)
  else if 'A' ≤ c && c ≤ 'F' then some (c.toNat - 55)
  else none

/-- A 16-bit IPv6 group: 1-4 hex digits, as two bytes. -/
def parseV6Group (f : List Char) : Option (List Nat) :=
  if f = [] || f.length > 4 then none
  else
    match f.mapM hexVal with
    | none => none
    | some ds =>
      let n := ds.foldl (fun a d => a * 16 + d) 0
      some [n / 256, n % 256]

/-- The groups of one side of a `::`, the last one possibly an embedded
IPv4 address (only allowed in last position). -/
def parseV6Side (fields : List (List Char)) (v4AllowedLast : Bool) : Option (List Nat) :=
  match fields with
  | [] => some []
  | [f] =>
    if f.contains '.' then
      if v4AllowedLast then parseIPv4 f else none
    else parseV6Group f
  | f :: rest =>
    match parseV6Group f, parseV6Side rest v4AllowedLast with
    | some b, some bs => some (b ++ bs)
    | _, _ => none

/-- `net.ParseIP`'s IPv6 path: at most one `::`; 1-4 hex digit groups
separated by `:`; an embedded IPv4 tail; exactly 16 bytes without `::`, and
strictly fewer than 16 explicit bytes with `::` (which then pads zeros). -/
def parseIPv6 (cs : List Char) : Option (List Nat) :=
  if Shell.containsSub (String.mk cs) ":::" then none
  else
    let parts := cs.splitOn ':'
    -- `a::b` splits as [.., [], ..]; `::b` as [[], [], ..]; `a::` as [.., [], []]
    let emptyCount := (parts.filter (fun p => p = [])).length
    let nonempty := parts.filter (fun p => p ≠ [])
    let hasEllipsis := Shell.containsSub (String.mk cs) "::"
    let leadDouble := Shell.strHasPfx "::" (String.mk cs)
    let tailDouble := strHasSfx "::" (String.mk cs)
    -- a single stray empty field (":x", "x:") is invalid
    if !hasEllipsis && emptyCount > 0 then none
    else if hasEllipsis &&
        !(emptyCount = 1 || (emptyCount = 2 && (leadDouble || tailDouble)) ||
          (emptyCount = 3 && String.mk cs = "::")) then none
    else
      -- split the nonempty groups into the part before and after the `::`
      let idx := parts.findIdx (fun p => p = [])
      let before := (parts.take idx).filter (fun p => p ≠ [])
      let after := (parts.drop idx).filter (fun p => p ≠ [])
      if hasEllipsis then
        match parseV6Side before false, parseV6Side after true with
        | some b1, some b2 =>
          if b1.length + b2.length < 16 then
            some (b1 ++ List.replicate (16 - b1.length - b2.length) 0 ++ b2)
          else none
        | _, _ => none
      else
        match parseV6Side nonempty true with
        | some bs => if bs.length = 16 then some bs else none
        | none => none

/-- `net.ParseIP`: the first `.` or `:` selects the v4 or v6 parser. -/
def parseIP (s : String) : Option (List Nat) :=
  let cs := s.data
  match cs.find? (fun c => c = '.' || c = ':') with
  | some '.' => parseIPv4 cs
  | some ':' => parseIPv6 cs
  | _ => none

/-- Go `IP.To4`: a 4-byte address, or the tail of a v4-mapped v6 address. -/
def ipTo4 (ip : List Nat) : Option (List Nat) :=
  if ip.length = 4 then some ip
  else if ip.length = 16 && ip.take 10 = List.replicate 10 0 &&
      ip.get? 10 = some 255 && ip.get? 11 = some 255 then
    some (ip.drop 12)
  else none

/-- Go `IP.IsLoopback`: `127.0.0.0/8` or `::1`. -/
def ipIsLoopback (ip : List Nat) : Bool :=
  match ipTo4 ip with
  | some v4 => v4.head? = some 127
  | none => ip = List.replicate 15 0 ++ [1]

/-- Go `IP.IsPrivate`: `10/8`, `172.16/12`, `192.168/16`, or `fc00::/7`. -/
def ipIsPrivate (ip : List Nat) : Bool :=
  match ipTo4 ip with
  | some v4 =>
    v4.head? = some 10 ||
    (v4.head? = some 172 && (match v4.get? 1 with
      | some b => 16 ≤ b && b ≤ 31      -- b & 0xf0 == 16
      | none => false)) ||
    (v4.head? = some 192 && v4.get? 1 = some 168)
  | none =>
    ip.length = 16 && (match ip.head? with
      | some b => b = 252 || b = 253     -- b & 0xfe == 0xfc
      | none => false)

/-- Go `IP.IsLinkLocalUnicast`: `169.254/16` or `fe80::/10`. -/
def ipIsLinkLocalUnicast (ip : List Nat) : Bool :=
  match ipTo4 ip with
  | some v4 => v4.head? = some 169 && v4.get? 1 = some 254
  | none =>
    ip.length = 16 && ip.head? = some 254 && (match ip.get? 1 with
      | some b => 128 ≤ b && b ≤ 191     -- b & 0xc0 == 0x80
      | none => false)

/-- Go `IP.IsLinkLocalMulticast`: `224.0.0/24` or `ff02::/16`. -/
def ipIsLinkLocalMulticast (ip : List Nat) : Bool :=
  match ipTo4 ip with
  | some v4 => v4.head? = some 224 && v4.get? 1 = some 0 && v4.get? 2 = some 0
  | none =>
    ip.length = 16 && ip.head? = some 255 && (match ip.get? 1 with
      | some b => b % 16 = 2             -- b & 0x0f == 0x02
      | none => false)

/-- Go `IP.IsUnspecified`: `0.0.0.0` or `::`. -/
def ipIsUnspecified (ip : List Nat) : Bool :=
  match ipTo4 ip with
  | some v4 => v4 = [0, 0, 0, 0]
  | none => ip = List.replicate 16 0

/-- Mirror of `isPrivateHost` (browser.go lines 196-211). -/
def isPrivateHost (host : String) : Bool :=
  let lower := strToLower host
  if lower = "localhost" || lower = "ip6-localhost" || lower = "ip6-loopback" then true
  else
    match parseIP host with
    | none => false
    | some ip =>
      ipIsLoopback ip || ipIsPrivate ip || ipIsLinkLocalUnicast ip ||
        ipIsLinkLocalMulticast ip || ipIsUnspecified ip

/-- A parsed URL as `validateURL` consumes it: `u.Scheme` and
`u.Hostname()` of a successfully `url.Parse`d string. -/
structure URL where
  scheme : String
  hostname : String
deriving Repr, DecidableEq

/-- The deny/allow rule of browser.go lines 171-190: entry equals the
lowercased host, or the host is a subdomain (`HasSuffix(domain, "."+dl)`);
both sides lowercased. -/
def domainRuleMatches (entry domain : String) : Bool :=
  let dl := strToLower entry
  dl = domain || strHasSfx ("." ++ dl) domain

/-- Mirror of `validateURL` (browser.go lines 148-193) after `url.Parse`:
`true` exactly when no error is returned. -/
def validateURL (allowedDomains deniedDomains : List String) (u : URL) : Bool :=
  if !(u.scheme = "http" || u.scheme = "https") then false
  else if isPrivateHost u.hostname then false
  else
    let domain := strToLower u.hostname
    if deniedDomains.any (fun d => domainRuleMatches d domain) then false
    else if allowedDomains.length > 0 &&
        !(allowedDomains.any (fun d => domainRuleMatches d domain)) then
      false
    else true

lemma isPrivateHost_false_elim (host : String) (h : isPrivateHost host = false) :
    strToLower host ≠ "localhost" ∧ strToLower host ≠ "ip6-localhost" ∧
    strToLower host ≠ "ip6-loopback" ∧
    ∀ ip, parseIP host = some ip →
      ipIsLoopback ip = false ∧ ipIsPrivate ip = false ∧
      ipIsLinkLocalUnicast ip = false ∧ ipIsLinkLocalMulticast ip = false ∧
      ipIsUnspecified ip = false := by
  unfold isPrivateHost at h
  by_cases halias : (strToLower host = "localhost" || strToLower host = "ip6-localhost" ||
      strToLower host = "ip6-loopback") = true
  · rw [if_pos halias] at h
    cases h
  · rw [if_neg halias] at h
    simp only [Bool.or_eq_true, decide_eq_true_eq] at halias
    push_neg at halias
    refine ⟨halias.1.1, halias.1.2, halias.2, ?_⟩
    intro ip hip
    rw [hip] at h
    simp only [Bool.or_eq_false_iff] at h
    exact ⟨h.1.1.1.1, h.1.1.1.2, h.1.1.2, h.1.2, h.2⟩

/-- C4: every URL the browser `navigate` action accepts has scheme `http` or
`https`; its host is none of the localhost aliases and does not parse as a
loopback, private, link-local (unicast or multicast) or unspecified IP; the
host matches no deny-list entry under the case-insensitive
equality-or-subdomain rule; and when the allow-list is non-empty the host
matches some allow-list entry under the same rule. -/
theorem browser_navigate_policy (allowedDomains deniedDomains : List String) (u : URL)
    (h : validateURL allowedDomains deniedDomains u = true) :
    (u.scheme = "http" ∨ u.scheme = "https") ∧
    strToLower u.hostname ≠ "localhost" ∧
    strToLower u.hostname ≠ "ip6-localhost" ∧
    strToLower u.hostname ≠ "ip6-loopback" ∧
    (∀ ip, parseIP u.hostname = some ip →
      ipIsLoopback ip = false ∧ ipIsPrivate ip = false ∧
      ipIsLinkLocalUnicast ip = false ∧ ipIsLinkLocalMulticast ip = false ∧
      ipIsUnspecified ip = false) ∧
    (∀ d ∈ deniedDomains, domainRuleMatches d (strToLower u.hostname) = false) ∧
    (allowedDomains ≠ [] →
      ∃ d ∈ allowedDomains, domainRuleMatches d (strToLower u.hostname) = true) := by
  unfold validateURL at h
  by_cases hsch : (u.scheme = "http" || u.scheme = "https") = true
  · rw [hsch] at h
    simp only [Bool.not_true, Bool.false_eq_true, if_false] at h
    by_cases hpriv : isPrivateHost u.hostname = true
    · rw [if_pos hpriv] at h
      cases h
    · rw [if_neg hpriv] at h
      have hpriv' : isPrivateHost u.hostname = false := by
        simpa using hpriv
      obtain ⟨h1, h2, h3, h4⟩ := isPrivateHost_false_elim u.hostname hpriv'
      by_cases hden : deniedDomains.any
          (fun d => domainRuleMatches d (strToLower u.hostname)) = true
      · rw [if_pos hden] at h
        cases h
      · rw [if_neg hden] at h
        have hdenAll : ∀ d ∈ deniedDomains,
            domainRuleMatches d (strToLower u.hostname) = false := by
          intro d hd
          have := List.any_eq_true.not.mp hden
          push_neg at this
          simpa using this d hd
        refine ⟨by simpa using hsch, h1, h2, h3, h4, hdenAll, ?_⟩
        intro hne
        by_cases hall : allowedDomains.any
            (fun d => domainRuleMatches d (strToLower u.hostname)) = true
        · obtain ⟨d, hd, hdm⟩ := List.any_eq_true.mp hall
          exact ⟨d, hd, hdm⟩
        · exfalso
          have hlen : 0 < allowedDomains.length := List.length_pos.mpr hne
          rw [if_pos (by simp [hall, hlen])] at h
          cases h
  · rw [Bool.not_eq_true] at hsch
    rw [hsch] at h
    simp at h

/-- Instantiation of `browser_navigate_policy` on an accepted navigation:
scheme `https`, host `api.example.com`, deny-list `[evil.com]`, allow-list
`[example.com]` matched by the subdomain rule. -/
theorem browser_navigate_policy_witness :
    ("https" = "http" ∨ ("https" : String) = "https") ∧
    strToLower "api.example.com" ≠ "localhost" ∧
    strToLower "api.example.com" ≠ "ip6-localhost" ∧
    strToLower "api.example.com" ≠ "ip6-loopback" ∧
    (∀ ip, parseIP "api.example.com" = some ip →
      ipIsLoopback ip = false ∧ ipIsPrivate ip = false ∧
      ipIsLinkLocalUnicast ip = false ∧ ipIsLinkLocalMulticast ip = false ∧
      ipIsUnspecified ip = false) ∧
    (∀ d ∈ ["evil.com"], domainRuleMatches d (strToLower "api.example.com") = false) ∧
    (["example.com"] ≠ ([] : List String) →
      ∃ d ∈ ["example.com"], domainRuleMatches d (strToLower "api.example.com") = true) := by
  exact browser_navigate_policy ["example.com"] ["evil.com"]
    ⟨"https", "api.example.com"⟩ (by decide)

end Browser

namespace Sanitizer

open Re

/-!
Embedding of the PII sanitizer (sanitizer.go). The placeholder map is an
insertion-ordered association list `placeholder → original`; in the Go code
it is a Go map iterated in unspecified order, but originals in the map are
pairwise distinct (an original is only inserted when no placeholder maps to
it), so the reuse lookup is order-independent, and `Restore`'s replacements
commute because no original contains a bracket (placeholders never overlap
originals). The per-kind counters are likewise an association list.
-/

/-- `[a-zA-Z0-9._%+-]` (email local part). -/
def emailLocalC : Re :=
  .cls [('a', 'z'), ('A', 'Z'), ('0', '9'), ('.', '.'), ('_', '_'), ('%', '%'),
    ('+', '+'), ('-', '-')]

/-- `[a-zA-Z0-9.-]` (email domain). -/
def emailDomC : Re := .cls [('a', 'z'), ('A', 'Z'), ('0', '9'), ('.', '.'), ('-', '-')]

/-- `[a-zA-Z]`. -/
def alphaC : Re := .cls [('a', 'z'), ('A', 'Z')]

/-- `[-.\s]` (phone separators). -/
def phoneSepC : Re :=
  .cls [('-', '-'), ('.', '.'), ('\t', '\n'), ('\x0c', '\x0d'), (' ', ' ')]

/-- `[-\s]` (card separators). -/
def cardSepC : Re := .cls [('-', '-'), ('\t', '\n'), ('\x0c', '\x0d'), (' ', ' ')]

/-- `[a-zA-Z0-9._%+-]+@[a-zA-Z0-9.-]+\.[a-zA-Z]{2,}`. -/
def emailRe : Re :=
  seqR [plusR emailLocalC, chr '@', plusR emailDomC, chr '.', alphaC, plusR alphaC]

/-- `(?:\+?\d{1,3}[-.\s]?)?\(?\d{2,4}\)?[-.\s]?\d{3,4}[-.\s]?\d{3,4}`. -/
def phoneRe : Re :=
  seqR [optR (seqR [optR (chr '+'), repR digR 1 3, optR phoneSepC]),
    optR (chr '('), repR digR 2 4, optR (chr ')'), optR phoneSepC,
    repR digR 3 4, optR phoneSepC, repR digR 3 4]

/-- `\b\d{4}[-\s]?\d{4}[-\s]?\d{4}[-\s]?\d{4}\b`. -/
def cardRe : Re :=
  seqR [.wordB, repExact 4 digR, optR cardSepC, repExact 4 digR, optR cardSepC,
    repExact 4 digR, optR cardSepC, repExact 4 digR, .wordB]

/-- `\b\d{1,3}\.\d{1,3}\.\d{1,3}\.\d{1,3}\b`. -/
def ipRe : Re :=
  seqR [.wordB, repR digR 1 3, chr '.', repR digR 1 3, chr '.', repR digR 1 3,
    chr '.', repR digR 1 3, .wordB]

/-- `\b\d{3}-\d{2}-\d{4}\b`. -/
def ssnRe : Re :=
  seqR [.wordB, repExact 3 digR, chr '-', repExact 2 digR, chr '-', repExact 4 digR, .wordB]

/-- Mirror of `piiFilter` (sanitizer.go lines 22-26); `prefix_` is the Go
field `prefix`. -/
structure SanFilter where
  name : String
  pattern : Re
  prefix_ : String
deriving Repr

/-- Mirror of `defaultFilters` (sanitizer.go lines 28-38), in order. -/
def defaultFilters : List SanFilter :=
  [⟨"email", emailRe, "EMAIL"⟩,
   ⟨"phone", phoneRe, "PHONE"⟩,
   ⟨"card", cardRe, "CARD"⟩,
   ⟨"ip", ipRe, "IP"⟩,
   ⟨"ssn", ssnRe, "SSN"⟩]

/-- Mirror of `config.PIIFilterConfig`. -/
structure PIIFilterConfig where
  enabled : Bool
  filterEmails : Bool := false
  filterPhones : Bool := false
  filterCards : Bool := false
  filterIPs : Bool := false
  filterSSN : Bool := false
deriving Repr

/-- Mirror of `NewSanitizer` (sanitizer.go lines 41-67): the enabled subset
of `defaultFilters`, in their fixed order. -/
def newSanitizerFilters (cfg : PIIFilterConfig) : List SanFilter :=
  defaultFilters.filter (fun f =>
    (f.name = "email" && cfg.filterEmails) ||
    (f.name = "phone" && cfg.filterPhones) ||
    (f.name = "card" && cfg.filterCards) ||
    (f.name = "ip" && cfg.filterIPs) ||
    (f.name = "ssn" && cfg.filterSSN))

/-- `maxPIIMappings` (sanitizer.go line 11). -/
def maxPIIMappings : Nat := 1000

/-- Decimal digits of `n`, most significant first (`fmt.Sprintf("%d", n)`).
The fuel is the number itself plus one, which bounds the digit count. -/
def natStrAux : Nat → Nat → List Char → List Char
  | 0, _, acc => acc
  | fuel + 1, n, acc =>
    let d := Char.ofNat (48 + n % 10)
    if n < 10 then d :: acc
    else natStrAux fuel (n / 10) (d :: acc)

/-- Decimal rendering of a natural number. -/
def natStr (n : Nat) : String := String.mk (natStrAux (n + 1) n [])

/-- The placeholder text `[<PREFIX>_<n>]` (sanitizer.go line 94). -/
def phStr (pfx : String) (n : Nat) : String := "[" ++ pfx ++ "_" ++ natStr n ++ "]"

/-- Sanitizer mutable state: `mappings` (placeholder → original, insertion
order) and the per-kind `counter`. -/
structure SanState where
  mappings : List (String × String) := []
  counter : List (String × Nat) := []
deriving Repr, DecidableEq

/-- Counter read (0 when absent, as a Go map read). -/
def counterGet (c : List (String × Nat)) (k : String) : Nat :=
  match c.find? (fun p => p.1 = k) with
  | some p => p.2
  | none => 0

/-- Counter write. -/
def counterSet (c : List (String × Nat)) (k : String) (v : Nat) : List (String × Nat) :=
  if (c.find? (fun p => p.1 = k)).isSome then
    c.map (fun p => if p.1 = k then (k, v) else p)
  else c ++ [(k, v)]

/-- The reuse lookup of sanitizer.go lines 88-92: the placeholder already
mapping to this exact original, if any. -/
def lookupByOriginal (maps : List (String × String)) (orig : String) : Option String :=
  (maps.find? (fun p => p.2 = orig)).map (fun p => p.1)

/-- The replacement closure of sanitizer.go lines 86-97: reuse the existing
placeholder for an already-mapped original, otherwise mint `[<PREFIX>_<n>]`
with the incremented per-kind counter and record it. -/
def replaceMatch (pfx : String) (m : String) (st : SanState) : String × SanState :=
  match lookupByOriginal st.mappings m with
  | some ph => (ph, st)
  | none =>
    let n := counterGet st.counter pfx + 1
    let ph := phStr pfx n
    (ph, { mappings := st.mappings ++ [(ph, m)], counter := counterSet st.counter pfx n })

/-- Go `Regexp.ReplaceAllStringFunc` with a state-threading replacement
function: repeatedly take the leftmost-first match from the current
position, emit the text before it and the replacement, and continue after
it (one character further for an empty match; the sanitizer's patterns
never match empty). -/
def replaceAllFuncSt (r : Re) (cs : List Char)
    (f : String → SanState → String × SanState) :
    Nat → Nat → SanState → List Char × SanState
  | 0, i, st => (cs.drop i, st)
  | fuel + 1, i, st =>
    match findFrom r cs (cs.length + 1 - i) i with
    | none => (cs.drop i, st)
    | some (a, b) =>
      let pre := (cs.drop i).take (a - i)
      let m := String.mk ((cs.drop a).take (b - a))
      let rep := (f m st).1
      let st1 := (f m st).2
      if a < b then
        (pre ++ rep.data ++ (replaceAllFuncSt r cs f fuel b st1).1,
         (replaceAllFuncSt r cs f fuel b st1).2)
      else
        match cs.get? b with
        | some c =>
          (pre ++ rep.data ++ [c] ++ (replaceAllFuncSt r cs f fuel (b + 1) st1).1,
           (replaceAllFuncSt r cs f fuel (b + 1) st1).2)
        | none => (pre ++ rep.data, st1)

/-- One filter pass of `Sanitize` (sanitizer.go line 86). -/
def sanitizeStep (st : SanState) (text : String) (flt : SanFilter) : String × SanState :=
  let cs := text.data
  (String.mk (replaceAllFuncSt flt.pattern cs (replaceMatch flt.prefix_)
      (cs.length + 1) 0 st).1,
   (replaceAllFuncSt flt.pattern cs (replaceMatch flt.prefix_)
      (cs.length + 1) 0 st).2)

/-- Mirror of `Sanitize` (sanitizer.go lines 70-100): disabled or filterless
sanitizers pass text through; a full map (≥ 1000 entries) is cleared
wholesale first; then each filter replaces every occurrence in order. -/
def sanitize (enabled : Bool) (filters : List SanFilter) (st : SanState)
    (text : String) : String × SanState :=
  if !enabled || filters.isEmpty then (text, st)
  else
    let st0 := if maxPIIMappings ≤ st.mappings.length then ({} : SanState) else st
    filters.foldl (fun acc flt => sanitizeStep acc.2 acc.1 flt) (text, st0)

/-- Mirror of `indexOf` (sanitizer.go lines 143-150). -/
def goIndexOf (s substr : List Char) : Option Nat :=
  (List.range (s.length - substr.length + 1)).find? (fun i => substr.isPrefixOf (s.drop i))

/-- Mirror of `replaceAll` (sanitizer.go lines 126-141): replace every
occurrence of `old_`, scanning left to right and resuming after each
replacement. -/
def goReplaceAll (old_ new_ : List Char) : Nat → List Char → List Char
  | 0, s => s
  | fuel + 1, s =>
    if old_.isEmpty then s
    else
      match goIndexOf s old_ with
      | none => s
      | some i => s.take i ++ new_ ++ goReplaceAll old_ new_ fuel (s.drop (i + old_.length))

/-- Mirror of `Restore` (sanitizer.go lines 103-116): replace every known
placeholder by its original (map order fixed to insertion order; originals
contain no bracket, so the order cannot matter). -/
def restore (enabled : Bool) (st : SanState) (text : String) : String :=
  if !enabled then text
  else
    String.mk (st.mappings.foldl
      (fun acc p => goReplaceAll p.1.data p.2.data (acc.length + 1) acc)
      text.data)

/-! ### Decimal rendering lemmas -/

lemma natStrAux_acc (fuel : Nat) : ∀ (n : Nat) (acc : List Char),
    natStrAux fuel n acc = natStrAux fuel n [] ++ acc := by
  induction fuel with
  | zero => intro n acc; simp [natStrAux]
  | succ f ih =>
    intro n acc
    unfold natStrAux
    by_cases h : n < 10
    · simp [h]
    · simp only [h, if_false]
      rw [ih (n / 10) (Char.ofNat (48 + n % 10) :: acc),
          ih (n / 10) [Char.ofNat (48 + n % 10)]]
      simp

lemma natStrAux_fuel_irrel : ∀ (n fuel fuel' : Nat) (acc : List Char),
    n < fuel → n < fuel' → natStrAux fuel n acc = natStrAux fuel' n acc := by
  intro n
  induction n using Nat.strong_induction_on with
  | _ n ih =>
    intro fuel fuel' acc hf hf'
    match fuel, fuel' with
    | f + 1, f' + 1 =>
      unfold natStrAux
      by_cases h : n < 10
      · simp [h]
      · simp only [h, if_false]
        have hlt : n / 10 < n := Nat.div_lt_self (by omega) (by omega)
        exact ih (n / 10) hlt f f' _ (by omega) (by omega)

lemma digitChar_toNat (r : Nat) (h : r < 10) : (Char.ofNat (48 + r)).toNat = 48 + r := by
  interval_cases r <;> decide

lemma digitChar_isDigit (r : Nat) (h : r < 10) : (Char.ofNat (48 + r)).isDigit = true := by
  interval_cases r <;> decide

lemma natStr_unfold_small (n : Nat) (h : n < 10) :
    (natStr n).data = [Char.ofNat (48 + n % 10)] := by
  unfold natStr natStrAux
  simp [h]

lemma natStr_unfold_big (n : Nat) (h : 10 ≤ n) :
    (natStr n).data = (natStr (n / 10)).data ++ [Char.ofNat (48 + n % 10)] := by
  unfold natStr
  show natStrAux (n + 1) n [] = natStrAux (n / 10 + 1) (n / 10) [] ++ _
  have step : natStrAux (n + 1) n [] = natStrAux n (n / 10) [Char.ofNat (48 + n % 10)] := by
    simp only [natStrAux, Nat.not_lt.mpr h, if_false]
  rw [step, natStrAux_acc]
  congr 1
  exact natStrAux_fuel_irrel (n / 10) n (n / 10 + 1) []
    (by have := Nat.div_lt_self (by omega : 0 < n) (by omega : 1 < 10); omega)
    (by omega)

lemma natStr_digits (n : Nat) : ∀ c ∈ (natStr n).data, c.isDigit = true := by
  induction n using Nat.strong_induction_on with
  | _ n ih =>
    by_cases h : n < 10
    · rw [natStr_unfold_small n h]
      intro c hc
      simp at hc
      subst hc
      exact digitChar_isDigit (n % 10) (Nat.mod_lt _ (by omega))
    · rw [natStr_unfold_big n (by omega)]
      intro c hc
      rw [List.mem_append] at hc
      rcases hc with hc | hc
      · exact ih (n / 10) (Nat.div_lt_self (by omega) (by omega)) c hc
      · simp at hc
        subst hc
        exact digitChar_isDigit (n % 10) (Nat.mod_lt _ (by omega))

lemma natStr_ne_nil (n : Nat) : (natStr n).data ≠ [] := by
  by_cases h : n < 10
  · rw [natStr_unfold_small n h]; simp
  · rw [natStr_unfold_big n (by omega)]; simp

lemma natStr_len_le : ∀ (k n : Nat), n < 10 ^ k → 1 ≤ k → (natStr n).data.length ≤ k := by
  intro k
  induction k with
  | zero => intro n _ h1; omega
  | succ k ihk =>
    intro n hn _
    by_cases h : n < 10
    · rw [natStr_unfold_small n h]
      simp
    · rw [natStr_unfold_big n (by omega)]
      have hk1 : 1 ≤ k := by
        by_contra hk
        have : k = 0 := by omega
        subst this
        simp at hn
        omega
      have hdiv : n / 10 < 10 ^ k := by
        rw [Nat.div_lt_iff_lt_mul (by omega)]
        calc n < 10 ^ (k + 1) := hn
        _ = 10 ^ k * 10 := by ring
      have := ihk (n / 10) hdiv hk1
      rw [List.length_append]
      simp only [List.length_singleton]
      omega

/-- The value read back from decimal digits. -/
def digitsVal (ds : List Char) : Nat :=
  ds.foldl (fun a c => a * 10 + (c.toNat - 48)) 0

lemma digitsVal_append_one (xs : List Char) (c : Char) :
    digitsVal (xs ++ [c]) = digitsVal xs * 10 + (c.toNat - 48) := by
  simp [digitsVal, List.foldl_append]

lemma natStr_val (n : Nat) : digitsVal (natStr n).data = n := by
  induction n using Nat.strong_induction_on with
  | _ n ih =>
    by_cases h : n < 10
    · rw [natStr_unfold_small n h]
      have := digitChar_toNat (n % 10) (Nat.mod_lt _ (by omega))
      simp [digitsVal, this]
      omega
    · rw [natStr_unfold_big n (by omega), digitsVal_append_one,
        ih (n / 10) (Nat.div_lt_self (by omega) (by omega)),
        digitChar_toNat (n % 10) (Nat.mod_lt _ (by omega))]
      omega

lemma natStr_inj {a b : Nat} (h : natStr a = natStr b) : a = b := by
  have := natStr_val a
  rw [h, natStr_val b] at this
  omega

/-! ### Regex soundness: positions, consumed characters, mandatory counts -/

lemma dedupN_mem_aux (x : Nat) : ∀ (l acc : List Nat),
    x ∈ l.foldl (fun acc n => if n ∈ acc then acc else acc ++ [n]) acc ↔ x ∈ acc ∨ x ∈ l := by
  intro l
  induction l with
  | nil => intro acc; simp
  | cons a t ih =>
    intro acc
    simp only [List.foldl_cons]
    rw [ih]
    by_cases h : a ∈ acc
    · simp [h]
      constructor
      · rintro (hx | hx)
        · exact Or.inl hx
        · exact Or.inr (Or.inr hx)
      · rintro (hx | hx | hx)
        · exact Or.inl hx
        · subst hx; exact Or.inl h
        · exact Or.inr hx
    · simp [h, List.mem_append]
      constructor
      · rintro ((hx | hx) | hx)
        · exact Or.inl hx
        · exact Or.inr (Or.inl hx)
        · exact Or.inr (Or.inr hx)
      · rintro (hx | hx | hx)
        · exact Or.inl (Or.inl hx)
        · exact Or.inl (Or.inr hx)
        · exact Or.inr hx

lemma dedupN_mem (l : List Nat) (x : Nat) : x ∈ dedupN l ↔ x ∈ l := by
  unfold dedupN
  rw [dedupN_mem_aux]
  simp

lemma ends_mono (s : List Char) : ∀ (fuel : Nat) (r : Re) (i j : Nat),
    i ≤ s.length → j ∈ ends s fuel r i → i ≤ j ∧ j ≤ s.length := by
  intro fuel
  induction fuel with
  | zero => intro r i j _ h; simp [ends] at h
  | succ f ih =>
    intro r i j hi h
    cases r with
    | eps => simp [ends] at h; omega
    | cls rs =>
      simp only [ends] at h
      rcases hg : s.get? i with _ | c
      · rw [hg] at h; simp at h
      · rw [hg] at h
        have hlen : i < s.length := List.get?_eq_some.mp hg |>.1
        by_cases hc : inCls rs c <;> simp [hc] at h
        omega
    | dot =>
      simp only [ends] at h
      rcases hg : s.get? i with _ | c
      · rw [hg] at h; simp at h
      · rw [hg] at h
        have hlen : i < s.length := List.get?_eq_some.mp hg |>.1
        by_cases hc : c = '\n' <;> simp [hc] at h
        omega
    | wordB =>
      simp only [ends] at h
      split at h <;> simp at h
      omega
    | cat a b =>
      simp only [ends, dedupN_mem, List.mem_flatMap] at h
      obtain ⟨m, hm, hj⟩ := h
      obtain ⟨h1, h2⟩ := ih a i m hi hm
      obtain ⟨h3, h4⟩ := ih b m j h2 hj
      omega
    | alt a b =>
      simp only [ends, dedupN_mem, List.mem_append] at h
      rcases h with h | h
      · exact ih a i j hi h
      · exact ih b i j hi h
    | star r1 =>
      simp only [ends, dedupN_mem, List.mem_append, List.mem_flatMap, List.mem_filter] at h
      rcases h with ⟨m, ⟨hm, hlt⟩, hj⟩ | h
      · obtain ⟨h1, h2⟩ := ih r1 i m hi hm
        obtain ⟨h3, h4⟩ := ih (.star r1) m j h2 hj
        omega
      · simp at h; omega

/-- Characters a regex can consume (its alphabet). -/
def reCanConsume : Re → Char → Bool
  | .eps, _ => false
  | .cls rs, c => inCls rs c
  | .dot, c => !(c = '\n')
  | .wordB, _ => false
  | .cat a b, c => reCanConsume a c || reCanConsume b c
  | .alt a b, c => reCanConsume a c || reCanConsume b c
  | .star r, c => reCanConsume r c

lemma ends_consume (s : List Char) : ∀ (fuel : Nat) (r : Re) (i j : Nat),
    i ≤ s.length → j ∈ ends s fuel r i →
    ∀ k, i ≤ k → k < j → ∃ c, s.get? k = some c ∧ reCanConsume r c = true := by
  intro fuel
  induction fuel with
  | zero => intro r i j _ h; simp [ends] at h
  | succ f ih =>
    intro r i j hi h k hk1 hk2
    cases r with
    | eps => simp [ends] at h; omega
    | cls rs =>
      simp only [ends] at h
      rcases hg : s.get? i with _ | c
      · rw [hg] at h; simp at h
      · rw [hg] at h
        by_cases hc : inCls rs c <;> simp [hc] at h
        have : k = i := by omega
        subst this
        exact ⟨c, hg, by simpa [reCanConsume] using hc⟩
    | dot =>
      simp only [ends] at h
      rcases hg : s.get? i with _ | c
      · rw [hg] at h; simp at h
      · rw [hg] at h
        by_cases hc : c = '\n' <;> simp [hc] at h
        have : k = i := by omega
        subst this
        exact ⟨c, hg, by simp [reCanConsume, hc]⟩
    | wordB =>
      simp only [ends] at h
      split at h <;> simp at h
      omega
    | cat a b =>
      simp only [ends, dedupN_mem, List.mem_flatMap] at h
      obtain ⟨m, hm, hj⟩ := h
      obtain ⟨h1, h2⟩ := ends_mono s (f) a i m hi hm
      by_cases hkm : k < m
      · obtain ⟨c, hc1, hc2⟩ := ih a i m hi hm k hk1 hkm
        exact ⟨c, hc1, by simp [reCanConsume, hc2]⟩
      · obtain ⟨c, hc1, hc2⟩ := ih b m j h2 hj k (by omega) hk2
        exact ⟨c, hc1, by simp [reCanConsume, hc2]⟩
    | alt a b =>
      simp only [ends, dedupN_mem, List.mem_append] at h
      rcases h with h | h
      · obtain ⟨c, hc1, hc2⟩ := ih a i j hi h k hk1 hk2
        exact ⟨c, hc1, by simp [reCanConsume, hc2]⟩
      · obtain ⟨c, hc1, hc2⟩ := ih b i j hi h k hk1 hk2
        exact ⟨c, hc1, by simp [reCanConsume, hc2]⟩
    | star r1 =>
      simp only [ends, dedupN_mem, List.mem_append, List.mem_flatMap, List.mem_filter] at h
      rcases h with ⟨m, ⟨hm, hlt⟩, hj⟩ | h
      · obtain ⟨h1, h2⟩ := ends_mono s f r1 i m hi hm
        by_cases hkm : k < m
        · obtain ⟨c, hc1, hc2⟩ := ih r1 i m hi hm k hk1 hkm
          exact ⟨c, hc1, by simpa [reCanConsume] using hc2⟩
        · obtain ⟨c, hc1, hc2⟩ := ih (.star r1) m j h2 hj k (by omega) hk2
          exact ⟨c, hc1, by simpa [reCanConsume] using hc2⟩
      · simp at h; omega

/-! ### Slices and mandatory character counts of matches -/

/-- The characters of `s` at positions `i ≤ k < j`. -/
def slice (s : List Char) (i j : Nat) : List Char := (s.drop i).take (j - i)

/-- Number of characters satisfying `p`. -/
def countP (p : Char → Bool) (l : List Char) : Nat := (l.filter p).length

/-- Decidable check that every character in the range `[lo, hi]` satisfies
`p` (only for ranges below the surrogate block, which covers every class in
the sanitizer's patterns). -/
def rangeAll (lo hi : Char) (p : Char → Bool) : Bool :=
  decide (hi.toNat < 55296) &&
  (List.range (hi.toNat + 1 - lo.toNat)).all (fun k => p (Char.ofNat (lo.toNat + k)))

lemma toNat_ofNat_lt (n : Nat) (h : n < 55296) : (Char.ofNat n).toNat = n := by
  have hv : n.isValidChar := Or.inl h
  unfold Char.ofNat
  rw [dif_pos hv]
  rfl

lemma char_le_iff (a b : Char) : a ≤ b ↔ a.toNat ≤ b.toNat := Iff.rfl

lemma char_eq_of_toNat_eq (a b : Char) (h : a.toNat = b.toNat) : a = b := by
  apply Char.ext
  exact UInt32.ext h

lemma rangeAll_sound {lo hi : Char} {p : Char → Bool} (h : rangeAll lo hi p = true)
    {c : Char} (h1 : lo ≤ c) (h2 : c ≤ hi) : p c = true := by
  unfold rangeAll at h
  rw [Bool.and_eq_true, decide_eq_true_iff] at h
  obtain ⟨hlim, hall⟩ := h
  rw [char_le_iff] at h1 h2
  have hk : c.toNat - lo.toNat < hi.toNat + 1 - lo.toNat := by omega
  have := List.all_eq_true.mp hall (c.toNat - lo.toNat) (List.mem_range.mpr hk)
  rw [show lo.toNat + (c.toNat - lo.toNat) = c.toNat from by omega] at this
  have hc : Char.ofNat c.toNat = c :=
    char_eq_of_toNat_eq _ _ (toNat_ofNat_lt c.toNat (by omega))
  rwa [hc] at this

/-- Decidable check that every character of the class satisfies `p`. -/
def clsSub (rs : List (Char × Char)) (p : Char → Bool) : Bool :=
  rs.all (fun q => rangeAll q.1 q.2 p)

lemma clsSub_sound {rs : List (Char × Char)} {p : Char → Bool} (h : clsSub rs p = true)
    {c : Char} (hc : inCls rs c = true) : p c = true := by
  unfold inCls at hc
  rw [List.any_eq_true] at hc
  obtain ⟨q, hq, hqc⟩ := hc
  rw [Bool.and_eq_true] at hqc
  exact rangeAll_sound (List.all_eq_true.mp h q hq) (of_decide_eq_true hqc.1)
    (of_decide_eq_true hqc.2)

/-- A lower bound on the number of `p`-characters any match of `r` contains. -/
def minCount (p : Char → Bool) : Re → Nat
  | .eps => 0
  | .wordB => 0
  | .dot => 0
  | .star _ => 0
  | .cls rs => if clsSub rs p then 1 else 0
  | .cat a b => minCount p a + minCount p b
  | .alt a b => min (minCount p a) (minCount p b)

lemma slice_self (s : List Char) (i : Nat) : slice s i i = [] := by simp [slice]

lemma slice_split (s : List Char) {i m j : Nat} (h1 : i ≤ m) (h2 : m ≤ j) :
    slice s i j = slice s i m ++ slice s m j := by
  unfold slice
  rw [show j - i = (m - i) + (j - m) from by omega, List.take_add]
  congr 1
  rw [List.drop_drop, show i + (m - i) = m from by omega]

lemma countP_append (p : Char → Bool) (l1 l2 : List Char) :
    countP p (l1 ++ l2) = countP p l1 + countP p l2 := by
  simp [countP, List.filter_append]

lemma slice_singleton (s : List Char) (i : Nat) (c : Char) (h : s.get? i = some c) :
    slice s i (i + 1) = [c] := by
  unfold slice
  rw [show i + 1 - i = 1 from by omega]
  have hd : (s.drop i).get? 0 = some c := by rw [List.get?_drop]; simpa using h
  rcases hds : s.drop i with _ | ⟨a, t⟩
  · rw [hds] at hd; simp at hd
  · rw [hds] at hd
    simp at hd
    subst hd
    simp

lemma ends_minCount (s : List Char) (p : Char → Bool) : ∀ (fuel : Nat) (r : Re) (i j : Nat),
    i ≤ s.length → j ∈ ends s fuel r i → minCount p r ≤ countP p (slice s i j) := by
  intro fuel
  induction fuel with
  | zero => intro r i j _ h; simp [ends] at h
  | succ f ih =>
    intro r i j hi h
    cases r with
    | eps => simp [minCount]
    | wordB => simp [minCount]
    | dot => simp [minCount]
    | star r1 => simp [minCount]
    | cls rs =>
      simp only [ends] at h
      rcases hg : s.get? i with _ | c
      · rw [hg] at h; simp at h
      · rw [hg] at h
        by_cases hc : inCls rs c <;> simp [hc] at h
        subst h
        rw [slice_singleton s i c hg]
        simp only [minCount]
        split
        · next hsub =>
          have : p c = true := clsSub_sound hsub hc
          simp [countP, this]
        · omega
    | cat a b =>
      simp only [ends, dedupN_mem, List.mem_flatMap] at h
      obtain ⟨m, hm, hj⟩ := h
      obtain ⟨h1, h2⟩ := ends_mono s f a i m hi hm
      obtain ⟨h3, h4⟩ := ends_mono s f b m j h2 hj
      rw [slice_split s h1 h3, countP_append]
      have ha := ih a i m hi hm
      have hb := ih b m j h2 hj
      simp only [minCount]
      omega
    | alt a b =>
      simp only [ends, dedupN_mem, List.mem_append] at h
      simp only [minCount]
      rcases h with h | h
      · have := ih a i j hi h; omega
      · have := ih b i j hi h; omega

lemma countP_pos {p : Char → Bool} {l : List Char} (h : 0 < countP p l) :
    ∃ c ∈ l, p c = true := by
  unfold countP at h
  rcases hf : l.filter p with _ | ⟨c, t⟩
  · rw [hf] at h; simp at h
  · have : c ∈ l.filter p := by rw [hf]; exact List.mem_cons_self _ _
    rw [List.mem_filter] at this
    exact ⟨c, this.1, this.2⟩

lemma mem_slice {s : List Char} {i j : Nat} {c : Char} (h : c ∈ slice s i j) :
    ∃ k, i ≤ k ∧ k < j ∧ s.get? k = some c := by
  unfold slice at h
  obtain ⟨n, hn⟩ := List.mem_iff_get?.mp h
  have h1 : n < j - i := by
    by_contra hc
    push_neg at hc
    rw [List.get?_eq_none.mpr (by rw [List.length_take]; omega)] at hn
    exact Option.noConfusion hn
  rw [List.get?_take h1, List.get?_drop] at hn
  exact ⟨i + n, by omega, by omega, hn⟩

lemma slice_ne_of_countP {s : List Char} {i j : Nat} {p : Char → Bool}
    (h : 0 < countP p (slice s i j)) : i < j := by
  by_contra hc
  push_neg at hc
  have : slice s i j = [] := by unfold slice; rw [show j - i = 0 from by omega]; simp
  rw [this] at h
  simp [countP] at h

/-! ### Facts the five PII patterns guarantee about every match -/

/-- Characters that can appear in a placeholder interior `<PREFIX>_<n>`. -/
def tokInterior (c : Char) : Bool :=
  ('A' ≤ c && c ≤ 'Z') || ('0' ≤ c && c ≤ '9') || c = '_'

/-- What distinguishes every captured original from placeholder interiors:
it has a character outside the interior alphabet, or at least 8 digits
(an interior `<PREFIX>_<n>` with `n ≤ 1001` has at most 4). -/
def origOkS (m : List Char) : Prop :=
  (∃ c ∈ m, tokInterior c = false) ∨ 8 ≤ countP (fun c => c.isDigit) m

lemma email_minCount : minCount (fun c => c = '@') emailRe = 1 := by decide

lemma phone_minCount : minCount (fun c => c.isDigit) phoneRe = 8 := by decide

lemma card_minCount : minCount (fun c => c.isDigit) cardRe = 16 := by decide

lemma ip_minCount : minCount (fun c => c = '.') ipRe = 3 := by decide

lemma ssn_minCount : minCount (fun c => c = '-') ssnRe = 2 := by decide

lemma patterns_brfree :
    ∀ flt ∈ defaultFilters, reCanConsume flt.pattern '[' = false ∧
      reCanConsume flt.pattern ']' = false := by decide

lemma match_char_witness {r : Re} {p : Char → Bool} (hm : 1 ≤ minCount p r)
    {s : List Char} {fuel i j : Nat} (hi : i ≤ s.length) (hj : j ∈ ends s fuel r i) :
    (∃ c ∈ slice s i j, p c = true) ∧ i < j := by
  have hc := ends_minCount s p fuel r i j hi hj
  have hpos : 0 < countP p (slice s i j) := by omega
  exact ⟨countP_pos hpos, slice_ne_of_countP hpos⟩

lemma match_brfree {r : Re} (h1 : reCanConsume r '[' = false)
    (h2 : reCanConsume r ']' = false) {s : List Char} {fuel i j : Nat}
    (hi : i ≤ s.length) (hj : j ∈ ends s fuel r i) :
    ∀ c ∈ slice s i j, c ≠ '[' ∧ c ≠ ']' := by
  intro c hcm
  obtain ⟨k, hk1, hk2, hkg⟩ := mem_slice hcm
  obtain ⟨c', hg', hcan⟩ := ends_consume s fuel r i j hi hj k hk1 hk2
  rw [hkg] at hg'
  injection hg' with hcc
  subst hcc
  constructor
  · intro hb; rw [hb] at hcan; rw [h1] at hcan; exact Bool.noConfusion hcan
  · intro hb; rw [hb] at hcan; rw [h2] at hcan; exact Bool.noConfusion hcan

/-- Every match of every default filter: is non-empty, contains no bracket,
and is distinguishable from any placeholder interior. -/
lemma filter_match_facts {flt : SanFilter} (hf : flt ∈ defaultFilters)
    {s : List Char} {fuel i j : Nat} (hi : i ≤ s.length)
    (hj : j ∈ ends s fuel flt.pattern i) :
    i < j ∧ (∀ c ∈ slice s i j, c ≠ '[' ∧ c ≠ ']') ∧ origOkS (slice s i j) := by
  have hbr := match_brfree (patterns_brfree flt hf).1 (patterns_brfree flt hf).2 hi hj
  have hf' : flt = ⟨"email", emailRe, "EMAIL"⟩ ∨ flt = ⟨"phone", phoneRe, "PHONE"⟩ ∨
      flt = ⟨"card", cardRe, "CARD"⟩ ∨ flt = ⟨"ip", ipRe, "IP"⟩ ∨
      flt = ⟨"ssn", ssnRe, "SSN"⟩ := by
    simpa [defaultFilters] using hf
  rcases hf' with rfl | rfl | rfl | rfl | rfl
  · obtain ⟨⟨c, hcm, hcp⟩, hij⟩ := match_char_witness (p := fun c => c = '@')
      (by rw [email_minCount]) hi hj
    refine ⟨hij, hbr, Or.inl ⟨c, hcm, ?_⟩⟩
    have : c = '@' := by simpa using hcp
    subst this; decide
  · have hc := ends_minCount s (fun c => c.isDigit) fuel _ i j hi hj
    rw [phone_minCount] at hc
    exact ⟨slice_ne_of_countP (lt_of_lt_of_le (by norm_num) hc), hbr, Or.inr hc⟩
  · have hc := ends_minCount s (fun c => c.isDigit) fuel _ i j hi hj
    rw [card_minCount] at hc
    exact ⟨slice_ne_of_countP (lt_of_lt_of_le (by norm_num) hc), hbr, Or.inr (by omega)⟩
  · obtain ⟨⟨c, hcm, hcp⟩, hij⟩ := match_char_witness (p := fun c => c = '.')
      (by rw [ip_minCount]; omega) hi hj
    refine ⟨hij, hbr, Or.inl ⟨c, hcm, ?_⟩⟩
    have : c = '.' := by simpa using hcp
    subst this; decide
  · obtain ⟨⟨c, hcm, hcp⟩, hij⟩ := match_char_witness (p := fun c => c = '-')
      (by rw [ssn_minCount]; omega) hi hj
    refine ⟨hij, hbr, Or.inl ⟨c, hcm, ?_⟩⟩
    have : c = '-' := by simpa using hcp
    subst this; decide

/-! ### Structure of placeholders `[<PREFIX>_<n>]` -/

/-- The five placeholder kinds, in filter order. -/
def prefixes : List String := ["EMAIL", "PHONE", "CARD", "IP", "SSN"]

/-- The interior of the placeholder `[<pfx>_<n>]`. -/
def intChars (pfx : String) (n : Nat) : List Char := pfx.data ++ '_' :: (natStr n).data

lemma phStr_data (pfx : String) (n : Nat) :
    (phStr pfx n).data = '[' :: intChars pfx n ++ [']'] := by
  simp [phStr, intChars, String.data_append]

lemma prefixes_tok : ∀ pfx ∈ prefixes, ∀ c ∈ pfx.data,
    tokInterior c = true ∧ c.isDigit = false ∧ c ≠ '[' ∧ c ≠ ']' ∧ c ≠ '_' := by decide

lemma isDigit_tokInterior {c : Char} (h : c.isDigit = true) : tokInterior c = true := by
  unfold Char.isDigit at h
  rw [Bool.and_eq_true, decide_eq_true_iff, decide_eq_true_iff] at h
  unfold tokInterior
  have h0 : ('0' ≤ c && c ≤ '9') = true := by
    rw [Bool.and_eq_true, decide_eq_true_iff, decide_eq_true_iff]
    exact ⟨h.1, h.2⟩
  rw [h0]
  simp

lemma isDigit_not_bracket {c : Char} (h : c.isDigit = true) : c ≠ '[' ∧ c ≠ ']' := by
  constructor
  · intro hc; rw [hc] at h; exact absurd h (by decide)
  · intro hc; rw [hc] at h; exact absurd h (by decide)

lemma countP_eq_zero {p : Char → Bool} {l : List Char} (h : ∀ c ∈ l, p c = false) :
    countP p l = 0 := by
  unfold countP
  rw [List.filter_eq_nil.mpr (fun c hc => by rw [h c hc]; exact Bool.false_ne_true)]
  rfl

lemma countP_eq_length {p : Char → Bool} {l : List Char} (h : ∀ c ∈ l, p c = true) :
    countP p l = l.length := by
  unfold countP
  rw [List.filter_eq_self.mpr h]

/-- Interiors of capacity-bounded placeholders: all characters are interior
characters, no brackets, at most 4 digits, nonempty. -/
lemma int_facts {pfx : String} (hp : pfx ∈ prefixes) {n : Nat} (hn : n ≤ maxPIIMappings) :
    (∀ c ∈ intChars pfx n, tokInterior c = true ∧ c ≠ '[' ∧ c ≠ ']') ∧
    countP (fun c => c.isDigit) (intChars pfx n) ≤ 4 ∧ intChars pfx n ≠ [] := by
  refine ⟨?_, ?_, ?_⟩
  · intro c hc
    rw [intChars, List.mem_append] at hc
    rcases hc with hc | hc
    · have := prefixes_tok pfx hp c hc
      exact ⟨this.1, this.2.2.1, this.2.2.2.1⟩
    · rw [List.mem_cons] at hc
      rcases hc with rfl | hc
      · exact ⟨by decide, by decide, by decide⟩
      · have hd := natStr_digits n c hc
        exact ⟨isDigit_tokInterior hd, (isDigit_not_bracket hd).1, (isDigit_not_bracket hd).2⟩
  · rw [intChars, show ('_' :: (natStr n).data) = ['_'] ++ (natStr n).data from rfl,
      countP_append, countP_append]
    have h1 : countP (fun c => c.isDigit) pfx.data = 0 :=
      countP_eq_zero (fun c hc => (prefixes_tok pfx hp c hc).2.1)
    have h2 : countP (fun c => c.isDigit) ['_'] = 0 := by decide
    have h3 : countP (fun c => c.isDigit) (natStr n).data = (natStr n).data.length :=
      countP_eq_length (fun c hc => natStr_digits n c hc)
    have h4 : (natStr n).data.length ≤ 4 := by
      apply natStr_len_le 4 n _ (by norm_num)
      calc n ≤ 1000 := hn
      _ < 10 ^ 4 := by norm_num
    omega
  · rw [intChars]
    intro hcon
    rw [List.append_eq_nil] at hcon
    exact List.noConfusion hcon.2

lemma append_underscore_inj : ∀ {u u' v v' : List Char}, '_' ∉ u → '_' ∉ u' →
    u ++ '_' :: v = u' ++ '_' :: v' → u = u' ∧ v = v' := by
  intro u
  induction u with
  | nil =>
    intro u' v v' _ hu' h
    cases u' with
    | nil => simp at h; exact ⟨rfl, h⟩
    | cons a t =>
      simp at h
      exact absurd (h.1 ▸ List.mem_cons_self a t) (h.1 ▸ hu')
  | cons a t ih =>
    intro u' v v' hu hu' h
    cases u' with
    | nil =>
      simp at h
      exact absurd (h.1 ▸ List.mem_cons_self a t) (h.1 ▸ hu)
    | cons a' t' =>
      simp only [List.cons_append, List.cons.injEq] at h
      obtain ⟨rfl, h2⟩ := h
      obtain ⟨h3, h4⟩ := ih (fun hm => hu (List.mem_cons_of_mem _ hm))
        (fun hm => hu' (List.mem_cons_of_mem _ hm)) h2
      exact ⟨by rw [h3], h4⟩

lemma phStr_inj {pfx pfx' : String} (hp : pfx ∈ prefixes) (hp' : pfx' ∈ prefixes)
    {n n' : Nat} (h : phStr pfx n = phStr pfx' n') : pfx = pfx' ∧ n = n' := by
  have hd := congrArg String.data h
  rw [phStr_data, phStr_data] at hd
  have hd2 : intChars pfx n ++ [']'] = intChars pfx' n' ++ [']'] := by
    injection hd
  rw [intChars, intChars, List.append_assoc, List.append_assoc] at hd2
  simp only [List.cons_append] at hd2
  obtain ⟨h1, h2⟩ := append_underscore_inj
    (fun hm => ((prefixes_tok pfx hp '_' hm).2.2.2.2) rfl)
    (fun hm => ((prefixes_tok pfx' hp' '_' hm).2.2.2.2) rfl) hd2
  refine ⟨String.ext h1, ?_⟩
  have h3 : (natStr n).data = (natStr n').data := by
    have := List.append_inj_left' h2 ?_
    · exact this
    · rfl
  exact natStr_inj (String.ext h3)

/-- No occurrence of any capacity-bounded placeholder. -/
def phFreeL (cs : List Char) : Prop :=
  ∀ pfx ∈ prefixes, ∀ n : Nat, 1 ≤ n → n ≤ maxPIIMappings → ¬((phStr pfx n).data <:+: cs)

lemma phFreeL_infix {cs ds : List Char} (h : phFreeL ds) (hsub : cs <:+: ds) : phFreeL cs :=
  fun pfx hp n h1 hn hocc => h pfx hp n h1 hn (hocc.trans hsub)

lemma phFreeL_of_no_bracket {cs : List Char} (h : '[' ∉ cs) : phFreeL cs := by
  intro pfx hp n _ _ hocc
  exact h (hocc.subset (by rw [phStr_data]; exact List.mem_cons_self _ _))

/-! ### Take/drop/slice utilities -/

lemma take_app_le {u v : List Char} {a : Nat} (h : a ≤ u.length) :
    (u ++ v).take a = u.take a := by
  rw [List.take_append_eq_append_take, show a - u.length = 0 from by omega]
  simp

lemma drop_app_le {u v : List Char} {a : Nat} (h : a ≤ u.length) :
    (u ++ v).drop a = u.drop a ++ v := by
  rw [List.drop_append_eq_append_drop, show a - u.length = 0 from by omega]
  simp

lemma take_app_ge {u v : List Char} {a : Nat} (h : u.length ≤ a) :
    (u ++ v).take a = u ++ v.take (a - u.length) := by
  rw [List.take_append_eq_append_take, List.take_of_length_le h]

lemma drop_app_ge {u v : List Char} {a : Nat} (h : u.length ≤ a) :
    (u ++ v).drop a = v.drop (a - u.length) := by
  rw [List.drop_append_eq_append_drop, List.drop_of_length_le h]
  simp

lemma slice_app_left {u v : List Char} {a b : Nat} (hb : b ≤ u.length) :
    slice (u ++ v) a b = slice u a b := by
  by_cases hab : a ≤ b
  · unfold slice
    rw [drop_app_le (le_trans hab hb), List.take_append_eq_append_take]
    have : b - a ≤ (u.drop a).length := by rw [List.length_drop]; omega
    rw [show b - a - (u.drop a).length = 0 from by omega]
    simp
  · unfold slice
    rw [show b - a = 0 from by omega]
    simp

lemma slice_app_right {u v : List Char} {a b : Nat} (ha : u.length ≤ a) :
    slice (u ++ v) a b = slice v (a - u.length) (b - u.length) := by
  unfold slice
  rw [drop_app_ge ha]
  congr 1
  omega

lemma slice_append_drop {l : List Char} {a b : Nat} (h : a ≤ b) :
    slice l a b ++ l.drop b = l.drop a := by
  unfold slice
  rw [show l.drop b = (l.drop a).drop (b - a) from by rw [List.drop_drop]; congr 1; omega]
  exact List.take_append_drop _ _

lemma take_slice_drop {l : List Char} {a b : Nat} (h : a ≤ b) :
    l = l.take a ++ slice l a b ++ l.drop b := by
  rw [List.append_assoc, slice_append_drop h, List.take_append_drop]

lemma get_app_right {u v : List Char} {k : Nat} (h : u.length ≤ k) :
    (u ++ v).get? k = v.get? (k - u.length) := by
  rw [List.get?_append_right h]

lemma slice_get {s : List Char} {i j k : Nat} (h1 : i ≤ k) (h2 : k < j) :
    (slice s i j).get? (k - i) = s.get? k := by
  unfold slice
  rw [List.get?_take (by omega), List.get?_drop, show i + (k - i) = k from by omega]

lemma slice_mem_of_get {s : List Char} {i j k : Nat} {c : Char} (h1 : i ≤ k) (h2 : k < j)
    (hg : s.get? k = some c) : c ∈ slice s i j := by
  have := slice_get (s := s) h1 h2
  rw [hg] at this
  exact List.get?_mem this

lemma slice_sublist {l : List Char} {a b : Nat} : List.Sublist (slice l a b) l :=
  List.Sublist.trans (List.take_sublist _ _) (List.drop_sublist _ _)

lemma countP_sublist {p : Char → Bool} {l l' : List Char} (h : List.Sublist l l') :
    countP p l ≤ countP p l' :=
  List.Sublist.length_le (List.Sublist.filter p h)

lemma slice_cons {c : Char} {l : List Char} {a b : Nat} (ha : 1 ≤ a) :
    slice (c :: l) a b = slice l (a - 1) (b - 1) := by
  unfold slice
  rw [show c :: l = [c] ++ l from rfl, drop_app_ge (by simpa using ha)]
  simp only [List.length_singleton]
  congr 1
  omega

lemma slice_length {l : List Char} {a b : Nat} (h1 : a ≤ b) (h2 : b ≤ l.length) :
    (slice l a b).length = b - a := by
  unfold slice
  rw [List.length_take, List.length_drop]
  omega

/-! ### Decompositions: raw spans alternating with placeholder tokens -/

/-- Rendered form of the token groups: each group is a token `(placeholder,
original)` followed by a raw span. -/
def flatH (ts : List ((String × String) × List Char)) : List Char :=
  ts.flatMap (fun q => q.1.1.data ++ q.2)

/-- The text a decomposition renders to. -/
def renderH (r0 : List Char) (ts : List ((String × String) × List Char)) : List Char :=
  r0 ++ flatH ts

/-- The groups with each token replaced by its original. -/
def flatM (ts : List ((String × String) × List Char)) : List Char :=
  ts.flatMap (fun q => q.1.2.data ++ q.2)

/-- The text a decomposition stands for. -/
def meanH (r0 : List Char) (ts : List ((String × String) × List Char)) : List Char :=
  r0 ++ flatM ts

/-- A well-shaped token: some capacity-bounded placeholder. -/
def TokOk (ph : String) : Prop :=
  ∃ pfx ∈ prefixes, ∃ n, 1 ≤ n ∧ n ≤ maxPIIMappings ∧ ph = phStr pfx n

lemma tokOk_shape {ph : String} (h : TokOk ph) :
    ∃ ι : List Char, ph.data = '[' :: ι ++ [']'] ∧ ι ≠ [] ∧
      (∀ c ∈ ι, tokInterior c = true ∧ c ≠ '[' ∧ c ≠ ']') ∧
      countP (fun c => c.isDigit) ι ≤ 4 := by
  obtain ⟨pfx, hp, n, _, hn, rfl⟩ := h
  obtain ⟨hc, hd, hne⟩ := int_facts hp hn
  exact ⟨intChars pfx n, phStr_data pfx n, hne, hc, hd⟩

lemma renderH_nil (r0 : List Char) : renderH r0 [] = r0 := by
  simp [renderH, flatH]

lemma renderH_cons (r0 : List Char) (ph og : String) (r : List Char) (rest) :
    renderH r0 (((ph, og), r) :: rest) = r0 ++ (ph.data ++ renderH r rest) := by
  simp [renderH, flatH]

lemma meanH_nil (r0 : List Char) : meanH r0 [] = r0 := by
  simp [meanH, flatM]

lemma meanH_cons (r0 : List Char) (ph og : String) (r : List Char) (rest) :
    meanH r0 (((ph, og), r) :: rest) = r0 ++ (og.data ++ meanH r rest) := by
  simp [meanH, flatM]

lemma get_shape_last {ι : List Char} : ('[' :: ι ++ [']']).get? (ι.length + 1) = some ']' := by
  rw [show ('[' :: ι ++ [']']) = ('[' :: ι) ++ [']'] from rfl,
    show ι.length + 1 = ('[' :: ι).length from by simp]
  exact List.get?_concat_length _ _

/-- Where a bracket-free, interior-incompatible span of the rendered text can
sit: inside the head raw span, or inside one group's raw span. -/
lemma match_split {M : List Char} (hbr : ∀ c ∈ M, c ≠ '[' ∧ c ≠ ']') (hok : origOkS M) :
    ∀ (ts : List ((String × String) × List Char)) (r0 : List Char) (a b : Nat),
    (∀ q ∈ ts, TokOk q.1.1) →
    a < b → b ≤ (renderH r0 ts).length →
    M = slice (renderH r0 ts) a b →
    (∃ rpre rpost, r0 = rpre ++ M ++ rpost ∧ (renderH r0 ts).take a = rpre ∧
      (renderH r0 ts).drop b = renderH rpost ts) ∨
    (∃ tsA pr r rpre rpost tsB, ts = tsA ++ (pr, r) :: tsB ∧
      r = rpre ++ M ++ rpost ∧
      (renderH r0 ts).take a = r0 ++ flatH tsA ++ pr.1.data ++ rpre ∧
      (renderH r0 ts).drop b = renderH rpost tsB) := by
  intro ts
  induction ts with
  | nil =>
    intro r0 a b _ hab hb hM
    left
    rw [renderH_nil] at hM hb ⊢
    refine ⟨r0.take a, r0.drop b, ?_, rfl, ?_⟩
    · rw [hM]
      exact take_slice_drop (le_of_lt hab)
    · rw [renderH_nil]
  | cons q rest ih =>
    obtain ⟨⟨ph, og⟩, r⟩ := q
    intro r0 a b htok hab hb hM
    obtain ⟨ι, hphd, hιne, hιc, hιd⟩ := tokOk_shape (htok _ (List.mem_cons_self _ _))
    have hL : ph.data.length = ι.length + 2 := by rw [hphd]; simp
    have hcons := renderH_cons r0 ph og r rest
    by_cases hb0 : b ≤ r0.length
    · left
      refine ⟨r0.take a, r0.drop b, ?_, ?_, ?_⟩
      · rw [hM, hcons, slice_app_left hb0]
        exact take_slice_drop (le_of_lt hab)
      · rw [hcons, take_app_le (by omega)]
      · rw [hcons, drop_app_le hb0, renderH_cons]
    · by_cases ha0 : r0.length + ph.data.length ≤ a
      · -- the span lies beyond the first token: recurse on the tail
        have hS2 : renderH r0 (((ph, og), r) :: rest) =
            (r0 ++ ph.data) ++ renderH r rest := by
          rw [hcons, List.append_assoc]
        have hlen2 : (r0 ++ ph.data).length = r0.length + ph.data.length := by
          simp
        have hM' : M = slice (renderH r rest) (a - (r0.length + ph.data.length))
            (b - (r0.length + ph.data.length)) := by
          rw [hM, hS2, slice_app_right (by omega), hlen2]
        have hb' : b - (r0.length + ph.data.length) ≤ (renderH r rest).length := by
          rw [hS2, List.length_append, hlen2] at hb
          omega
        rcases ih r (a - (r0.length + ph.data.length)) (b - (r0.length + ph.data.length))
            (fun q hq => htok q (List.mem_cons_of_mem _ hq)) (by omega) hb' hM' with
          ⟨rpre, rpost, h1, h2, h3⟩ | ⟨tsA, pr2, r2, rpre, rpost, tsB, h1, h2, h3, h4⟩
        · right
          refine ⟨[], (ph, og), r, rpre, rpost, rest, rfl, h1, ?_, ?_⟩
          · rw [hS2, take_app_ge (by omega), hlen2, h2]
            simp [flatH]
          · rw [hS2, drop_app_ge (by omega), hlen2, h3]
        · right
          refine ⟨((ph, og), r) :: tsA, pr2, r2, rpre, rpost, tsB, by rw [h1]; rfl, h2, ?_, ?_⟩
          · rw [hS2, take_app_ge (by omega), hlen2, h3]
            simp [flatH, renderH, List.append_assoc]
          · rw [hS2, drop_app_ge (by omega), hlen2, h4]
      · -- the span would overlap the first token: impossible
        exfalso
        push_neg at hb0 ha0
        have hblen : b ≤ (renderH r0 (((ph, og), r) :: rest)).length := hb
        by_cases ha1 : a ≤ r0.length
        · -- it would contain the opening bracket of the token
          have hget : (renderH r0 (((ph, og), r) :: rest)).get? r0.length = some '[' := by
            rw [hcons, get_app_right (le_refl _), Nat.sub_self]
            rw [List.get?_append (by rw [hL]; omega), hphd]
            rfl
          have hmem : '[' ∈ M := by
            rw [hM]
            exact slice_mem_of_get ha1 hb0 hget
          exact (hbr '[' hmem).1 rfl
        · push_neg at ha1
          by_cases hbig : r0.length + ph.data.length - 1 < b
          · -- it would contain the closing bracket of the token
            have hget : (renderH r0 (((ph, og), r) :: rest)).get?
                (r0.length + (ι.length + 1)) = some ']' := by
              rw [hcons, get_app_right (by omega), Nat.add_sub_cancel_left]
              rw [List.get?_append (by rw [hL]; omega), hphd]
              exact get_shape_last
            have hmem : ']' ∈ M := by
              rw [hM]
              exact slice_mem_of_get (by omega) (by omega) hget
            exact (hbr ']' hmem).2 rfl
          · -- it would sit inside the token interior
            push_neg at hbig
            have hMι : M = slice ι (a - r0.length - 1) (b - r0.length - 1) := by
              rw [hM, hcons, slice_app_right (le_of_lt ha1),
                slice_app_left (by omega), hphd,
                show ('[' :: ι ++ [']'] : List Char) = '[' :: (ι ++ [']']) from rfl,
                slice_cons (by omega), slice_app_left (by omega)]
            have hsub : List.Sublist M ι := by rw [hMι]; exact slice_sublist
            rcases hok with ⟨c, hcm, hcti⟩ | hdig
            · exact absurd ((hιc c (hsub.subset hcm)).1) (by rw [hcti]; exact Bool.noConfusion)
            · have := countP_sublist (p := fun c => c.isDigit) hsub
              omega

/-! ### findFrom, counters, reuse lookup, and the sanitizer state invariant -/

lemma findFrom_spec {r : Re} {cs : List Char} : ∀ {rem i a b : Nat},
    findFrom r cs rem i = some (a, b) →
    i ≤ a ∧ a < i + rem ∧ b ∈ ends cs (endsFuel r cs) r a := by
  intro rem
  induction rem with
  | zero => intro i a b h; simp [findFrom] at h
  | succ m ih =>
    intro i a b h
    rw [findFrom] at h
    rcases hh : (ends cs (endsFuel r cs) r i).head? with _ | j
    · rw [hh] at h
      obtain ⟨h1, h2, h3⟩ := ih h
      exact ⟨by omega, by omega, h3⟩
    · rw [hh] at h
      injection h with h'
      injection h' with ha hb
      subst ha
      subst hb
      refine ⟨le_refl _, by omega, ?_⟩
      rcases hl : ends cs (endsFuel r cs) r i with _ | ⟨x, t⟩
      · rw [hl] at hh; exact Option.noConfusion hh
      · rw [hl] at hh
        injection hh with hx
        subst hx
        exact List.mem_cons_self _ _

lemma counterGet_nil (k : String) : counterGet [] k = 0 := rfl

lemma find?_map_self (k : String) (v : Nat) : ∀ (c : List (String × Nat)),
    (c.find? (fun p => p.1 = k)).isSome →
    (c.map (fun p => if p.1 = k then (k, v) else p)).find? (fun p => decide (p.1 = k)) =
      some (k, v) := by
  intro c
  induction c with
  | nil => intro hf; simp at hf
  | cons p t ih =>
    intro hf
    by_cases hp : p.1 = k
    · simp only [List.map_cons, if_pos hp]
      rw [List.find?_cons_of_pos _ (by simp)]
    · simp only [List.map_cons, if_neg hp]
      rw [List.find?_cons_of_neg _ (by simpa using hp)]
      apply ih
      rw [List.find?_cons_of_neg _ (by simpa using hp)] at hf
      exact hf

lemma find?_map_other (k k' : String) (v : Nat) (hk : k' ≠ k) : ∀ (c : List (String × Nat)),
    (c.map (fun p => if p.1 = k then (k, v) else p)).find? (fun p => decide (p.1 = k')) =
      c.find? (fun p => decide (p.1 = k')) := by
  intro c
  induction c with
  | nil => rfl
  | cons p t ih =>
    by_cases hp : p.1 = k
    · simp only [List.map_cons, if_pos hp]
      rw [List.find?_cons_of_neg _ (by simp [Ne.symm hk]),
        List.find?_cons_of_neg _ (by simp [hp, Ne.symm hk])]
      exact ih
    · simp only [List.map_cons, if_neg hp]
      by_cases hq : p.1 = k'
      · rw [List.find?_cons_of_pos _ (by simp [hq]),
          List.find?_cons_of_pos _ (by simp [hq])]
      · rw [List.find?_cons_of_neg _ (by simp [hq]),
          List.find?_cons_of_neg _ (by simp [hq])]
        exact ih

lemma counterGet_set_self (c : List (String × Nat)) (k : String) (v : Nat) :
    counterGet (counterSet c k v) k = v := by
  unfold counterSet
  by_cases hf : (c.find? (fun p => p.1 = k)).isSome
  · rw [if_pos hf]
    unfold counterGet
    rw [find?_map_self k v c hf]
  · rw [if_neg hf]
    unfold counterGet
    rw [List.find?_append]
    have hn : c.find? (fun p => decide (p.1 = k)) = none := by
      rcases hx : c.find? (fun p => decide (p.1 = k)) with _ | p
      · exact hx
      · rw [hx] at hf; simp at hf
    rw [hn]
    simp [List.find?]

lemma counterGet_set_other (c : List (String × Nat)) (k k' : String) (v : Nat)
    (hk : k' ≠ k) : counterGet (counterSet c k v) k' = counterGet c k' := by
  unfold counterSet
  by_cases hf : (c.find? (fun p => p.1 = k)).isSome
  · rw [if_pos hf]
    unfold counterGet
    rw [find?_map_other k k' v hk c]
  · rw [if_neg hf]
    unfold counterGet
    rw [List.find?_append]
    rcases hx : c.find? (fun p => decide (p.1 = k')) with _ | p
    · simp [List.find?, Ne.symm hk]
    · simp [hx]

lemma lookupByOriginal_some {maps : List (String × String)} {orig ph : String}
    (h : lookupByOriginal maps orig = some ph) : (ph, orig) ∈ maps := by
  unfold lookupByOriginal at h
  rcases hf : maps.find? (fun p => p.2 = orig) with _ | p
  · rw [hf] at h; exact Option.noConfusion h
  · rw [hf] at h
    simp only [Option.map_some'] at h
    injection h with h1
    have hm := List.mem_of_find?_eq_some hf
    have hp := List.find?_some hf
    rw [decide_eq_true_iff] at hp
    have : (ph, orig) = p := by
      rw [← h1, ← hp]
    rw [this]
    exact hm

lemma lookupByOriginal_none {maps : List (String × String)} {orig : String}
    (h : lookupByOriginal maps orig = none) : ∀ p ∈ maps, p.2 ≠ orig := by
  unfold lookupByOriginal at h
  rcases hf : maps.find? (fun p => p.2 = orig) with _ | p
  · intro p hp
    have := List.find?_eq_none.mp hf p hp
    simpa using this
  · rw [hf] at h; exact Option.noConfusion h

/-- Representation invariant of the sanitizer state: placeholders are
counter-bounded `[<PREFIX>_<n>]` strings, pairwise distinct, originals are
pairwise distinct, nonempty, bracket-free and interior-incompatible, and
each per-kind counter is bounded by the table size. -/
structure SanInvP (st : SanState) : Prop where
  shape : ∀ p ∈ st.mappings, ∃ pfx ∈ prefixes, ∃ n, 1 ≤ n ∧
    n ≤ counterGet st.counter pfx ∧ p.1 = phStr pfx n
  keysd : st.mappings.Pairwise (fun p q => p.1 ≠ q.1)
  origd : st.mappings.Pairwise (fun p q => p.2 ≠ q.2)
  origok : ∀ p ∈ st.mappings, origOkS p.2.data ∧ (∀ c ∈ p.2.data, c ≠ '[' ∧ c ≠ ']') ∧
    p.2.data ≠ []
  cbound : ∀ pfx, counterGet st.counter pfx ≤ st.mappings.length

lemma sanInv_empty : SanInvP {} := by
  refine ⟨?_, ?_, ?_, ?_, ?_⟩
  · intro p hp; exact absurd hp (by simp)
  · exact List.Pairwise.nil
  · exact List.Pairwise.nil
  · intro p hp; exact absurd hp (by simp)
  · intro pfx; exact le_refl 0

lemma sanInv_tokOk {st : SanState} (h : SanInvP st)
    (hcap : st.mappings.length ≤ maxPIIMappings)
    {p : String × String} (hp : p ∈ st.mappings) : TokOk p.1 := by
  obtain ⟨pfx, hpf, n, h1, h2, h3⟩ := h.shape p hp
  exact ⟨pfx, hpf, n, h1, le_trans h2 (le_trans (h.cbound pfx) hcap), h3⟩

lemma mappings_key_unique {st : SanState} (h : SanInvP st) {k v v' : String}
    (h1 : (k, v) ∈ st.mappings) (h2 : (k, v') ∈ st.mappings) : v = v' := by
  by_contra hne
  have hsym : Symmetric (fun p q : String × String => p.1 ≠ q.1) :=
    fun p q hpq hq => hpq hq.symm
  exact h.keysd.forall hsym h1 h2 (by simp [hne]) rfl

lemma replaceMatch_reuse {pfx m : String} {st : SanState} {ph : String}
    (hl : lookupByOriginal st.mappings m = some ph) :
    replaceMatch pfx m st = (ph, st) := by
  unfold replaceMatch
  rw [hl]

lemma replaceMatch_mint {pfx m : String} {st : SanState}
    (hl : lookupByOriginal st.mappings m = none) :
    replaceMatch pfx m st =
      (phStr pfx (counterGet st.counter pfx + 1),
       { mappings := st.mappings ++ [(phStr pfx (counterGet st.counter pfx + 1), m)],
         counter := counterSet st.counter pfx (counterGet st.counter pfx + 1) }) := by
  unfold replaceMatch
  rw [hl]

lemma replaceMatch_mint_inv {pfx : String} (hpfx : pfx ∈ prefixes) {m : String}
    (hm1 : origOkS m.data) (hm2 : ∀ c ∈ m.data, c ≠ '[' ∧ c ≠ ']') (hm3 : m.data ≠ [])
    {st : SanState} (hinv : SanInvP st) (hl : lookupByOriginal st.mappings m = none) :
    SanInvP { mappings := st.mappings ++ [(phStr pfx (counterGet st.counter pfx + 1), m)],
              counter := counterSet st.counter pfx (counterGet st.counter pfx + 1) } := by
  constructor
  · intro p hp
    rw [List.mem_append] at hp
    rcases hp with hp | hp
    · obtain ⟨pfx', hpf', n', h1, h2, h3⟩ := hinv.shape p hp
      refine ⟨pfx', hpf', n', h1, ?_, h3⟩
      by_cases hpe : pfx' = pfx
      · subst hpe
        rw [counterGet_set_self]
        omega
      · rw [counterGet_set_other _ _ _ _ hpe]
        exact h2
    · rw [List.mem_singleton] at hp
      subst hp
      refine ⟨pfx, hpfx, counterGet st.counter pfx + 1, by omega, ?_, rfl⟩
      rw [counterGet_set_self]
  · rw [List.pairwise_append]
    refine ⟨hinv.keysd, List.pairwise_singleton _ _, ?_⟩
    intro p hp q hq
    rw [List.mem_singleton] at hq
    subst hq
    intro hcon
    obtain ⟨pfx', hpf', n', h1, h2, h3⟩ := hinv.shape p hp
    rw [h3] at hcon
    obtain ⟨he1, he2⟩ := phStr_inj hpf' hpfx hcon
    subst he1
    omega
  · rw [List.pairwise_append]
    refine ⟨hinv.origd, List.pairwise_singleton _ _, ?_⟩
    intro p hp q hq
    rw [List.mem_singleton] at hq
    subst hq
    exact lookupByOriginal_none hl p hp
  · intro p hp
    rw [List.mem_append] at hp
    rcases hp with hp | hp
    · exact hinv.origok p hp
    · rw [List.mem_singleton] at hp
      subst hp
      exact ⟨hm1, hm2, hm3⟩
  · intro pfx'
    simp only [List.length_append, List.length_singleton]
    by_cases hpe : pfx' = pfx
    · subst hpe
      rw [counterGet_set_self]
      have := hinv.cbound pfx'
      omega
    · rw [counterGet_set_other _ _ _ _ hpe]
      have := hinv.cbound pfx'
      omega

lemma replaceMatch_facts {pfx : String} (hpfx : pfx ∈ prefixes) {m : String}
    (hm1 : origOkS m.data) (hm2 : ∀ c ∈ m.data, c ≠ '[' ∧ c ≠ ']') (hm3 : m.data ≠ [])
    {st : SanState} (hinv : SanInvP st) :
    ((replaceMatch pfx m st).1, m) ∈ (replaceMatch pfx m st).2.mappings ∧
    st.mappings <+: (replaceMatch pfx m st).2.mappings ∧
    SanInvP (replaceMatch pfx m st).2 := by
  rcases hl : lookupByOriginal st.mappings m with _ | ph
  · rw [replaceMatch_mint hl]
    exact ⟨List.mem_append_right _ (List.mem_singleton.mpr rfl),
      ⟨_, rfl⟩, replaceMatch_mint_inv hpfx hm1 hm2 hm3 hinv hl⟩
  · rw [replaceMatch_reuse hl]
    exact ⟨lookupByOriginal_some hl, List.prefix_refl _, hinv⟩

lemma replaceMatch_mono (pfx m : String) (st : SanState) :
    st.mappings <+: (replaceMatch pfx m st).2.mappings := by
  rcases hl : lookupByOriginal st.mappings m with _ | ph
  · rw [replaceMatch_mint hl]
    exact ⟨_, rfl⟩
  · rw [replaceMatch_reuse hl]

lemma replaceAllFuncSt_mono (r : Re) (cs : List Char) (pfx : String) :
    ∀ (fuel i : Nat) (st : SanState),
    st.mappings <+: (replaceAllFuncSt r cs (replaceMatch pfx) fuel i st).2.mappings := by
  intro fuel
  induction fuel with
  | zero => intro i st; exact List.prefix_refl _
  | succ f ih =>
    intro i st
    rw [replaceAllFuncSt]
    rcases hf : findFrom r cs (cs.length + 1 - i) i with _ | ab
    · exact List.prefix_refl _
    · obtain ⟨a, b⟩ := ab
      simp only []
      by_cases hab : a < b
      · rw [if_pos hab]
        exact (replaceMatch_mono pfx _ st).trans (ih b _)
      · rw [if_neg hab]
        rcases hg : cs.get? b with _ | c
        · exact replaceMatch_mono pfx _ st
        · exact (replaceMatch_mono pfx _ st).trans (ih (b + 1) _)

/-! ### The sanitize pass preserves decompositions -/

lemma filters_pfx_mem : ∀ flt ∈ defaultFilters, flt.prefix_ ∈ prefixes := by decide

lemma flatH_append (A B : List ((String × String) × List Char)) :
    flatH (A ++ B) = flatH A ++ flatH B := by
  simp [flatH]

lemma flatH_cons (pr : String × String) (r : List Char) (ts) :
    flatH ((pr, r) :: ts) = pr.1.data ++ r ++ flatH ts := by
  simp [flatH]

lemma flatM_append (A B : List ((String × String) × List Char)) :
    flatM (A ++ B) = flatM A ++ flatM B := by
  simp [flatM]

lemma flatM_cons (pr : String × String) (r : List Char) (ts) :
    flatM ((pr, r) :: ts) = pr.2.data ++ r ++ flatM ts := by
  simp [flatM]

lemma replaceAllFuncSt_spec {flt : SanFilter} (hfl : flt ∈ defaultFilters) (cs : List Char) :
    ∀ (fuel : Nat) (i : Nat) (st : SanState) (r0 : List Char)
      (ts : List ((String × String) × List Char)),
    i ≤ cs.length →
    cs.drop i = renderH r0 ts →
    phFreeL r0 →
    (∀ q ∈ ts, (q.1.1, q.1.2) ∈ st.mappings ∧ phFreeL q.2) →
    SanInvP st →
    (replaceAllFuncSt flt.pattern cs (replaceMatch flt.prefix_) fuel i st).2.mappings.length
      ≤ maxPIIMappings →
    ∃ r0' ts',
      (replaceAllFuncSt flt.pattern cs (replaceMatch flt.prefix_) fuel i st).1
        = renderH r0' ts' ∧
      meanH r0' ts' = meanH r0 ts ∧
      phFreeL r0' ∧
      (∀ q ∈ ts', (q.1.1, q.1.2) ∈
        (replaceAllFuncSt flt.pattern cs (replaceMatch flt.prefix_) fuel i st).2.mappings ∧
        phFreeL q.2) ∧
      SanInvP (replaceAllFuncSt flt.pattern cs (replaceMatch flt.prefix_) fuel i st).2 ∧
      st.mappings <+:
        (replaceAllFuncSt flt.pattern cs (replaceMatch flt.prefix_) fuel i st).2.mappings := by
  intro fuel
  induction fuel with
  | zero =>
    intro i st r0 ts hi hdec hr0 hts hinv hcap
    exact ⟨r0, ts, hdec, rfl, hr0, hts, hinv, List.prefix_refl _⟩
  | succ f ih =>
    intro i st r0 ts hi hdec hr0 hts hinv hcap
    rcases hfnd : findFrom flt.pattern cs (cs.length + 1 - i) i with _ | ab
    · have heq : replaceAllFuncSt flt.pattern cs (replaceMatch flt.prefix_) (f + 1) i st
          = (cs.drop i, st) := by
        rw [replaceAllFuncSt, hfnd]
      rw [heq]
      exact ⟨r0, ts, hdec, rfl, hr0, hts, hinv, List.prefix_refl _⟩
    · obtain ⟨a, b⟩ := ab
      obtain ⟨hia, harem, hbe⟩ := findFrom_spec hfnd
      have ha_le : a ≤ cs.length := by omega
      obtain ⟨hab, hbrfree, horig⟩ := filter_match_facts hfl ha_le hbe
      obtain ⟨hab', hb_le⟩ := ends_mono cs _ _ a b ha_le hbe
      have heq : replaceAllFuncSt flt.pattern cs (replaceMatch flt.prefix_) (f + 1) i st
          = ((cs.drop i).take (a - i) ++
               (replaceMatch flt.prefix_ (String.mk (slice cs a b)) st).1.data ++
               (replaceAllFuncSt flt.pattern cs (replaceMatch flt.prefix_) f b
                 (replaceMatch flt.prefix_ (String.mk (slice cs a b)) st).2).1,
             (replaceAllFuncSt flt.pattern cs (replaceMatch flt.prefix_) f b
                 (replaceMatch flt.prefix_ (String.mk (slice cs a b)) st).2).2) := by
        rw [replaceAllFuncSt, hfnd]
        simp only []
        rw [if_pos hab]
        rfl
      rw [heq] at hcap ⊢
      simp only [] at hcap
      -- the state only grows, so the current table is within capacity
      have hst_le : st.mappings.length ≤ maxPIIMappings := by
        have h1 := (replaceMatch_mono flt.prefix_ (String.mk (slice cs a b)) st).length_le
        have h2 := (replaceAllFuncSt_mono flt.pattern cs flt.prefix_ f b
          (replaceMatch flt.prefix_ (String.mk (slice cs a b)) st).2).length_le
        omega
      have htoks : ∀ q ∈ ts, TokOk q.1.1 := fun q hq =>
        sanInv_tokOk hinv hst_le (hts q hq).1
      have hshift : slice (cs.drop i) (a - i) (b - i) = slice cs a b := by
        unfold slice
        rw [List.drop_drop, show i + (a - i) = a from by omega,
          show b - i - (a - i) = b - a from by omega]
      have hMS : slice cs a b = slice (renderH r0 ts) (a - i) (b - i) := by
        rw [← hdec, hshift]
      have hblen : b - i ≤ (renderH r0 ts).length := by
        rw [← hdec, List.length_drop]
        omega
      have hdropb : ∀ u, (renderH r0 ts).drop (b - i) = u → cs.drop b = u := by
        intro u hu
        rw [← hdec, List.drop_drop, show i + (b - i) = b from by omega] at hu
        exact hu
      have hMdata : (String.mk (slice cs a b)).data = slice cs a b := rfl
      have hMne : (String.mk (slice cs a b)).data ≠ [] := by
        rw [hMdata]
        intro hc
        have := slice_length (le_of_lt hab) hb_le
        rw [hc] at this
        simp at this
        omega
      obtain ⟨hrm_mem, hrm_pfx, hrm_inv⟩ := replaceMatch_facts (filters_pfx_mem flt hfl)
        (by rw [hMdata]; exact horig) (by rw [hMdata]; exact hbrfree) hMne hinv
      rcases match_split hbrfree horig ts r0 (a - i) (b - i) htoks (by omega) hblen hMS with
        ⟨rpre, rpost, hsplit, htake, hdrop⟩ |
        ⟨tsA, pr, rr, rpre, rpost, tsB, hts_eq, hsplit, htake, hdrop⟩
      · -- the match sits in the head raw span
        have hrpost : phFreeL rpost :=
          phFreeL_infix hr0 ⟨rpre ++ slice cs a b, [], by
            rw [List.append_nil, hsplit, List.append_assoc]⟩
        obtain ⟨r0'', ts'', htl1, htl2, htl3, htl4, htl5, htl6⟩ := ih b
          (replaceMatch flt.prefix_ (String.mk (slice cs a b)) st).2 rpost ts hb_le
          (hdropb _ hdrop)
          hrpost
          (fun q hq => ⟨hrm_pfx.subset (hts q hq).1, (hts q hq).2⟩)
          hrm_inv hcap
        refine ⟨rpre, ((( replaceMatch flt.prefix_ (String.mk (slice cs a b)) st).1,
          String.mk (slice cs a b)), r0'') :: ts'', ?_, ?_, ?_, ?_, htl5, hrm_pfx.trans htl6⟩
        · simp only []
          rw [renderH_cons, htl1, hdec, htake]
          simp [List.append_assoc]
        · rw [meanH_cons, htl2]
          rw [show meanH r0 ts = rpre ++ ((String.mk (slice cs a b)).data ++ meanH rpost ts)
            from ?_]
          · rw [meanH, meanH, hMdata]
            rw [hsplit]
            simp [List.append_assoc]
        · exact phFreeL_infix hr0 ⟨[], slice cs a b ++ rpost, by
            rw [List.nil_append, hsplit, List.append_assoc]⟩
        · intro q hq
          rcases List.mem_cons.mp hq with rfl | hq'
          · exact ⟨htl6.subset hrm_mem, htl3⟩
          · exact htl4 q hq'
      · -- the match sits in one group's raw span
        have hrr_free : phFreeL rr := (hts (pr, rr) (by rw [hts_eq]; simp)).2
        have hrpost : phFreeL rpost :=
          phFreeL_infix hrr_free ⟨rpre ++ slice cs a b, [], by
            rw [List.append_nil, hsplit, List.append_assoc]⟩
        have hmemB : ∀ q ∈ tsB, (q.1.1, q.1.2) ∈ st.mappings ∧ phFreeL q.2 := by
          intro q hq
          refine hts q ?_
          rw [hts_eq]
          exact List.mem_append_right _ (List.mem_cons_of_mem _ hq)
        obtain ⟨r0'', ts'', htl1, htl2, htl3, htl4, htl5, htl6⟩ := ih b
          (replaceMatch flt.prefix_ (String.mk (slice cs a b)) st).2 rpost tsB hb_le
          (hdropb _ hdrop)
          hrpost
          (fun q hq => ⟨hrm_pfx.subset (hmemB q hq).1, (hmemB q hq).2⟩)
          hrm_inv hcap
        refine ⟨r0, tsA ++ (pr, rpre) ::
          (((replaceMatch flt.prefix_ (String.mk (slice cs a b)) st).1,
            String.mk (slice cs a b)), r0'') :: ts'', ?_, ?_, hr0, ?_, htl5,
          hrm_pfx.trans htl6⟩
        · simp only []
          rw [hdec, htake, htl1]
          rw [renderH, renderH, flatH_append, flatH_cons, flatH_cons]
          simp [List.append_assoc]
        · rw [meanH, meanH, hts_eq, flatM_append, flatM_append, flatM_cons, flatM_cons,
            flatM_cons, hsplit]
          have htl2' : r0'' ++ flatM ts'' = rpost ++ flatM tsB := htl2
          rw [hMdata]
          simp only [List.append_assoc]
          rw [htl2']
        · intro q hq
          rcases List.mem_append.mp hq with hq' | hq'
          · have hmm := hts q (by rw [hts_eq]; exact List.mem_append_left _ hq')
            exact ⟨(hrm_pfx.trans htl6).subset hmm.1, hmm.2⟩
          · rcases List.mem_cons.mp hq' with rfl | hq''
            · have hmm := hts (pr, rr) (by rw [hts_eq]; simp)
              refine ⟨(hrm_pfx.trans htl6).subset hmm.1, ?_⟩
              exact phFreeL_infix hrr_free ⟨[], slice cs a b ++ rpost, by
                rw [List.nil_append, hsplit, List.append_assoc]⟩
            · rcases List.mem_cons.mp hq'' with rfl | hq3
              · exact ⟨htl6.subset hrm_mem, htl3⟩
              · exact htl4 q hq3

lemma sanitizeStep_mono (st : SanState) (text : String) (flt : SanFilter) :
    st.mappings <+: (sanitizeStep st text flt).2.mappings := by
  simp only [sanitizeStep]
  exact replaceAllFuncSt_mono _ _ _ _ _ _

lemma sanitizeSteps_mono : ∀ (fls : List SanFilter) (text : String) (st : SanState),
    st.mappings <+:
      (fls.foldl (fun acc flt => sanitizeStep acc.2 acc.1 flt) (text, st)).2.mappings := by
  intro fls
  induction fls with
  | nil => intro text st; exact List.prefix_refl _
  | cons f t ih =>
    intro text st
    rw [List.foldl_cons]
    exact (sanitizeStep_mono st text f).trans
      (by simpa using ih (sanitizeStep st text f).1 (sanitizeStep st text f).2)

lemma sanitizeSteps_spec : ∀ (fls : List SanFilter), (∀ f ∈ fls, f ∈ defaultFilters) →
    ∀ (text : String) (st : SanState) (r0 : List Char)
      (ts : List ((String × String) × List Char)),
    text.data = renderH r0 ts →
    phFreeL r0 →
    (∀ q ∈ ts, (q.1.1, q.1.2) ∈ st.mappings ∧ phFreeL q.2) →
    SanInvP st →
    (fls.foldl (fun acc flt => sanitizeStep acc.2 acc.1 flt) (text, st)).2.mappings.length
      ≤ maxPIIMappings →
    ∃ r0' ts',
      (fls.foldl (fun acc flt => sanitizeStep acc.2 acc.1 flt) (text, st)).1.data
        = renderH r0' ts' ∧
      meanH r0' ts' = meanH r0 ts ∧
      phFreeL r0' ∧
      (∀ q ∈ ts', (q.1.1, q.1.2) ∈
        (fls.foldl (fun acc flt => sanitizeStep acc.2 acc.1 flt) (text, st)).2.mappings ∧
        phFreeL q.2) ∧
      SanInvP (fls.foldl (fun acc flt => sanitizeStep acc.2 acc.1 flt) (text, st)).2 ∧
      st.mappings <+:
        (fls.foldl (fun acc flt => sanitizeStep acc.2 acc.1 flt) (text, st)).2.mappings := by
  intro fls
  induction fls with
  | nil =>
    intro _ text st r0 ts hdec hr0 hts hinv hcap
    exact ⟨r0, ts, hdec, rfl, hr0, hts, hinv, List.prefix_refl _⟩
  | cons f t ih =>
    intro hfls text st r0 ts hdec hr0 hts hinv hcap
    rw [List.foldl_cons] at hcap ⊢
    rw [show (sanitizeStep st text f) =
      ((sanitizeStep st text f).1, (sanitizeStep st text f).2) from rfl] at hcap ⊢
    have hfd : f ∈ defaultFilters := hfls f (List.mem_cons_self _ _)
    have hstep_cap : (sanitizeStep st text f).2.mappings.length ≤ maxPIIMappings := by
      have := (sanitizeSteps_mono t (sanitizeStep st text f).1
        (sanitizeStep st text f).2).length_le
      omega
    have hcap2 : (replaceAllFuncSt f.pattern text.data (replaceMatch f.prefix_)
        (text.data.length + 1) 0 st).2.mappings.length ≤ maxPIIMappings := by
      simpa [sanitizeStep] using hstep_cap
    obtain ⟨r0'', ts'', h1, h2, h3, h4, h5, h6⟩ := replaceAllFuncSt_spec hfd text.data
      (text.data.length + 1) 0 st r0 ts (by omega) (by simpa using hdec) hr0 hts hinv hcap2
    have hstep_data : (sanitizeStep st text f).1.data = renderH r0'' ts'' := h1
    have hstep2 : (sanitizeStep st text f).2 = (replaceAllFuncSt f.pattern text.data
        (replaceMatch f.prefix_) (text.data.length + 1) 0 st).2 := rfl
    obtain ⟨r0', ts', g1, g2, g3, g4, g5, g6⟩ := ih (fun q hq => hfls q
      (List.mem_cons_of_mem _ hq)) (sanitizeStep st text f).1 (sanitizeStep st text f).2
      r0'' ts'' hstep_data h3 (by rw [hstep2]; exact h4) (by rw [hstep2]; exact h5) hcap
    refine ⟨r0', ts', g1, by rw [g2, h2], g3, g4, g5, ?_⟩
    have h6' : st.mappings <+: (sanitizeStep st text f).2.mappings := by
      rw [hstep2]
      exact h6
    exact h6'.trans g6

/-! ### Occurrences, goIndexOf and goReplaceAll -/

lemma prefix_of_append_left {u x y : List Char} (h : u <+: x ++ y) (hl : u.length ≤ x.length) :
    u <+: x := by
  obtain ⟨t, ht⟩ := h
  have : u = (x ++ y).take u.length := by
    rw [← ht, List.take_append_eq_append_take, List.take_of_length_le (le_refl _),
      Nat.sub_self]
    simp
  rw [this, take_app_le hl]
  exact List.take_prefix _ _

lemma infix_of_drop_pref {u w : List Char} {q : Nat} (h : u <+: w.drop q) : u <:+: w := by
  obtain ⟨t, ht⟩ := h
  exact ⟨w.take q, t, by rw [List.append_assoc, ht, List.take_append_drop]⟩

lemma prefix_get? {u w : List Char} (h : u <+: w) {k : Nat} (hk : k < u.length) :
    w.get? k = u.get? k := by
  obtain ⟨t, ht⟩ := h
  rw [← ht, List.get?_append hk]

lemma infix_pos {u w : List Char} (h : u <:+: w) :
    ∃ q, q + u.length ≤ w.length ∧ u <+: w.drop q := by
  obtain ⟨s, t, hst⟩ := h
  refine ⟨s.length, ?_, ?_⟩
  · rw [← hst, List.length_append, List.length_append]
    omega
  · rw [← hst, List.append_assoc, List.drop_left]
    exact ⟨t, rfl⟩

lemma pos_infix {u w : List Char} {q : Nat} (h : u <+: w.drop q) : u <:+: w :=
  infix_of_drop_pref h

lemma find?_range_some {p : Nat → Bool} : ∀ {n j : Nat}, (List.range n).find? p = some j →
    j < n ∧ p j = true ∧ ∀ k < j, p k = false := by
  intro n
  induction n with
  | zero => intro j h; simp [List.range_zero, List.find?] at h
  | succ m ih =>
    intro j h
    rw [List.range_succ, List.find?_append] at h
    rcases hm : (List.range m).find? p with _ | j'
    · rw [hm] at h
      simp only [Option.none_or] at h
      rcases hj : p m with _ | _
      · rw [List.find?_singleton, hj] at h
        rw [if_neg (by simp)] at h
        exact Option.noConfusion h
      · rw [List.find?_singleton, hj] at h
        rw [if_pos rfl] at h
        injection h with h'
        subst h'
        refine ⟨by omega, hj, ?_⟩
        intro k hk
        have := List.find?_eq_none.mp hm k (List.mem_range.mpr hk)
        simpa using this
    · rw [hm] at h
      rw [show (some j').or (List.find? p [m]) = some j' from rfl] at h
      injection h with h'
      subst h'
      obtain ⟨h1, h2, h3⟩ := ih hm
      exact ⟨by omega, h2, h3⟩

lemma find?_range_min {p : Nat → Bool} {n i : Nat} (hi : i < n) (hp : p i = true)
    (hmin : ∀ j < i, p j = false) : (List.range n).find? p = some i := by
  have hsplit : n = (i + 1) + (n - i - 1) := by omega
  rw [hsplit, List.range_add, List.find?_append, List.range_succ, List.find?_append]
  have h1 : (List.range i).find? p = none :=
    List.find?_eq_none.mpr (fun j hj => by
      rw [List.mem_range] at hj
      simp [hmin j hj])
  rw [h1, List.find?_singleton, hp]
  rfl

lemma find?_range_none {p : Nat → Bool} {n : Nat} (h : ∀ j < n, p j = false) :
    (List.range n).find? p = none :=
  List.find?_eq_none.mpr (fun j hj => by
    rw [List.mem_range] at hj
    simp [h j hj])

lemma goIndexOf_none {s sub : List Char}
    (h : ∀ q, ¬(sub.isPrefixOf (s.drop q) = true)) : goIndexOf s sub = none := by
  unfold goIndexOf
  exact find?_range_none (fun j _ => by
    rcases hx : sub.isPrefixOf (s.drop j) with _ | _
    · rfl
    · exact absurd hx (h j))

lemma goIndexOf_min {s sub : List Char} {i : Nat}
    (hocc : sub.isPrefixOf (s.drop i) = true)
    (hmin : ∀ j < i, ¬(sub.isPrefixOf (s.drop j) = true))
    (hlen : i + sub.length ≤ s.length) :
    goIndexOf s sub = some i := by
  unfold goIndexOf
  apply find?_range_min (by omega) hocc
  intro j hj
  rcases hx : sub.isPrefixOf (s.drop j) with _ | _
  · rfl
  · exact absurd hx (hmin j hj)

lemma occ_length {s sub : List Char} {q : Nat} (h : sub.isPrefixOf (s.drop q) = true) :
    q + sub.length ≤ s.length ∨ s.length ≤ q := by
  have hp := (List.isPrefixOf_iff_prefix.mp h).length_le
  rw [List.length_drop] at hp
  omega

lemma goIndexOf_shift {u v sub : List Char} (hsub : sub ≠ [])
    (hno : ∀ q < u.length, ¬(sub.isPrefixOf ((u ++ v).drop q) = true)) :
    goIndexOf (u ++ v) sub = (goIndexOf v sub).map (u.length + ·) := by
  rcases hv : goIndexOf v sub with _ | j
  · rw [Option.map_none']
    apply goIndexOf_none
    intro q hocc
    by_cases hq : q < u.length
    · exact hno q hq hocc
    · push_neg at hq
      rw [drop_app_ge hq] at hocc
      have hvq : sub.isPrefixOf (v.drop (q - u.length)) = true := hocc
      rcases occ_length hvq with hlen | hlen
      · unfold goIndexOf at hv
        have := List.find?_eq_none.mp hv (q - u.length)
          (List.mem_range.mpr (by omega))
        simp [hvq] at this
      · have : v.drop (q - u.length) = [] := List.drop_eq_nil_of_le hlen
        rw [this] at hvq
        have := List.isPrefixOf_iff_prefix.mp hvq
        have h2 := List.prefix_nil.mp this
        exact hsub h2
  · rw [Option.map_some']
    unfold goIndexOf at hv
    obtain ⟨hj1, hj2, hj3⟩ := find?_range_some hv
    apply goIndexOf_min
    · rw [drop_app_ge (by omega), show u.length + j - u.length = j from by omega]
      exact hj2
    · intro k hk
      by_cases hku : k < u.length
      · exact hno k hku
      · push_neg at hku
        rw [drop_app_ge hku]
        have := hj3 (k - u.length) (by omega)
        simp only [this]
        exact Bool.noConfusion
    · rw [List.length_append]
      have hjlen : j + sub.length ≤ v.length := by
        rcases occ_length hj2 with h | h
        · exact h
        · rw [List.drop_eq_nil_of_le h] at hj2
          exact absurd (List.prefix_nil.mp (List.isPrefixOf_iff_prefix.mp hj2)) hsub
      omega

lemma shaped_get_zero {ph : String} (h : TokOk ph) : ph.data.get? 0 = some '[' := by
  obtain ⟨ι, hphd, _, _, _⟩ := tokOk_shape h
  rw [hphd]
  rfl

lemma shaped_len {ph : String} (h : TokOk ph) : 3 ≤ ph.data.length := by
  obtain ⟨ι, hphd, hne, _, _⟩ := tokOk_shape h
  rw [hphd]
  simp only [List.cons_append, List.length_cons, List.length_append, List.length_singleton]
  have : 0 < ι.length := List.length_pos.mpr hne
  omega

lemma shaped_no_bracket_inside {ph : String} (h : TokOk ph) {k : Nat} {c : Char}
    (hk : 0 < k) (hg : ph.data.get? k = some c) : c ≠ '[' := by
  obtain ⟨ι, hphd, _, hιc, _⟩ := tokOk_shape h
  rw [hphd] at hg
  rcases k with _ | k'
  · omega
  · have hg' : (ι ++ [']']).get? k' = some c := hg
    have hmem : c ∈ ι ++ [']'] := List.get?_mem hg'
    rcases List.mem_append.mp hmem with hm | hm
    · exact (hιc c hm).2.1
    · rw [List.mem_singleton] at hm
      subst hm
      decide

lemma shaped_interior_mem {ph : String} {ι : List Char} (hphd : ph.data = '[' :: ι ++ [']'])
    {k : Nat} {c : Char} (h1 : 1 ≤ k) (h2 : k ≤ ι.length) (hg : ph.data.get? k = some c) :
    c ∈ ι := by
  rw [hphd] at hg
  rcases k with _ | k'
  · omega
  · have hg' : (ι ++ [']']).get? k' = some c := hg
    rw [List.get?_append (by omega)] at hg'
    exact List.get?_mem hg'

lemma occ_at_tok {ph t : String} (hph : TokOk ph) (ht : TokOk t) {w : List Char}
    (hocc : ph.data <+: t.data ++ w) : ph = t := by
  obtain ⟨ιp, hpd, hpne, hpc, _⟩ := tokOk_shape hph
  obtain ⟨ιt, htd, htne, htc, _⟩ := tokOk_shape ht
  have hLp : ph.data.length = ιp.length + 2 := by rw [hpd]; simp
  have hLt : t.data.length = ιt.length + 2 := by rw [htd]; simp
  rcases lt_trichotomy t.data.length ph.data.length with hlt | heq | hgt
  · exfalso
    have hidx : t.data.length - 1 = ιt.length + 1 := by omega
    have hgT : (t.data ++ w).get? (t.data.length - 1) = some ']' := by
      rw [hidx, List.get?_append (by omega), htd]
      exact get_shape_last
    have hgP := prefix_get? hocc (k := t.data.length - 1) (by omega)
    rw [hgT] at hgP
    have hmem : ']' ∈ ιp := shaped_interior_mem hpd (by omega) (by omega) hgP.symm
    exact (hpc ']' hmem).2.2 rfl
  · apply String.ext
    obtain ⟨tt, htt⟩ := hocc
    have : (ph.data ++ tt).take ph.data.length = (t.data ++ w).take ph.data.length := by
      rw [htt]
    rw [take_app_le (le_refl _), List.take_of_length_le (le_refl _), ← heq,
      take_app_le (le_refl _), List.take_of_length_le (le_refl _)] at this
    exact this
  · exfalso
    have hidx : ph.data.length - 1 = ιp.length + 1 := by omega
    have hP : ph.data.get? (ph.data.length - 1) = some ']' := by
      rw [hidx, hpd]
      exact get_shape_last
    have hgP := prefix_get? hocc (k := ph.data.length - 1) (by have := shaped_len hph; omega)
    rw [hP, List.get?_append (by omega)] at hgP
    have hmem : ']' ∈ ιt := shaped_interior_mem htd
      (by have := shaped_len hph; omega) (by omega) hgP
    exact (htc ']' hmem).2.2 rfl

lemma no_occ_head {ph : String} (hph : TokOk ph) {r0 v : List Char} (hr0 : phFreeL r0)
    (hv : v = [] ∨ ∃ (t : String) (w : List Char), TokOk t ∧ v = t.data ++ w) :
    ∀ q < r0.length, ¬(ph.data.isPrefixOf ((r0 ++ v).drop q) = true) := by
  intro q hq hocc
  rw [List.isPrefixOf_iff_prefix] at hocc
  by_cases hin : q + ph.data.length ≤ r0.length
  · rw [drop_app_le (by omega)] at hocc
    have hpre : ph.data <+: r0.drop q := prefix_of_append_left hocc (by
      rw [List.length_drop]
      omega)
    have hinf : ph.data <:+: r0 := infix_of_drop_pref hpre
    obtain ⟨pfx, hpf, n, h1, hn, hshape⟩ := hph
    exact hr0 pfx hpf n h1 hn (hshape ▸ hinf)
  · push_neg at hin
    rcases hv with rfl | ⟨t, w, ht, rfl⟩
    · have := hocc.length_le
      rw [List.length_drop, List.append_nil] at this
      omega
    · have hchar : ((r0 ++ (t.data ++ w)).drop q).get? (r0.length - q) = some '[' := by
        rw [List.get?_drop, show q + (r0.length - q) = r0.length from by omega,
          get_app_right (le_refl _), Nat.sub_self]
        rw [List.get?_append (by have := shaped_len ht; omega)]
        exact shaped_get_zero ht
      have hthis := prefix_get? hocc (k := r0.length - q) (by omega)
      rw [hchar] at hthis
      exact shaped_no_bracket_inside hph (by omega) hthis.symm rfl

lemma no_occ_through_tok {ph t : String} (hph : TokOk ph) (ht : TokOk t) (hne : ph ≠ t)
    {r0 w : List Char} (hr0 : phFreeL r0) :
    ∀ q < r0.length + t.data.length,
      ¬(ph.data.isPrefixOf ((r0 ++ (t.data ++ w)).drop q) = true) := by
  intro q hq hocc
  by_cases hq0 : q < r0.length
  · exact no_occ_head hph hr0 (Or.inr ⟨t, w, ht, rfl⟩) q hq0 hocc
  · push_neg at hq0
    rw [List.isPrefixOf_iff_prefix] at hocc
    rw [drop_app_ge hq0] at hocc
    by_cases hq1 : q = r0.length
    · rw [hq1, Nat.sub_self, List.drop_zero] at hocc
      exact hne (occ_at_tok hph ht hocc)
    · have hk1 : 0 < q - r0.length := by omega
      have hk2 : q - r0.length < t.data.length := by omega
      have hchar : ((t.data ++ w).drop (q - r0.length)).get? 0
          = t.data.get? (q - r0.length) := by
        rw [List.get?_drop, Nat.add_zero, List.get?_append hk2]
      have hph0 := prefix_get? hocc (k := 0) (by have := shaped_len hph; omega)
      rw [hchar, shaped_get_zero hph] at hph0
      exact shaped_no_bracket_inside ht hk1 hph0 rfl

lemma goReplaceAll_shift {u v sub rep : List Char} (hsub : sub ≠ [])
    (hno : ∀ q < u.length, ¬(sub.isPrefixOf ((u ++ v).drop q) = true)) :
    ∀ fuel, goReplaceAll sub rep fuel (u ++ v) = u ++ goReplaceAll sub rep fuel v := by
  intro fuel
  cases fuel with
  | zero => rfl
  | succ f =>
    have hemp : sub.isEmpty = false := by
      rcases sub with _ | ⟨c, t⟩
      · exact absurd rfl hsub
      · rfl
    rw [goReplaceAll, goReplaceAll, if_neg (by simp [hemp]), if_neg (by simp [hemp])]
    rw [goIndexOf_shift hsub hno]
    rcases hv : goIndexOf v sub with _ | i
    · simp
    · simp only [Option.map_some']
      rw [take_app_ge (by omega), show u.length + i - u.length = i from by omega,
        drop_app_ge (by omega), show u.length + i + sub.length - u.length
          = i + sub.length from by omega]
      simp [List.append_assoc]

lemma slice_drop {l : List Char} {i x y : Nat} :
    slice (l.drop i) x y = slice l (i + x) (i + y) := by
  unfold slice
  rw [List.drop_drop]
  congr 1
  omega

/-- Splicing a bracket-free, interior-incompatible original between two
placeholder-free texts cannot create a placeholder occurrence. -/
lemma merge_phFree {a b G : List Char} (ha : phFreeL a) (hb : phFreeL b)
    (hok : origOkS G) (hbr : ∀ c ∈ G, c ≠ '[' ∧ c ≠ ']') (hne : G ≠ []) :
    phFreeL (a ++ G ++ b) := by
  intro pfx hp n h1 hn hocc
  obtain ⟨q, hqlen, hqpre⟩ := infix_pos hocc
  have htok : TokOk (phStr pfx n) := ⟨pfx, hp, n, h1, hn, rfl⟩
  obtain ⟨ι, hphd, hιne, hιc, hιd⟩ := tokOk_shape htok
  have hL : (phStr pfx n).data.length = ι.length + 2 := by rw [hphd]; simp
  have hGL : 0 < G.length := List.length_pos.mpr hne
  rw [List.length_append, List.length_append] at hqlen
  by_cases hc1 : q + (phStr pfx n).data.length ≤ a.length
  · rw [List.append_assoc, drop_app_le (by omega)] at hqpre
    have hpre : (phStr pfx n).data <+: a.drop q := prefix_of_append_left hqpre (by
      rw [List.length_drop]
      omega)
    exact ha pfx hp n h1 hn (infix_of_drop_pref hpre)
  · by_cases hc2 : a.length + G.length ≤ q
    · rw [drop_app_ge (u := a ++ G) (by rw [List.length_append]; exact hc2)] at hqpre
      exact hb pfx hp n h1 hn (infix_of_drop_pref hqpre)
    · push_neg at hc1 hc2
      by_cases hq1 : a.length ≤ q ∧ q < a.length + G.length
      · -- the opening bracket would sit inside the original
        have hW : ((a ++ G ++ b).drop q).get? 0 = (a ++ G ++ b).get? q := by
          rw [List.get?_drop, Nat.add_zero]
        have hg := prefix_get? hqpre (k := 0) (by omega)
        rw [hW, shaped_get_zero htok] at hg
        have hGc : G.get? (q - a.length) = some '[' := by
          rw [List.append_assoc, get_app_right hq1.1, List.get?_append (by omega)] at hg
          exact hg
        exact (hbr '[' (List.get?_mem hGc)).1 rfl
      · by_cases hq2 : a.length ≤ q + (phStr pfx n).data.length - 1 ∧
            q + (phStr pfx n).data.length - 1 < a.length + G.length
        · -- the closing bracket would sit inside the original
          have hdlast : (phStr pfx n).data.get? ((phStr pfx n).data.length - 1)
              = some ']' := by
            rw [show (phStr pfx n).data.length - 1 = ι.length + 1 from by omega, hphd]
            exact get_shape_last
          have hg := prefix_get? hqpre (k := (phStr pfx n).data.length - 1) (by omega)
          rw [List.get?_drop, hdlast] at hg
          have hGc : G.get? (q + ((phStr pfx n).data.length - 1) - a.length)
              = some ']' := by
            rw [List.append_assoc, get_app_right (by omega),
              List.get?_append (by omega)] at hg
            exact hg
          exact (hbr ']' (List.get?_mem hGc)).2 rfl
        · -- the original would sit strictly inside the interior
          push_neg at hq1 hq2
          have hA : q < a.length := by
            by_cases h : a.length ≤ q
            · exact absurd (hq1 h) (by omega)
            · omega
          have hB : a.length + G.length ≤ q + (phStr pfx n).data.length - 1 := by
            by_cases h : a.length ≤ q + (phStr pfx n).data.length - 1
            · exact hq2 h
            · omega
          have hGeq : G = slice (a ++ G ++ b) a.length (a.length + G.length) := by
            rw [List.append_assoc, slice_app_right (le_refl _), Nat.sub_self,
              show a.length + G.length - a.length = G.length from by omega,
              slice_app_left (le_refl _)]
            unfold slice
            rw [List.drop_zero, Nat.sub_zero, List.take_of_length_le (le_refl _)]
          obtain ⟨tt, htt⟩ := hqpre
          have hGd : slice (phStr pfx n).data (a.length - q) (a.length + G.length - q)
              = G := by
            calc slice (phStr pfx n).data (a.length - q) (a.length + G.length - q)
                = slice ((phStr pfx n).data ++ tt) (a.length - q)
                  (a.length + G.length - q) := (slice_app_left (by omega)).symm
              _ = slice ((a ++ G ++ b).drop q) (a.length - q)
                  (a.length + G.length - q) := by rw [htt]
              _ = slice (a ++ G ++ b) (q + (a.length - q))
                  (q + (a.length + G.length - q)) := slice_drop
              _ = slice (a ++ G ++ b) a.length (a.length + G.length) := by
                  rw [show q + (a.length - q) = a.length from by omega,
                    show q + (a.length + G.length - q) = a.length + G.length from by omega]
              _ = G := hGeq.symm
          have hsub : List.Sublist G ι := by
            rw [← hGd, hphd, show ('[' :: ι ++ [']'] : List Char) = '[' :: (ι ++ [']'])
              from rfl, slice_cons (by omega), slice_app_left (by omega)]
            exact slice_sublist
          rcases hok with ⟨c, hcm, hcti⟩ | hdig
          · exact absurd ((hιc c (hsub.subset hcm)).1) (by rw [hcti]; exact Bool.noConfusion)
          · have := countP_sublist (p := fun c => c.isDigit) hsub
            omega

/-- Replace every token equal to `pm`'s placeholder by `pm`'s original,
merging the surrounding raw spans. -/
def restOne (pm : String × String) : List Char → List ((String × String) × List Char) →
    List Char × List ((String × String) × List Char)
  | r0, [] => (r0, [])
  | r0, (t, r) :: rest =>
    if t.1 = pm.1 then restOne pm (r0 ++ pm.2.data ++ r) rest
    else (r0, (t, (restOne pm r rest).1) :: (restOne pm r rest).2)

lemma restOne_prepend (pm : String × String) (u : List Char) :
    ∀ (ts : List ((String × String) × List Char)) (r0 : List Char),
    restOne pm (u ++ r0) ts = (u ++ (restOne pm r0 ts).1, (restOne pm r0 ts).2) := by
  intro ts
  induction ts with
  | nil => intro r0; rfl
  | cons q rest ih =>
    obtain ⟨t, r⟩ := q
    intro r0
    rw [restOne, restOne]
    by_cases ht : t.1 = pm.1
    · rw [if_pos ht, if_pos ht,
        show u ++ r0 ++ pm.2.data ++ r = u ++ (r0 ++ pm.2.data ++ r) from by
          simp [List.append_assoc]]
      exact ih _
    · rw [if_neg ht, if_neg ht]

lemma restOne_mean (pm : String × String) :
    ∀ (ts : List ((String × String) × List Char)) (r0 : List Char),
    (∀ q ∈ ts, q.1.1 = pm.1 → q.1.2 = pm.2) →
    meanH (restOne pm r0 ts).1 (restOne pm r0 ts).2 = meanH r0 ts := by
  intro ts
  induction ts with
  | nil => intro r0 _; rfl
  | cons q rest ih =>
    obtain ⟨t, r⟩ := q
    intro r0 hog
    rw [restOne]
    by_cases ht : t.1 = pm.1
    · rw [if_pos ht]
      rw [ih _ (fun q hq => hog q (List.mem_cons_of_mem _ hq))]
      have ht2 : t.2 = pm.2 := hog (t, r) (List.mem_cons_self _ _) ht
      rw [meanH_cons r0 t.1 t.2 r rest, ht2]
      rw [meanH, meanH]
      simp [List.append_assoc]
    · rw [if_neg ht]
      rw [meanH_cons r0 t.1 t.2 ((restOne pm r rest).1) ((restOne pm r rest).2),
        meanH_cons r0 t.1 t.2 r rest,
        ih _ (fun q hq => hog q (List.mem_cons_of_mem _ hq))]

lemma restOne_inv (pm : String × String) (hok : origOkS pm.2.data)
    (hbr : ∀ c ∈ pm.2.data, c ≠ '[' ∧ c ≠ ']') (hne : pm.2.data ≠ []) :
    ∀ (ts : List ((String × String) × List Char)) (r0 : List Char),
    phFreeL r0 → (∀ q ∈ ts, phFreeL q.2) →
    phFreeL (restOne pm r0 ts).1 ∧
    (∀ q ∈ (restOne pm r0 ts).2, q.1 ∈ ts.map Prod.fst ∧ q.1.1 ≠ pm.1 ∧ phFreeL q.2) := by
  intro ts
  induction ts with
  | nil =>
    intro r0 hr0 _
    exact ⟨hr0, fun q hq => absurd hq (by simp [restOne])⟩
  | cons qq rest ih =>
    obtain ⟨t, r⟩ := qq
    intro r0 hr0 hts
    rw [restOne]
    by_cases ht : t.1 = pm.1
    · rw [if_pos ht]
      have hmerge : phFreeL (r0 ++ pm.2.data ++ r) :=
        merge_phFree hr0 (hts (t, r) (List.mem_cons_self _ _)) hok hbr hne
      obtain ⟨g1, g2⟩ := ih (r0 ++ pm.2.data ++ r) hmerge
        (fun q hq => hts q (List.mem_cons_of_mem _ hq))
      refine ⟨g1, ?_⟩
      intro q hq
      obtain ⟨m1, m2, m3⟩ := g2 q hq
      exact ⟨by simp only [List.map_cons]; exact List.mem_cons_of_mem _ m1, m2, m3⟩
    · rw [if_neg ht]
      obtain ⟨g1, g2⟩ := ih r (hts (t, r) (List.mem_cons_self _ _))
        (fun q hq => hts q (List.mem_cons_of_mem _ hq))
      refine ⟨hr0, ?_⟩
      intro q hq
      rcases List.mem_cons.mp hq with rfl | hq'
      · exact ⟨by simp, ht, g1⟩
      · obtain ⟨m1, m2, m3⟩ := g2 q hq'
        exact ⟨by simp only [List.map_cons]; exact List.mem_cons_of_mem _ m1, m2, m3⟩

/-- The number of tokens carrying a given placeholder. -/
def cntPh (ph : String) (ts : List ((String × String) × List Char)) : Nat :=
  (ts.filter (fun q => q.1.1 = ph)).length

lemma cntPh_le (ph : String) : ∀ (ts : List ((String × String) × List Char))
    (r0 : List Char), (∀ q ∈ ts, TokOk q.1.1) →
    cntPh ph ts ≤ (renderH r0 ts).length := by
  intro ts
  induction ts with
  | nil => intro r0 _; simp [cntPh]
  | cons qq rest ih =>
    obtain ⟨t, r⟩ := qq
    intro r0 htok
    have hlen : 3 ≤ t.1.data.length := shaped_len (htok (t, r) (List.mem_cons_self _ _))
    have hih := ih r (fun q hq => htok q (List.mem_cons_of_mem _ hq))
    rw [renderH_cons, List.length_append, List.length_append]
    by_cases ht : t.1 = ph
    · have hstep : cntPh ph ((t, r) :: rest) = cntPh ph rest + 1 := by
        simp [cntPh, List.filter_cons, ht]
      rw [hstep]
      omega
    · have hstep : cntPh ph ((t, r) :: rest) = cntPh ph rest := by
        simp [cntPh, List.filter_cons, ht]
      rw [hstep]
      omega

lemma phFree_no_occ {ph : String} (hph : TokOk ph) {r0 : List Char} (hr0 : phFreeL r0) :
    ∀ q, ¬(ph.data.isPrefixOf (r0.drop q) = true) := by
  intro q hocc
  rw [List.isPrefixOf_iff_prefix] at hocc
  obtain ⟨pfx, hpf, n, h1, hn, hsh⟩ := hph
  exact hr0 pfx hpf n h1 hn (hsh ▸ infix_of_drop_pref hocc)

lemma shaped_ne_nil {ph : String} (hph : TokOk ph) : ph.data ≠ [] := by
  have := shaped_len hph
  intro h
  rw [h] at this
  simp at this

lemma goReplaceAll_spec {pm : String × String} (hpm : TokOk pm.1) :
    ∀ (ts : List ((String × String) × List Char)) (fuel : Nat) (r0 : List Char),
    phFreeL r0 → (∀ q ∈ ts, TokOk q.1.1 ∧ phFreeL q.2) →
    cntPh pm.1 ts < fuel →
    goReplaceAll pm.1.data pm.2.data fuel (renderH r0 ts)
      = renderH (restOne pm r0 ts).1 (restOne pm r0 ts).2 := by
  intro ts
  induction ts with
  | nil =>
    intro fuel r0 hr0 _ hfuel
    rcases fuel with _ | f
    · omega
    · rw [renderH_nil, restOne, renderH_nil]
      rw [goReplaceAll, if_neg (by simp [List.isEmpty_iff, shaped_ne_nil hpm]),
        goIndexOf_none (phFree_no_occ hpm hr0)]
  | cons qq rest ih =>
    obtain ⟨t, r⟩ := qq
    intro fuel r0 hr0 hts hfuel
    have httok : TokOk t.1 := (hts (t, r) (List.mem_cons_self _ _)).1
    have hrfree : phFreeL r := (hts (t, r) (List.mem_cons_self _ _)).2
    have hrest : ∀ q ∈ rest, TokOk q.1.1 ∧ phFreeL q.2 :=
      fun q hq => hts q (List.mem_cons_of_mem _ hq)
    rw [renderH_cons]
    by_cases ht : t.1 = pm.1
    · -- the head token is replaced
      have htd : t.1.data = pm.1.data := by rw [ht]
      have hcnt : cntPh pm.1 ((t, r) :: rest) = cntPh pm.1 rest + 1 := by
        simp [cntPh, List.filter_cons, ht]
      rcases fuel with _ | f
      · omega
      have hfuel' : cntPh pm.1 rest < f := by
        rw [hcnt] at hfuel
        omega
      have hno := no_occ_head hpm hr0
        (Or.inr ⟨t.1, renderH r rest, httok, rfl⟩)
      rw [goReplaceAll_shift (shaped_ne_nil hpm) hno (f + 1)]
      rw [htd]
      have hidx : goIndexOf (pm.1.data ++ renderH r rest) pm.1.data = some 0 := by
        apply goIndexOf_min
        · rw [List.drop_zero, List.isPrefixOf_iff_prefix]
          exact ⟨renderH r rest, rfl⟩
        · intro j hj
          omega
        · rw [List.length_append]
          omega
      rw [goReplaceAll, if_neg (by simp [List.isEmpty_iff, shaped_ne_nil hpm]), hidx]
      simp only [List.take_zero, List.nil_append, Nat.zero_add]
      rw [List.drop_left]
      rw [ih f r hrfree hrest hfuel']
      rw [restOne, if_pos ht, restOne_prepend pm (r0 ++ pm.2.data) rest r]
      simp [renderH, List.append_assoc]
    · -- the head token is kept
      have hcnt : cntPh pm.1 ((t, r) :: rest) = cntPh pm.1 rest := by
        simp [cntPh, List.filter_cons, ht]
      have hfuel' : cntPh pm.1 rest < fuel := by
        rw [hcnt] at hfuel
        exact hfuel
      have hno' : ∀ q < (r0 ++ t.1.data).length,
          ¬(pm.1.data.isPrefixOf (((r0 ++ t.1.data) ++ renderH r rest).drop q)
            = true) := by
        intro q hq hocc
        rw [List.append_assoc] at hocc
        rw [List.length_append] at hq
        exact no_occ_through_tok hpm httok (fun h => ht h.symm) hr0 q hq hocc
      rw [← List.append_assoc, goReplaceAll_shift (shaped_ne_nil hpm) hno' fuel]
      rw [ih fuel r hrfree hrest hfuel']
      rw [restOne, if_neg ht, renderH_cons]
      simp [List.append_assoc]

lemma restore_fold : ∀ (maps : List (String × String)) (r0 : List Char)
    (ts : List ((String × String) × List Char)),
    (∀ m ∈ maps, TokOk m.1) →
    (∀ m ∈ maps, origOkS m.2.data ∧ (∀ c ∈ m.2.data, c ≠ '[' ∧ c ≠ ']') ∧ m.2.data ≠ []) →
    maps.Pairwise (fun p q => p.1 ≠ q.1) →
    phFreeL r0 →
    (∀ q ∈ ts, q.1 ∈ maps ∧ phFreeL q.2) →
    maps.foldl (fun acc p => goReplaceAll p.1.data p.2.data (acc.length + 1) acc)
      (renderH r0 ts) = meanH r0 ts := by
  intro maps
  induction maps with
  | nil =>
    intro r0 ts _ _ _ hr0 hts
    rcases ts with _ | ⟨q, rest⟩
    · rw [List.foldl_nil, renderH_nil, meanH_nil]
    · exact absurd (hts q (List.mem_cons_self _ _)).1 (by simp)
  | cons m rest ih =>
    intro r0 ts hshape horig hdist hr0 hts
    rw [List.foldl_cons]
    have hpm : TokOk m.1 := hshape m (List.mem_cons_self _ _)
    have htok_ts : ∀ q ∈ ts, TokOk q.1.1 ∧ phFreeL q.2 :=
      fun q hq => ⟨hshape q.1 (hts q hq).1, (hts q hq).2⟩
    have hcnt : cntPh m.1 ts < (renderH r0 ts).length + 1 := by
      have := cntPh_le m.1 ts r0 (fun q hq => (htok_ts q hq).1)
      omega
    rw [goReplaceAll_spec hpm ts ((renderH r0 ts).length + 1) r0 hr0 htok_ts hcnt]
    obtain ⟨ho1, ho2, ho3⟩ := horig m (List.mem_cons_self _ _)
    obtain ⟨g1, g2⟩ := restOne_inv m ho1 ho2 ho3 ts r0 hr0 (fun q hq => (hts q hq).2)
    have hts' : ∀ q ∈ (restOne m r0 ts).2, q.1 ∈ rest ∧ phFreeL q.2 := by
      intro q hq
      obtain ⟨m1, m2, m3⟩ := g2 q hq
      obtain ⟨q0, hq0, hq0e⟩ := List.mem_map.mp m1
      have hmem : q.1 ∈ m :: rest := by
        rw [← hq0e]
        exact (hts q0 hq0).1
      rcases List.mem_cons.mp hmem with he | hm
      · exact absurd (by rw [he] : q.1.1 = m.1) m2
      · exact ⟨hm, m3⟩
    rw [ih (restOne m r0 ts).1 (restOne m r0 ts).2
      (fun m' hm' => hshape m' (List.mem_cons_of_mem _ hm'))
      (fun m' hm' => horig m' (List.mem_cons_of_mem _ hm'))
      (List.Pairwise.of_cons hdist) g1 hts']
    apply restOne_mean
    intro q hq hq1
    have hmem : q.1 ∈ m :: rest := (hts q hq).1
    rcases List.mem_cons.mp hmem with he | hm
    · rw [he]
    · exfalso
      exact (List.pairwise_cons.mp hdist).1 q.1 hm (by rw [hq1])

lemma mappings_orig_unique {st : SanState} (h : SanInvP st) {m ph : String}
    (hmem : (ph, m) ∈ st.mappings) : lookupByOriginal st.mappings m = some ph := by
  rcases hl : lookupByOriginal st.mappings m with _ | ph'
  · exact absurd rfl (lookupByOriginal_none hl (ph, m) hmem)
  · have hp' := lookupByOriginal_some hl
    have heq : ph' = ph := by
      by_contra hne
      have hsym : Symmetric (fun p q : String × String => p.2 ≠ q.2) :=
        fun p q hpq hq => hpq hq.symm
      exact h.origd.forall hsym hp' hmem (by simp [hne]) rfl
    rw [heq]

/-- C5 (amended): starting from any sanitizer state satisfying the
representation invariant, for every input text with no occurrence of a
placeholder-form substring `[<PREFIX>_<n>]` (`1 ≤ n ≤ 1000`), if the mapping
table stays within its 1,000-entry capacity through the call then
`Restore(Sanitize(x)) = x`; moreover a match whose exact original literal is
already in the placeholder map is replaced by that same existing placeholder,
leaving the state unchanged. -/
theorem sanitize_restore_roundtrip :
    (∀ (st : SanState) (x : String), SanInvP st → phFreeL x.data →
      (sanitize true defaultFilters st x).2.mappings.length ≤ maxPIIMappings →
      restore true (sanitize true defaultFilters st x).2
        (sanitize true defaultFilters st x).1 = x) ∧
    (∀ (pfx m ph : String) (st : SanState), SanInvP st → (ph, m) ∈ st.mappings →
      replaceMatch pfx m st = (ph, st)) := by
  constructor
  · intro st x hinv hfree hcap
    have hsan : sanitize true defaultFilters st x
        = defaultFilters.foldl (fun acc flt => sanitizeStep acc.2 acc.1 flt)
          (x, if maxPIIMappings ≤ st.mappings.length then ({} : SanState) else st) := by
      unfold sanitize
      rw [if_neg (by decide)]
    have hinv0 : SanInvP (if maxPIIMappings ≤ st.mappings.length then ({} : SanState)
        else st) := by
      by_cases h : maxPIIMappings ≤ st.mappings.length
      · rw [if_pos h]
        exact sanInv_empty
      · rw [if_neg h]
        exact hinv
    rw [hsan] at hcap ⊢
    obtain ⟨r0', ts', H1, H2, H3, H4, H5, H6⟩ := sanitizeSteps_spec defaultFilters
      (fun f hf => hf) x _ x.data [] (renderH_nil _).symm hfree
      (fun q hq => absurd hq (by simp)) hinv0 hcap
    unfold restore
    rw [if_neg (by decide)]
    rw [H1]
    rw [restore_fold (defaultFilters.foldl (fun acc flt => sanitizeStep acc.2 acc.1 flt)
        (x, if maxPIIMappings ≤ st.mappings.length then ({} : SanState)
          else st)).2.mappings r0' ts'
      (fun m hm => sanInv_tokOk H5 hcap hm)
      (fun m hm => H5.origok m hm)
      H5.keysd H3
      (fun q hq => ⟨(H4 q hq).1, (H4 q hq).2⟩)]
    rw [H2, meanH_nil]
  · intro pfx m ph st hinv hmem
    rw [replaceMatch_reuse (mappings_orig_unique hinv hmem)]

/-- C5 witness: a concrete roundtrip — the phone number is replaced by
`[PHONE_1]` and restored exactly. -/
theorem sanitize_restore_roundtrip_witness :
    restore true (sanitize true defaultFilters {} "call 555-123-4567").2
      (sanitize true defaultFilters {} "call 555-123-4567").1
      = "call 555-123-4567" :=
  sanitize_restore_roundtrip.1 {} "call 555-123-4567" sanInv_empty
    (phFreeL_of_no_bracket (by decide)) (by decide)

/-- C5 counterexample: the input `"[EMAIL_1] a@b.com"` has a single pattern
occurrence (`a@b.com`, one distinct literal — far under the 1,000 capacity),
yet the minted placeholder for it collides with the literal `[EMAIL_1]`
already present in the text, so `Restore` rewrites both and
`Restore(Sanitize(x)) = "a@b.com a@b.com" ≠ x`. -/
theorem sanitize_restore_counterexample :
    (sanitize true defaultFilters {} "[EMAIL_1] a@b.com").1 = "[EMAIL_1] [EMAIL_1]" ∧
    (sanitize true defaultFilters {} "[EMAIL_1] a@b.com").2.mappings =
      [("[EMAIL_1]", "a@b.com")] ∧
    restore true (sanitize true defaultFilters {} "[EMAIL_1] a@b.com").2
      (sanitize true defaultFilters {} "[EMAIL_1] a@b.com").1 = "a@b.com a@b.com" ∧
    "a@b.com a@b.com" ≠ "[EMAIL_1] a@b.com" := by
  exact ⟨by decide, by decide, by decide, by decide⟩

end Sanitizer

namespace App

open LLM Agent Sanitizer

/-- The Go error text `("LLM error: %w").Error()` of a turn failure. -/
def chatErrorText : ChatError → String
  | .llm e => "LLM error: " ++ e.message
  | .plain m => "LLM error: " ++ m

/-- Mirror of `App.SendMessage` (part_000 lines 742-757), the GUI path: the
text is sanitized, handed to `HandleDirectMessage` (= `processMessage`), and
on success the response is restored; an agent error is returned as
`"Error: " + err` without restoration. The second component is the sanitizer
state after the `Sanitize` call. -/
def appSendMessage (sanEnabled : Bool) (filters : List SanFilter) (sanSt : SanState)
    (cfg : AgentCfg) (reg : Registry) (mem : MemState) (script : List ProvOutcome)
    (fuel : Nat) (text : String) : String × SanState :=
  let sanitized := (sanitize sanEnabled filters sanSt text).1
  let st1 := (sanitize sanEnabled filters sanSt text).2
  match processMessage cfg reg mem sanitized script fuel with
  | .done t _ => (restore sanEnabled st1 t, st1)
  | .fail e _ => ("Error: " ++ chatErrorText e, st1)
  | .outOfFuel _ => ("", st1)

/-- Mirror of `Agent.handleMessage` (agent.go lines 69-95), the channel
path: the inbound text goes to `processMessage` verbatim — no sanitizer is
applied — and the response (or the apology text on a provider error) is sent
back verbatim. -/
def agentHandleMessage (cfg : AgentCfg) (reg : Registry) (mem : MemState)
    (script : List ProvOutcome) (fuel : Nat) (text : String) : String :=
  match processMessage cfg reg mem text script fuel with
  | .done t _ => t
  | .fail _ _ => "Sorry, I encountered an error processing your message. Please try again."
  | .outOfFuel _ => ""

/-- C8 counterexample: a message carrying an email address arrives over a
channel (the `Agent.handleMessage` path). The provider request and the
persisted user message both carry the raw text `"my email is a@b.com"`, not
the sanitized form — sanitizing it would have produced
`"my email is [EMAIL_1]"` — so the claim that every inbound message on any
channel is wrapped with `Sanitize` before reaching the provider is false on
this input. -/
theorem channel_text_not_sanitized_counterexample :
    (processMessage ⟨10, 100⟩ [] {} "my email is a@b.com"
        [.ok ⟨"ok", []⟩] 1).state.trace =
      [Event.getHist [], Event.getSumm "",
       Event.saveMsg { role := "user", content := "my email is a@b.com" },
       Event.chatCall [{ role := "user", content := "my email is a@b.com" }],
       Event.saveMsg { role := "assistant", content := "ok" }] ∧
    agentHandleMessage ⟨10, 100⟩ [] {} [.ok ⟨"ok", []⟩] 1 "my email is a@b.com" = "ok" ∧
    (sanitize true defaultFilters {} "my email is a@b.com").1 = "my email is [EMAIL_1]" ∧
    "my email is a@b.com" ≠ "my email is [EMAIL_1]" := by
  refine ⟨rfl, rfl, by decide, by decide⟩

/-- C8 (amended): only the GUI path wraps the sanitizer around the agent.
`App.SendMessage` feeds the provider the sanitized text and returns the
restored response; a channel message reaches the store and the provider
request as the raw inbound text. -/
theorem pii_wrapping_gui_path_only (sanEnabled : Bool) (filters : List SanFilter)
    (sanSt : SanState) (cfg : AgentCfg) (reg : Registry) (mem : MemState)
    (script : List ProvOutcome) (fuel : Nat) (text : String) :
    (∀ t st', processMessage cfg reg mem (sanitize sanEnabled filters sanSt text).1
        script fuel = .done t st' →
      appSendMessage sanEnabled filters sanSt cfg reg mem script fuel text =
        (restore sanEnabled (sanitize sanEnabled filters sanSt text).2 t,
         (sanitize sanEnabled filters sanSt text).2)) ∧
    (∃ tl, (processMessage cfg reg mem text script fuel).state.trace =
      [Event.getHist (lastN mem.store 50), Event.getSumm mem.summary,
       Event.saveMsg { role := "user", content := text }] ++ tl) := by
  constructor
  · intro t st' hdone
    unfold appSendMessage
    simp only []
    rw [hdone]
  · exact history_loaded_before_user_append cfg reg mem text script fuel

/-- Instantiation of `pii_wrapping_gui_path_only`: the GUI path sanitizes
`"mail a@b.com"` to `"mail [EMAIL_1]"`, the provider echoes a reply
containing the placeholder, and the caller receives it restored. -/
theorem pii_wrapping_gui_path_only_witness :
    appSendMessage true defaultFilters {} ⟨10, 100⟩ [] {}
        [.ok ⟨"sending to [EMAIL_1] now", []⟩] 1 "mail a@b.com" =
      ("sending to a@b.com now",
       (sanitize true defaultFilters {} "mail a@b.com").2) := by
  have hdone : processMessage ⟨10, 100⟩ [] {}
      (sanitize true defaultFilters {} "mail a@b.com").1
      [.ok ⟨"sending to [EMAIL_1] now", []⟩] 1 =
      .done "sending to [EMAIL_1] now"
        (processMessage ⟨10, 100⟩ [] {}
          (sanitize true defaultFilters {} "mail a@b.com").1
          [.ok ⟨"sending to [EMAIL_1] now", []⟩] 1).state := by decide
  have h := (pii_wrapping_gui_path_only true defaultFilters {} ⟨10, 100⟩ [] {}
    [.ok ⟨"sending to [EMAIL_1] now", []⟩] 1 "mail a@b.com").1
    "sending to [EMAIL_1] now" _ hdone
  rw [h]
  simp only [Prod.mk.injEq]
  exact ⟨by decide, trivial⟩

end App
end OpenDan
